import Mathlib

/-!
Verification development for the DeBaCl level set tree module
(`debacl/level_set_tree.py`).

The Python data model and algorithms are embedded shallowly:

* `ConnectedComponent` / `LevelSetTree` mirror the two Python classes
  (`float` levels and masses become `ℚ`; the `nodes` dict becomes an
  association list whose iteration order is ascending key order, matching
  CPython's behaviour on small-integer keys, and the spec's requirement
  that iteration order over live nodes must not affect the result).
* `buildTree` embeds the level sweep of `construct_tree_from_graph`.
  The level grid produced by `_utl.define_density_grid` is not part of the
  repository, so the grid is an explicit argument (see
  `constructTreeFromGraph`).
* `mergeBySize` embeds `LevelSetTree._merge_by_size`; dictionary `KeyError`s
  and the unbounded `while` loop of `make_subtree` are made explicit with
  `Except` and fuel.
* Cluster extraction, the k-cut search, and a small heap model for the
  aliasing behaviour of `make_subtree` follow.
-/

deriving instance DecidableEq for Except

namespace DeBaCl

/-- One connected component's lifetime record (`ConnectedComponent` in
`level_set_tree.py`).  `end_level`/`end_mass` are `none` until the node is
closed, mirroring the Python `None`. -/
structure ConnectedComponent where
  idnum : Nat
  parent : Option Nat
  children : List Nat
  start_level : ℚ
  end_level : Option ℚ
  start_mass : ℚ
  end_mass : Option ℚ
  members : List Nat
deriving DecidableEq, Repr

/-- The level set tree (`LevelSetTree.__init__` assigns exactly
`density`, `levels`, `num_levels`, `nodes` and `subgraphs`; `num_levels` is
never read by the core algorithms and is omitted; in particular no
`bg_sets` or `n` attribute is ever assigned). -/
structure LevelSetTree where
  density : List ℚ
  levels : List ℚ
  nodes : List (Nat × ConnectedComponent)
  subgraphs : List (Nat × List Nat)
deriving DecidableEq, Repr

/-! ### Association-list primitives (the `dict` operations used by the code) -/

/-- Dictionary read `m[k]` (as an `Option`). -/
def lookupA {α : Type} : List (Nat × α) → Nat → Option α
  | [], _ => none
  | p :: m, k => if p.1 = k then some p.2 else lookupA m k

/-- In-place field update of the entry at key `k` (Python mutates the node
object held in the dict; a missing key leaves the list unchanged, which
matches a mutation through a stale reference to an object already deleted
from the dict). -/
def updateA {α : Type} (m : List (Nat × α)) (k : Nat) (f : α → α) : List (Nat × α) :=
  m.map (fun p => if p.1 = k then (p.1, f p.2) else p)

/-- `del m[k]` without the `KeyError` check. -/
def eraseA {α : Type} (m : List (Nat × α)) (k : Nat) : List (Nat × α) :=
  m.filter (fun p => p.1 ≠ k)

/-- Key membership. -/
def hasKey {α : Type} (m : List (Nat × α)) (k : Nat) : Bool :=
  m.any (fun p => p.1 == k)

/-- `del m[k]`: raises `KeyError` when the key is absent. -/
def eraseE {α : Type} (m : List (Nat × α)) (k : Nat) : Except String (List (Nat × α)) :=
  if hasKey m k then .ok (eraseA m k) else .error "KeyError"

/-- Dictionary read `m[k]`: raises `KeyError` when the key is absent. -/
def lookupE {α : Type} (m : List (Nat × α)) (k : Nat) : Except String α :=
  match lookupA m k with
  | some v => .ok v
  | none => .error "KeyError"

/-- The key list, in iteration order. -/
def keysA {α : Type} (m : List (Nat × α)) : List Nat := m.map Prod.fst

/-! ### The neighbor graph

`construct_tree_from_graph` builds `G = nx.from_dict_of_lists(enumerate
(adjacency_list))`, an *undirected* graph: an edge exists when either
endpoint lists the other.  The vertex set is `range n` together with every
listed neighbor. -/

/-- Edge relation of the undirected graph built from the adjacency list. -/
def pyEdge (adj : List (List Nat)) (i j : Nat) : Bool :=
  (adj.getD i []).contains j || (adj.getD j []).contains i

/-- Vertex list of the graph (`from_dict_of_lists` adds every key and every
listed neighbor as a node). -/
def vertexList (adj : List (List Nat)) : List Nat :=
  ((List.range adj.length) ++ adj.flatten).dedup

/-- One step of the reachable-set closure inside the vertex list `V`. -/
def expand (e : Nat → Nat → Bool) (V : List Nat) (S : List Nat) : List Nat :=
  V.filter (fun y => S.contains y || S.any (fun x => e x y))

/-- Vertices of `V` reachable from `v` (the closure stabilises after at most
`V.length` rounds). -/
def reach (e : Nat → Nat → Bool) (V : List Nat) (v : Nat) : List Nat :=
  (expand e V)^[V.length] [v]

/-- Connected components of the subgraph induced on `V`
(`nx.connected_components`).  Components are enumerated by their
first-listed vertex; the enumeration order is implementation-arbitrary in
the source and, per the spec, must not affect the resulting tree beyond id
assignment. -/
def compsAux (e : Nat → Nat → Bool) : Nat → List Nat → List (List Nat)
  | 0, _ => []
  | _ + 1, [] => []
  | fuel + 1, v :: rest =>
      let C := reach e (v :: rest) v
      C :: compsAux e fuel ((v :: rest).filter (fun x => ¬ C.contains x))

/-- Connected components of the subgraph induced on `V`. -/
def comps (e : Nat → Nat → Bool) (V : List Nat) : List (List Nat) :=
  compsAux e V.length V

/-- `nx.is_connected` (only ever called on a non-empty subgraph). -/
def isConnectedB (e : Nat → Nat → Bool) (V : List Nat) : Bool :=
  (comps e V).length == 1

/-! ### The level sweep (`construct_tree_from_graph`, lines 1214-1299) -/

/-- State of the sweep: the node table, the live subgraphs
(`id ↦ current vertex set`), and `previous_level`. -/
structure BuildState where
  nodes : List (Nat × ConnectedComponent)
  subgraphs : List (Nat × List Nat)
  prev : ℚ
deriving DecidableEq, Repr

/-- `max(T.nodes.keys())` (the table is never empty when this is read). -/
def maxKey (m : List (Nat × ConnectedComponent)) : Nat :=
  m.foldl (fun a p => max a p.1) 0

/-- Close node `k`: `T.nodes[k].end_level = level; T.nodes[k].end_mass = mass`. -/
def closeNode (m : List (Nat × ConnectedComponent)) (k : Nat) (level mass : ℚ) :
    List (Nat × ConnectedComponent) :=
  updateA m k (fun nd => { nd with end_level := some level, end_mass := some mass })

/-- A freshly created child node
(`ConnectedComponent(new_key, parent=k, children=[], start_level=level,
end_level=None, start_mass=current_mass, end_mass=None, members=c)`). -/
def childNode (nk k : Nat) (level mass : ℚ) (c : List Nat) : ConnectedComponent :=
  { idnum := nk, parent := some k, children := [], start_level := level,
    end_level := none, start_mass := mass, end_mass := none, members := c }

/-- The inner `for c in cc` loop of a split: allocate `max(keys)+1`, append it
to the parent's `children`, create the child node, and register the new live
subgraph. -/
def addChildren (k : Nat) (level mass : ℚ) :
    List (List Nat) → List (Nat × ConnectedComponent) → List (Nat × List Nat) →
    List (Nat × ConnectedComponent) × List (Nat × List Nat)
  | [], m, act => (m, act)
  | c :: cs, m, act =>
      let nk := maxKey m + 1
      let m' := updateA m k (fun nd => { nd with children := nd.children ++ [nk] })
      let m'' := m' ++ [(nk, childNode nk k level mass c)]
      addChildren k level mass cs m'' (act ++ [(nk, c)])

/-- The `for (k, H) in T.subgraphs.iteritems()` loop for one threshold:
remove the background set from each live subgraph, closing vanished nodes,
splitting disconnected ones, and keeping the rest (with their shrunken
vertex sets — `H.remove_nodes_from` mutates the stored subgraph in place).
Returns the updated node table, the surviving subgraphs, and the newly
activated ones (`deactivate_keys`/`activate_subgraphs` are applied after the
loop, which amounts to keeping survivors and appending activations). -/
def levelNodePass (e : Nat → Nat → Bool) (level mass : ℚ) (bg : List Nat) :
    List (Nat × List Nat) →
    List (Nat × ConnectedComponent) → List (Nat × List Nat) → List (Nat × List Nat) →
    List (Nat × ConnectedComponent) × List (Nat × List Nat) × List (Nat × List Nat)
  | [], m, kept, act => (m, kept, act)
  | (k, H) :: rest, m, kept, act =>
      -- H' = H.remove_nodes_from(bg), written out at each use
      if H.filter (fun v => ¬ bg.contains v) = [] then
        levelNodePass e level mass bg rest (closeNode m k level mass) kept act
      else if isConnectedB e (H.filter (fun v => ¬ bg.contains v)) then
        levelNodePass e level mass bg rest m
          (kept ++ [(k, H.filter (fun v => ¬ bg.contains v))]) act
      else
        levelNodePass e level mass bg rest
          (addChildren k level mass
            (comps e (H.filter (fun v => ¬ bg.contains v)))
            (closeNode m k level mass) act).1
          kept
          (addChildren k level mass
            (comps e (H.filter (fun v => ¬ bg.contains v)))
            (closeNode m k level mass) act).2

/-- The background set of one threshold:
`np.where((density > previous_level) & (density <= level))[0]` (indices into
`density`). -/
def bgSet (density : List ℚ) (prev level : ℚ) : List Nat :=
  (List.range density.length).filter
    (fun p => prev < density.getD p 0 ∧ density.getD p 0 ≤ level)

/-- `current_mass = 1. - ((old_vcount - len(bg)) / n)` where `old_vcount`
sums the live subgraph sizes before removal and `n = len(adjacency_list)`. -/
def currentMass (adj : List (List Nat)) (st : BuildState) (bg : List Nat) : ℚ :=
  1 - ((((st.subgraphs.foldl (fun a p => a + p.2.length) 0 : Nat) : ℚ)
    - (bg.length : ℚ)) / (adj.length : ℚ))

/-- One iteration of the removal grid loop: compute the background set over
the indices of `density`, the cumulative mass removed, and process every
live subgraph. -/
def levelStep (adj : List (List Nat)) (density : List ℚ) (st : BuildState)
    (level : ℚ) : BuildState :=
  { nodes := (levelNodePass (pyEdge adj) level
      (currentMass adj st (bgSet density st.prev level))
      (bgSet density st.prev level) st.subgraphs st.nodes [] []).1,
    subgraphs := (levelNodePass (pyEdge adj) level
      (currentMass adj st (bgSet density st.prev level))
      (bgSet density st.prev level) st.subgraphs st.nodes [] []).2.1
      ++ (levelNodePass (pyEdge adj) level
      (currentMass adj st (bgSet density st.prev level))
      (bgSet density st.prev level) st.subgraphs st.nodes [] []).2.2,
    prev := level }

/-- A root node created for a connected component of the full graph. -/
def rootNode (i : Nat) (c : List Nat) : ConnectedComponent :=
  { idnum := i, parent := none, children := [], start_level := 0,
    end_level := none, start_mass := 0, end_mass := none, members := c }

/-- The initial state: one root per connected component of the full graph. -/
def initState (adj : List (List Nat)) : BuildState :=
  { nodes := (comps (pyEdge adj) (vertexList adj)).enum.map
      (fun p => (p.1, rootNode p.1 p.2)),
    subgraphs := (comps (pyEdge adj) (vertexList adj)).enum,
    prev := 0 }

/-- The full sweep of `construct_tree_from_graph` before the optional prune.
The level grid is an explicit argument: `_utl.define_density_grid` is not
part of this repository (modelled from the spec, which constrains it to an
ascending grid spanning `(min(density), max(density)]`). -/
def buildTree (adj : List (List Nat)) (density : List ℚ) (levels : List ℚ) :
    LevelSetTree :=
  { density := density, levels := levels,
    nodes := (levels.foldl (levelStep adj density) (initState adj)).nodes,
    subgraphs := (levels.foldl (levelStep adj density) (initState adj)).subgraphs }

/-! ### Size-merge pruning (`LevelSetTree._merge_by_size`, lines 479-562)

The Python code works on `tree = copy.deepcopy(self)` (value semantics here),
deletes small root subtrees via `make_subtree`, then processes the snapshot
of internal nodes in descending id order.  Dictionary `KeyError`s are modelled
with `Except`; the `while` loop of `make_subtree` gets fuel
(`nodes.length + 1` pops suffice whenever children lists are duplicate-free
and reference-coherent, since then no key is ever enqueued twice). -/

/-- Python 2 `max` over `end_level`-style values, where `None` compares below
every number.  Only ever reached with a non-empty list. -/
def py2maxQ : List (Option ℚ) → Option ℚ
  | [] => none
  | x :: xs => xs.foldl (fun a b =>
      match a, b with
      | none, b => b
      | a, none => a
      | some a, some b => some (max a b)) x

/-- The `while len(queue) > 0` loop of `make_subtree`, collecting the keys of
the subtree rooted at the initial queue's parent (`queue.pop()` pops the last
element; each popped key is read from `self.nodes`, a `KeyError` if absent). -/
def subtreeLoop (m : List (Nat × ConnectedComponent)) :
    Nat → List Nat → List Nat → Except String (List Nat)
  | 0, [], acc => .ok acc
  | 0, _ :: _, _ => .error "fuel exhausted"
  | fuel + 1, queue, acc =>
      match queue.getLast? with
      | none => .ok acc
      | some bix =>
          match lookupA m bix with
          | none => .error "KeyError"
          | some nd => subtreeLoop m fuel (queue.dropLast ++ nd.children) (acc ++ [bix])

/-- Key set of `make_subtree(ix)` (the root plus every key the traversal
assigns), used by `_merge_by_size` to delete whole root subtrees. -/
def subtreeKeys (m : List (Nat × ConnectedComponent)) (ix : Nat) :
    Except String (List Nat) := do
  let nd ← lookupE m ix
  subtreeLoop m (m.length + 1) nd.children [ix]

/-- Delete the subtree of each small root
(`for ix in root_tree.nodes.iterkeys(): del tree.nodes[ix]`; dict keys are
unique, so each key is deleted once). -/
def removeRoots (m : List (Nat × ConnectedComponent)) :
    List Nat → Except String (List (Nat × ConnectedComponent))
  | [] => .ok m
  | r :: rs => do
      let S ← subtreeKeys m r
      let m' ← S.dedup.foldlM (fun acc k => eraseE acc k) m
      removeRoots m' rs

/-- Insertion into a sorted-descending list. -/
def insertDesc (a : Nat) : List Nat → List Nat
  | [] => [a]
  | b :: l => if b ≤ a then a :: b :: l else b :: insertDesc a l

/-- `np.sort(parents)[::-1]`: the snapshot of internal-node ids in descending
order. -/
def sortDesc (l : List Nat) : List Nat := l.foldr insertDesc []

/-- `tree.nodes[c].parent = ix_parent` for each grandchild (a read, hence a
`KeyError` when absent, followed by a field write). -/
def setParents (m : List (Nat × ConnectedComponent)) (p : Nat) :
    List Nat → Except String (List (Nat × ConnectedComponent))
  | [] => .ok m
  | c :: cs => do
      let _ ← lookupE m c
      setParents (updateA m c (fun nd => { nd with parent := some p })) p cs

/-- `del tree.nodes[k]` over a list of keys. -/
def eraseMany (m : List (Nat × ConnectedComponent)) :
    List Nat → Except String (List (Nat × ConnectedComponent))
  | [] => .ok m
  | k :: ks => do
      let m' ← eraseE m k
      eraseMany m' ks

/-- The main pruning loop body, one `ix_parent` at a time (`threshold` is the
integer `τ`; a child is *big* when `len(members) >= threshold`). -/
def processParents (τ : ℤ) :
    List Nat → List (Nat × ConnectedComponent) →
    Except String (List (Nat × ConnectedComponent))
  | [], m => .ok m
  | p :: rest, m => do
      let pnd ← lookupE m p
      -- kid_size = {k: len(tree.nodes[k].members) for k in parent.children}
      let kids ← pnd.children.mapM (fun c => do
        let cnd ← lookupE m c
        pure (c, cnd))
      let nbig := (kids.filter (fun q => τ ≤ (q.2.members.length : ℤ))).length
      if nbig = 0 then
        -- absorb all (small) children into the parent
        let eL := py2maxQ (kids.map (fun q => q.2.end_level))
        let eM := py2maxQ (kids.map (fun q => q.2.end_mass))
        let m₁ := updateA m p (fun nd => { nd with end_level := eL, end_mass := eM })
        let m₂ ← eraseMany m₁ pnd.children
        let m₃ := updateA m₂ p (fun nd => { nd with children := [] })
        processParents τ rest m₃
      else if nbig = 1 then
        -- splice the unique big child out
        -- ix_bigkid = [k for k, v in kid_size.iteritems() if v >= threshold][0]
        let bq ← match (kids.filter (fun q => τ ≤ (q.2.members.length : ℤ))).head? with
          | some q => pure q
          | none => Except.error "IndexError"
        let bigkid := bq.2
        let m₁ := updateA m p (fun nd =>
          { nd with end_level := bigkid.end_level, end_mass := bigkid.end_mass })
        let m₂ ← setParents m₁ p bigkid.children
        let m₃ ← eraseMany m₂ (pnd.children.filter (fun k => k ≠ bq.1))
        let m₄ := updateA m₃ p (fun nd => { nd with children := bigkid.children })
        let m₅ ← eraseE m₄ bq.1
        processParents τ rest m₅
      else
        processParents τ rest m

/-- `LevelSetTree._merge_by_size(threshold)`: returns a new tree, the input
is unchanged (value semantics make the `deepcopy` implicit). -/
def mergeBySize (t : LevelSetTree) (τ : ℤ) : Except String LevelSetTree := do
  let small_roots := ((t.nodes.filter (fun q =>
      q.2.parent = none ∧ (q.2.members.length : ℤ) ≤ τ)).map Prod.fst)
  let m₁ ← removeRoots t.nodes small_roots
  let parents := sortDesc ((m₁.filter (fun q => 1 ≤ q.2.children.length)).map Prod.fst)
  let m₂ ← processParents τ parents m₁
  pure { t with nodes := m₂ }

/-- `construct_tree_from_graph`: the sweep followed by the optional
`T.prune(threshold=prune_threshold)` (which dispatches to `_merge_by_size`).
The level grid argument is modelled from the spec (see `buildTree`). -/
def constructTreeFromGraph (adj : List (List Nat)) (density : List ℚ)
    (levels : List ℚ) (pruneThreshold : Option ℤ) : Except String LevelSetTree :=
  let T := buildTree adj density levels
  match pruneThreshold with
  | none => .ok T
  | some τ => mergeBySize T τ

/-! ### Cluster extraction (`get_cluster_labels` and helpers)

Labels are `(point_index, cluster_label)` rows; the `numpy` label matrix is
modelled as that list of rows. -/

/-- `self.bg_sets`: `LevelSetTree.__init__` assigns only `density`, `levels`,
`num_levels`, `nodes` and `subgraphs`, and no function in the module ever
assigns a `bg_sets` attribute, so every read of it raises `AttributeError`. -/
def LevelSetTree.bg_sets (_t : LevelSetTree) : Except String (List (List Nat)) :=
  .error "AttributeError: bg_sets"

/-- `self.n`: likewise never assigned anywhere in the module. -/
def LevelSetTree.nAttr (_t : LevelSetTree) : Except String ℚ :=
  .error "AttributeError: n"

/-- `self.findKCut`: the class defines `find_K_cut` but no `findKCut`, so the
attribute lookup in `_first_K_level_cluster` raises `AttributeError`. -/
def LevelSetTree.findKCutAttr (_t : LevelSetTree) : Except String (ℤ → ℚ) :=
  .error "AttributeError: findKCut"

/-- Build the label rows for an (ordered) list of clusters, each given with
its point list: cluster `i` contributes one `(point, i)` row per point. -/
def labelRows (clusters : List (List Nat)) : List (Nat × Nat) :=
  clusters.enum.flatMap (fun q => q.2.map (fun pt => (pt, q.1)))

/-- `_leaf_cluster`: every node with `children == []` is one cluster. -/
def leafCluster (t : LevelSetTree) : List (Nat × Nat) × List Nat :=
  let leafPairs := t.nodes.filter (fun q => q.2.children = [])
  (labelRows (leafPairs.map (fun q => q.2.members)), leafPairs.map Prod.fst)

/-- Python 2 ascending order on `end_level` values where `None` sorts below
every number (`np.argsort`'s order among ties is unspecified; a stable
insertion sort is chosen). -/
def leOptQ : Option ℚ → Option ℚ → Bool
  | none, _ => true
  | some _, none => false
  | some a, some b => a ≤ b

/-- Stable insertion into a list sorted by `le`. -/
def insertLeBy {α : Type} (le : α → α → Bool) (a : α) : List α → List α
  | [] => [a]
  | b :: l => if le a b then a :: b :: l else b :: insertLeBy le a l

/-- Stable sort by `le`. -/
def sortLeBy {α : Type} (le : α → α → Bool) (l : List α) : List α :=
  l.foldr (insertLeBy le) []

/-- Python slice `l[:m]` for a possibly negative `m`. -/
def pySlice {α : Type} (l : List α) (m : ℤ) : List α :=
  if m < 0 then l.take ((l.length : ℤ) + m).toNat else l.take m.toNat

/-- `_first_K_cluster(k)`: unfold the `k - (number of roots)` earliest splits
and take the frontier of the resulting candidate set. -/
def firstKCluster (t : LevelSetTree) (k : ℤ) :
    Except String (List (Nat × Nat) × List Nat) := do
  let parentPairs := t.nodes.filter (fun q => 0 < q.2.children.length)
  let roots := (t.nodes.filter (fun q => q.2.parent = none)).map Prod.fst
  let ordered := sortLeBy (fun a b => leOptQ a.2.end_level b.2.end_level) parentPairs
  let starParents := pySlice ordered (k - (roots.length : ℤ))
  let candidates := roots ++ starParents.flatMap (fun q => q.2.children)
  let frontier ← candidates.filterM (fun x => do
    let nd ← lookupE t.nodes x
    pure ((nd.children.filter (fun c => candidates.contains c)).length = 0))
  let clusters ← frontier.mapM (fun c => do
    let nd ← lookupE t.nodes c
    pure nd.members)
  pure (labelRows clusters, frontier)

/-- Python 2 `v.end_level > c` where `None` compares below every number. -/
def pyLtOpt (c : ℚ) : Option ℚ → Bool
  | none => false
  | some e => c < e

/-- `_upper_set_cluster(threshold, scale)`.  Both branches read `self.bg_sets`
(the `'alpha'` branch immediately, the `'lambda'` branch inside the
`upper_pts` comprehension, which touches the attribute only when
`upper_levels` is non-empty). -/
def upperSetCluster (t : LevelSetTree) (threshold : ℚ) (scale : String) :
    Except String (List (Nat × Nat) × List Nat) := do
  if scale = "alpha" then
    let bgs ← t.bg_sets
    let nv ← t.nAttr
    let nBg := bgs.map (fun x => (x.length : ℚ))
    let alphas := (nBg.foldl (fun acc x =>
        acc ++ [(acc.getLastD 0) + x]) []).map (fun s => s / nv)
    let upper_levels := (List.range alphas.length).filter
      (fun i => threshold < alphas.getD i 0)
    let nodesSel := t.nodes.filter (fun q =>
      q.2.start_mass ≤ threshold ∧ pyLtOpt threshold q.2.end_mass)
    let upper_pts := upper_levels.flatMap (fun x => bgs.getD x [])
    let clusters := nodesSel.map (fun q =>
      upper_pts.filter (fun pt => q.2.members.contains pt))
    pure (labelRows clusters, nodesSel.map Prod.fst)
  else
    let upper_levels := (List.range t.levels.length).filter
      (fun i => threshold < t.levels.getD i 0)
    let nodesSel := t.nodes.filter (fun q =>
      q.2.start_level ≤ threshold ∧ pyLtOpt threshold q.2.end_level)
    let upper_pts ← if upper_levels = [] then pure [] else do
      let bgs ← t.bg_sets
      pure (upper_levels.flatMap (fun x => bgs.getD x []))
    let clusters := nodesSel.map (fun q =>
      upper_pts.filter (fun pt => q.2.members.contains pt))
    pure (labelRows clusters, nodesSel.map Prod.fst)

/-- `_first_K_level_cluster(k)`: evaluates `self.findKCut(k)` first. -/
def firstKLevelCluster (t : LevelSetTree) (k : ℤ) :
    Except String (List (Nat × Nat) × List Nat) := do
  let f ← t.findKCutAttr
  let cut := f k
  let nodesSel := t.nodes.filter (fun q =>
    q.2.start_level ≤ cut ∧ pyLtOpt cut q.2.end_level)
  let clusters := nodesSel.map (fun q => q.2.members)
  pure (labelRows clusters, nodesSel.map Prod.fst)

/-- `get_cluster_labels(method, **kwargs)`: keyword arguments are modelled as
optional parameters; a missing required one raises the dispatcher's
`ValueError`. -/
def getClusterLabels (t : LevelSetTree) (method : String) (k : Option ℤ)
    (threshold : Option ℚ) (scale : Option String) :
    Except String (List (Nat × Nat) × List Nat) :=
  if method = "leaf" then .ok (leafCluster t)
  else if method = "first-k" then
    match k with
    | none => .error "ValueError: Incorrect arguments for the first-k cluster labeling method."
    | some kk => firstKCluster t kk
  else if method = "upper-set" then
    match threshold, scale with
    | some th, some sc => upperSetCluster t th sc
    | _, _ => .error "ValueError: Incorrect arguments for the upper-set cluster labeling method."
  else if method = "k-level" then
    match k with
    | none => .error "ValueError: Incorrect arguments for the k-level cluster labeling method."
    | some kk => firstKLevelCluster t kk
  else .error "ValueError: Cluster labeling method not understood."

/-! ### The k-cut search (`find_K_cut`, lines 774-813) -/

/-- `np.min` (raises on a zero-size array). -/
def npMinQ : List ℚ → Except String ℚ
  | [] => .error "ValueError: zero-size array"
  | x :: xs => .ok (xs.foldl min x)

/-- `np.min` on integer counts. -/
def npMinZ : List ℤ → Except String ℤ
  | [] => .error "ValueError: zero-size array"
  | x :: xs => .ok (xs.foldl min x)

/-- `np.max` on integer counts. -/
def npMaxZ : List ℤ → Except String ℤ
  | [] => .error "ValueError: zero-size array"
  | x :: xs => .ok (xs.foldl max x)

/-- `nclust[c]`: the number of nodes whose `[start_level, end_level)`
interval contains `c` (Python 2: a `None` end level compares below `c`, so
such a node is never counted; the claims' trees are fully closed). -/
def activeCount (t : LevelSetTree) (c : ℚ) : ℤ :=
  ((t.nodes.filter (fun q =>
    q.2.start_level ≤ c ∧ pyLtOpt c q.2.end_level)).length : ℤ)

/-- `crits = np.unique(starts + ends)` as a duplicate-free list (sortedness
is irrelevant: the list is only used as a key set for minima/maxima). -/
def critList (t : LevelSetTree) : List ℚ :=
  (t.nodes.map (fun q => q.2.start_level) ++
   t.nodes.filterMap (fun q => q.2.end_level)).dedup

/-- `find_K_cut(k)`. -/
def find_K_cut (t : LevelSetTree) (k : ℤ) : Except String ℚ := do
  let crits := critList t
  let vals := crits.map (activeCount t)
  let width ← npMaxZ vals
  if k ∈ vals then
    npMinQ (crits.filter (fun c => activeCount t c = k))
  else if width < k then
    npMinQ (crits.filter (fun c => activeCount t c = width))
  else do
    let ktemp ← npMinZ (vals.filter (fun v => k < v))
    npMinQ (crits.filter (fun c => activeCount t c = ktemp))

/-! ### Heap model for `make_subtree` (lines 451-477)

`make_subtree` deep-copies the root (`copy.deepcopy`) but assigns every
descendant by reference (`T.nodes[branch_ix] = self.nodes[branch_ix]`).  To
state aliasing, nodes live in an explicit store and a tree holds
`id ↦ address`. -/

/-- An address-indexed store of node objects. -/
structure Heap where
  store : List (Nat × ConnectedComponent)
  next : Nat
deriving DecidableEq, Repr

/-- A tree as the Python runtime sees it: `nodes` maps ids to addresses. -/
structure TreeRef where
  nodeAddr : List (Nat × Nat)
deriving DecidableEq, Repr

/-- Read the object at an address. -/
def Heap.read (h : Heap) (a : Nat) : Option ConnectedComponent :=
  lookupA h.store a

/-- Overwrite the object at an address (a mutation visible through every
alias of that address). -/
def Heap.write (h : Heap) (a : Nat) (v : ConnectedComponent) : Heap :=
  { h with store := updateA h.store a (fun _ => v) }

/-- Allocate a fresh address holding a copy of `v` (`copy.deepcopy`). -/
def Heap.alloc (h : Heap) (v : ConnectedComponent) : Heap × Nat :=
  ({ store := h.store ++ [(h.next, v)], next := h.next + 1 }, h.next)

/-- Read the node of tree `t` with id `i` through the heap. -/
def readNode (h : Heap) (t : TreeRef) (i : Nat) : Option ConnectedComponent :=
  (lookupA t.nodeAddr i).bind h.read

/-- The `while` loop of `make_subtree`: each popped id's *address* is copied
into the new tree (`T.nodes[branch_ix] = self.nodes[branch_ix]` — no copy of
the object). -/
def subtreeRefLoop (h : Heap) (self : TreeRef) :
    Nat → List Nat → List (Nat × Nat) → Except String (List (Nat × Nat))
  | 0, [], acc => .ok acc
  | 0, _ :: _, _ => .error "fuel exhausted"
  | fuel + 1, queue, acc =>
      match queue.getLast? with
      | none => .ok acc
      | some bix =>
          match lookupA self.nodeAddr bix with
          | none => .error "KeyError"
          | some addr =>
              match h.read addr with
              | none => .error "dangling address"
              | some nd =>
                  subtreeRefLoop h self fuel (queue.dropLast ++ nd.children)
                    (acc ++ [(bix, addr)])

/-- `make_subtree(ix)` on the heap model: the root is deep-copied into a
fresh address with `parent := none`; every descendant entry shares the
original address. -/
def makeSubtree (h : Heap) (self : TreeRef) (ix : Nat) :
    Except String (Heap × TreeRef) := do
  let a₀ ← match lookupA self.nodeAddr ix with
    | some a => pure a
    | none => Except.error "KeyError"
  let v ← match h.read a₀ with
    | some v => pure v
    | none => Except.error "dangling address"
  let (h₁, a₁) := h.alloc v
  let h₂ := h₁.write a₁ { v with parent := none }
  let rest ← subtreeRefLoop h₂ self (self.nodeAddr.length + 1) v.children []
  pure (h₂, ⟨[(ix, a₁)] ++ rest⟩)

/-! ## The sweep invariant

`TableInv` collects the structural invariants of the node table that hold
throughout construction; `LiveShape` is the shape of an open node together
with its registered live subgraph; `MidInv` is the invariant of the
in-progress per-level loop. -/

/-- An open node and its live subgraph: no end values, no children yet, and
the live vertex set is a duplicate-free subset of the node's members. -/
def LiveShape (m : List (Nat × ConnectedComponent)) (p : Nat × List Nat) : Prop :=
  ∃ nd, lookupA m p.1 = some nd ∧ nd.end_level = none ∧ nd.end_mass = none ∧
    nd.children = [] ∧ p.2 ⊆ nd.members ∧ p.2.Nodup

/-- Structural invariants of the node table maintained by the sweep. -/
structure TableInv (m : List (Nat × ConnectedComponent)) : Prop where
  keys_range : keysA m = List.range m.length
  end_pair : ∀ i nd, lookupA m i = some nd →
    (nd.end_level = none ↔ nd.end_mass = none)
  start_match : ∀ i nd, lookupA m i = some nd → ∀ p, nd.parent = some p →
    ∃ pnd, lookupA m p = some pnd ∧ pnd.end_level = some nd.start_level ∧
      pnd.end_mass = some nd.start_mass ∧ p < i
  coherent : ∀ i nd, lookupA m i = some nd → nd.children.Nodup ∧
    ∀ c ∈ nd.children, ∃ cnd, lookupA m c = some cnd ∧ cnd.parent = some i ∧
      i < c ∧ cnd.members ⊆ nd.members
  back_coherent : ∀ i nd, lookupA m i = some nd → ∀ p, nd.parent = some p →
    ∃ pnd, lookupA m p = some pnd ∧ i ∈ pnd.children
  members_ok : ∀ i nd, lookupA m i = some nd → nd.members ≠ [] ∧ nd.members.Nodup
  child_count : ∀ i nd, lookupA m i = some nd → nd.children.length ≠ 1

/-- Invariant of the in-progress `for (k, H) in T.subgraphs` loop. -/
structure MidInv (m : List (Nat × ConnectedComponent))
    (remaining kept act : List (Nat × List Nat)) : Prop where
  table : TableInv m
  shape : ∀ p, (p ∈ remaining ∨ p ∈ kept ∨ p ∈ act) → LiveShape m p
  rem_nodup : (remaining.map Prod.fst).Nodup
  out_nodup : ((kept ++ act).map Prod.fst).Nodup
  disj : ∀ i, i ∈ remaining.map Prod.fst → i ∉ (kept ++ act).map Prod.fst
  open_iff : ∀ i nd, lookupA m i = some nd → (nd.end_level = none ↔
    (i ∈ remaining.map Prod.fst ∨ i ∈ (kept ++ act).map Prod.fst))

/-- Density bounds of the live vertices: every live vertex indexes `density`
and its density value is above the previous threshold. -/
def DenseInv (density : List ℚ) (st : BuildState) : Prop :=
  ∀ p ∈ st.subgraphs, ∀ v ∈ p.2,
    v < density.length ∧ st.prev < density.getD v 0

/-! ## Predicates for the pruning analysis

`MergeWF` is the part of `TableInv` that `_merge_by_size` relies on and
preserves; `SettledAt`/`Settled` say a node table can no longer be changed
by the per-parent loop; `RootsBig` says no root would be removed by the
small-root sweep. -/

/-- The child `c` currently counts as *big* for threshold `τ` in table `m`. -/
def bigIn (m : List (Nat × ConnectedComponent)) (τ : ℤ) (c : Nat) : Bool :=
  match lookupA m c with
  | some v => decide (τ ≤ (v.members.length : ℤ))
  | none => false

/-- A node the per-parent loop would leave untouched: it is a leaf, or all
its children are present and at least two of them are big. -/
def SettledAt (m : List (Nat × ConnectedComponent)) (τ : ℤ)
    (nd : ConnectedComponent) : Prop :=
  nd.children = [] ∨ ((∀ c ∈ nd.children, ∃ v, lookupA m c = some v) ∧
    2 ≤ (nd.children.filter (bigIn m τ)).length)

/-- Every node of the table is settled. -/
def Settled (m : List (Nat × ConnectedComponent)) (τ : ℤ) : Prop :=
  ∀ i nd, lookupA m i = some nd → SettledAt m τ nd

/-- Well-formedness used and preserved by `_merge_by_size`: unique ids,
children present with correct back-pointers, strictly larger ids and
members contained in the parent's, parent pointers to smaller ids, and
non-empty duplicate-free member lists. -/
structure MergeWF (m : List (Nat × ConnectedComponent)) : Prop where
  keys_nodup : (keysA m).Nodup
  coherent : ∀ i nd, lookupA m i = some nd → nd.children.Nodup ∧
    ∀ c ∈ nd.children, ∃ cnd, lookupA m c = some cnd ∧ cnd.parent = some i ∧
      i < c ∧ cnd.members ⊆ nd.members
  parent_lt : ∀ i nd, lookupA m i = some nd → ∀ p, nd.parent = some p → p < i
  members_ok : ∀ i nd, lookupA m i = some nd → nd.members ≠ [] ∧ nd.members.Nodup

/-- Every root strictly exceeds the pruning threshold. -/
def RootsBig (m : List (Nat × ConnectedComponent)) (τ : ℤ) : Prop :=
  ∀ i nd, lookupA m i = some nd → nd.parent = none → τ < (nd.members.length : ℤ)

/-! ## Concrete artefacts used by the claim theorems -/

/-- A 3-point chain `0 - 1 - 2` whose middle point has the lowest density:
the root splits at level 1 into two children and everything is removed at
level 2. -/
def chainTree : LevelSetTree := buildTree [[1], [0, 2], [1]] [2, 1, 2] [1, 2]

/-- The child node with id 1 of `chainTree` (component `{0}` born at the
split). -/
def chainChild1 : ConnectedComponent :=
  { idnum := 1, parent := some 0, children := [], start_level := 1,
    end_level := some 2, start_mass := 1/3, end_mass := some 1, members := [0] }

/-- A tree with zero nodes, as produced by `LevelSetTree()`. -/
def emptyTree : LevelSetTree :=
  { density := [], levels := [], nodes := [], subgraphs := [] }

/-- A two-node tree living in the heap model: root 0 with child 1. -/
def exNode0 : ConnectedComponent :=
  { idnum := 0, parent := none, children := [1], start_level := 0,
    end_level := some 1, start_mass := 0, end_mass := some (1/2),
    members := [0, 1] }

/-- The child node at address 1. -/
def exNode1 : ConnectedComponent :=
  { idnum := 1, parent := some 0, children := [], start_level := 1,
    end_level := some 2, start_mass := 1/2, end_mass := some 1, members := [1] }

/-- The heap holding the two nodes. -/
def exHeap : Heap := { store := [(0, exNode0), (1, exNode1)], next := 2 }

/-- The original tree object: ids 0 and 1 at addresses 0 and 1. -/
def exTreeRef : TreeRef := { nodeAddr := [(0, 0), (1, 1)] }

/-- The heap after `make_subtree(0)`: one fresh address (2) holding the deep
copy of the root; the descendant object at address 1 is untouched and
shared. -/
def exHeapAfter : Heap :=
  { store := [(0, exNode0), (1, exNode1), (2, exNode0)], next := 3 }

/-- A mutation of the child node (members emptied). -/
def exNode1Mut : ConnectedComponent := { exNode1 with members := [] }


/-! ### A malformed tree for the pruning idempotence counterexample

Node 7 appears both as the (real) child of node 5 and, spuriously, in the
children list of node 10 while its `parent` field names 5.  The first prune
deletes 7 (absorbed into 5) but cannot fix 10's stale reference; the second
prune then raises `KeyError`. -/

/-- Root 5: one small child (7), big member list. -/
def c3n5 : ConnectedComponent :=
  { idnum := 5, parent := none, children := [7], start_level := 0,
    end_level := some 1, start_mass := 0, end_mass := some 1,
    members := [1, 2, 3] }

/-- The small leaf 7, child of 5. -/
def c3n7 : ConnectedComponent :=
  { idnum := 7, parent := some 5, children := [], start_level := 1,
    end_level := some 2, start_mass := 0, end_mass := some 1, members := [1] }

/-- A big leaf of root 10. -/
def c3n8 : ConnectedComponent :=
  { idnum := 8, parent := some 10, children := [], start_level := 1,
    end_level := some 2, start_mass := 0, end_mass := some 1, members := [4, 5] }

/-- A second big leaf of root 10. -/
def c3n9 : ConnectedComponent :=
  { idnum := 9, parent := some 10, children := [], start_level := 1,
    end_level := some 2, start_mass := 0, end_mass := some 1, members := [6, 7] }

/-- Root 10, whose children list also (incorrectly) names node 7. -/
def c3n10 : ConnectedComponent :=
  { idnum := 10, parent := none, children := [8, 9, 7], start_level := 0,
    end_level := some 1, start_mass := 0, end_mass := some 1,
    members := [4, 5, 6, 7] }

/-- The malformed input tree. -/
def c3tree : LevelSetTree :=
  { density := [], levels := [],
    nodes := [(5, c3n5), (7, c3n7), (8, c3n8), (9, c3n9), (10, c3n10)],
    subgraphs := [] }

/-- The result of the first prune at threshold 2: node 7 is gone (its end
values absorbed into 5) but node 10 still lists it as a child. -/
def c3tree1 : LevelSetTree :=
  { density := [], levels := [],
    nodes := [(5, { c3n5 with end_level := some 2, children := [] }),
      (8, c3n8), (9, c3n9), (10, c3n10)],
    subgraphs := [] }

/-! ## Lemmas: association lists -/

section AssocLemmas

variable {α : Type}

@[simp] theorem lookupA_nil {k : Nat} : lookupA ([] : List (Nat × α)) k = none := rfl

theorem lookupA_cons {p : Nat × α} {m : List (Nat × α)} {k : Nat} :
    lookupA (p :: m) k = if p.1 = k then some p.2 else lookupA m k := rfl

theorem lookupA_append {m m' : List (Nat × α)} {k : Nat} :
    lookupA (m ++ m') k = ((lookupA m k).rec (lookupA m' k) (fun v => some v)) := by
  induction m with
  | nil => simp
  | cons p m ih =>
      by_cases h : p.1 = k <;> simp [lookupA_cons, h, ih]

theorem lookupA_append_left {m m' : List (Nat × α)} {k : Nat} {v : α}
    (h : lookupA m k = some v) : lookupA (m ++ m') k = some v := by
  rw [lookupA_append, h]

theorem lookupA_append_right {m m' : List (Nat × α)} {k : Nat}
    (h : lookupA m k = none) : lookupA (m ++ m') k = lookupA m' k := by
  rw [lookupA_append, h]

theorem lookupA_updateA_self {m : List (Nat × α)} {k : Nat} {f : α → α} :
    lookupA (updateA m k f) k = (lookupA m k).map f := by
  induction m with
  | nil => rfl
  | cons p m ih =>
      by_cases h : p.1 = k
      · simp [updateA, lookupA_cons, h]
      · simpa [updateA, lookupA_cons, h] using ih

theorem updateA_cons {a k : Nat} {v : α} {m : List (Nat × α)} {f : α → α} :
    updateA ((a, v) :: m) k f
      = (if a = k then (a, f v) else (a, v)) :: updateA m k f := by
  by_cases h : a = k <;> simp [updateA, h]

theorem eraseA_cons {a k : Nat} {v : α} {m : List (Nat × α)} :
    eraseA ((a, v) :: m) k
      = if a = k then eraseA m k else (a, v) :: eraseA m k := by
  by_cases h : a = k <;> simp [eraseA, h]

theorem lookupA_updateA_ne {m : List (Nat × α)} {k j : Nat} {f : α → α}
    (h : k ≠ j) : lookupA (updateA m k f) j = lookupA m j := by
  induction m with
  | nil => rfl
  | cons p m ih =>
      obtain ⟨a, v⟩ := p
      rw [updateA_cons]
      by_cases hp : a = k
      · subst hp
        rw [if_pos rfl, lookupA_cons, lookupA_cons]
        simp only
        rw [if_neg h, if_neg h]
        exact ih
      · rw [if_neg hp, lookupA_cons, lookupA_cons]
        simp only
        by_cases hj : a = j
        · rw [if_pos hj, if_pos hj]
        · rw [if_neg hj, if_neg hj]
          exact ih

theorem keysA_updateA {m : List (Nat × α)} {k : Nat} {f : α → α} :
    keysA (updateA m k f) = keysA m := by
  induction m with
  | nil => rfl
  | cons p m ih =>
      obtain ⟨a, v⟩ := p
      rw [updateA_cons]
      by_cases hp : a = k
      · rw [if_pos hp]
        simpa [keysA] using ih
      · rw [if_neg hp]
        simpa [keysA] using ih

theorem updateA_not_mem {m : List (Nat × α)} {k : Nat} {f : α → α}
    (h : k ∉ keysA m) : updateA m k f = m := by
  induction m with
  | nil => rfl
  | cons p m ih =>
      obtain ⟨a, v⟩ := p
      simp only [keysA, List.map_cons, List.mem_cons, not_or] at h
      rw [updateA_cons, if_neg (fun hak => h.1 hak.symm),
        ih (by simpa [keysA] using h.2)]

theorem lookupA_eraseA_self {m : List (Nat × α)} {k : Nat} :
    lookupA (eraseA m k) k = none := by
  induction m with
  | nil => rfl
  | cons p m ih =>
      obtain ⟨a, v⟩ := p
      rw [eraseA_cons]
      by_cases h : a = k
      · rw [if_pos h]
        exact ih
      · rw [if_neg h, lookupA_cons]
        simp only
        rw [if_neg h]
        exact ih

theorem lookupA_eraseA_ne {m : List (Nat × α)} {k j : Nat} (h : j ≠ k) :
    lookupA (eraseA m k) j = lookupA m j := by
  induction m with
  | nil => rfl
  | cons p m ih =>
      obtain ⟨a, v⟩ := p
      rw [eraseA_cons]
      by_cases hp : a = k
      · rw [if_pos hp, lookupA_cons]
        simp only
        rw [if_neg (fun hj : a = j => h (hj ▸ hp))]
        exact ih
      · rw [if_neg hp, lookupA_cons, lookupA_cons]
        simp only
        by_cases hj : a = j
        · rw [if_pos hj, if_pos hj]
        · rw [if_neg hj, if_neg hj]
          exact ih

theorem mem_of_lookupA {m : List (Nat × α)} {k : Nat} {v : α}
    (h : lookupA m k = some v) : (k, v) ∈ m := by
  induction m with
  | nil => simp at h
  | cons p m ih =>
      obtain ⟨a, w⟩ := p
      rw [lookupA_cons] at h
      simp only at h
      by_cases hp : a = k
      · rw [if_pos hp] at h
        simp only [Option.some_inj] at h
        subst hp
        subst h
        exact List.mem_cons_self _ _
      · rw [if_neg hp] at h
        exact List.mem_cons_of_mem _ (ih h)

theorem lookupA_isSome_iff {m : List (Nat × α)} {k : Nat} :
    (lookupA m k).isSome = true ↔ k ∈ keysA m := by
  induction m with
  | nil => simp [keysA]
  | cons p m ih =>
      obtain ⟨a, v⟩ := p
      rw [lookupA_cons]
      by_cases hp : a = k
      · simp [keysA, hp]
      · simp only at *
        rw [if_neg hp]
        simpa [keysA, hp, Ne.symm hp] using ih

theorem lookupA_eq_none_iff {m : List (Nat × α)} {k : Nat} :
    lookupA m k = none ↔ k ∉ keysA m := by
  rw [← lookupA_isSome_iff]
  cases lookupA m k <;> simp

theorem lookupA_of_mem_nodup {m : List (Nat × α)} {k : Nat} {v : α}
    (hn : (keysA m).Nodup) (h : (k, v) ∈ m) : lookupA m k = some v := by
  induction m with
  | nil => simp at h
  | cons p m ih =>
      obtain ⟨a, w⟩ := p
      rw [keysA, List.map_cons, List.nodup_cons] at hn
      rcases List.mem_cons.mp h with h | h
      · rw [Prod.mk.injEq] at h
        obtain ⟨h1, h2⟩ := h
        subst h1
        subst h2
        rw [lookupA_cons]
        simp
      · rw [lookupA_cons]
        have hk : k ∈ keysA m := List.mem_map_of_mem Prod.fst h
        simp only
        rw [if_neg (fun hp : a = k => hn.1 (hp ▸ hk))]
        exact ih hn.2 h

theorem hasKey_iff {m : List (Nat × α)} {k : Nat} :
    hasKey m k = true ↔ k ∈ keysA m := by
  simp only [hasKey, List.any_eq_true, keysA, List.mem_map]
  constructor
  · rintro ⟨p, hp, he⟩
    exact ⟨p, hp, by simpa using he⟩
  · rintro ⟨p, hp, he⟩
    exact ⟨p, hp, by simp [he]⟩

theorem keysA_eraseA {m : List (Nat × α)} {k : Nat} :
    keysA (eraseA m k) = (keysA m).filter (fun j => j ≠ k) := by
  induction m with
  | nil => rfl
  | cons p m ih =>
      obtain ⟨a, v⟩ := p
      rw [eraseA_cons]
      by_cases hp : a = k
      · rw [if_pos hp]
        simp only [keysA, List.map_cons, List.filter_cons]
        rw [if_neg (by simp [hp])]
        exact ih
      · rw [if_neg hp]
        simp only [keysA, List.map_cons, List.filter_cons]
        rw [if_pos (by simp [hp])]
        simpa [keysA] using ih

theorem nodup_keysA_eraseA {m : List (Nat × α)} {k : Nat}
    (h : (keysA m).Nodup) : (keysA (eraseA m k)).Nodup := by
  rw [keysA_eraseA]
  exact h.filter _

theorem nodup_keysA_updateA {m : List (Nat × α)} {k : Nat} {f : α → α}
    (h : (keysA m).Nodup) : (keysA (updateA m k f)).Nodup := by
  rwa [keysA_updateA]

theorem eraseE_ok {m : List (Nat × α)} {k : Nat} (h : k ∈ keysA m) :
    eraseE m k = .ok (eraseA m k) := by
  rw [eraseE, if_pos (hasKey_iff.mpr h)]

theorem lookupE_ok {m : List (Nat × α)} {k : Nat} {v : α}
    (h : lookupA m k = some v) : lookupE m k = .ok v := by
  rw [lookupE, h]

end AssocLemmas

/-! ## Lemmas: descending sort -/

theorem mem_insertDesc {a b : Nat} {l : List Nat} :
    b ∈ insertDesc a l ↔ b = a ∨ b ∈ l := by
  induction l with
  | nil => simp [insertDesc]
  | cons c l ih =>
      by_cases h : c ≤ a
      · simp [insertDesc, h]
      · simp only [insertDesc, if_neg h, List.mem_cons, ih]
        tauto

theorem mem_sortDesc {a : Nat} {l : List Nat} :
    a ∈ sortDesc l ↔ a ∈ l := by
  induction l with
  | nil => simp [sortDesc]
  | cons b l ih =>
      simp only [sortDesc, List.foldr_cons, mem_insertDesc, List.mem_cons]
      rw [sortDesc] at ih
      tauto

theorem pairwise_insertDesc {a : Nat} {l : List Nat}
    (h : l.Pairwise (fun x y => y ≤ x)) :
    (insertDesc a l).Pairwise (fun x y => y ≤ x) := by
  induction l with
  | nil => simp [insertDesc]
  | cons b l ih =>
      by_cases hb : b ≤ a
      · rw [insertDesc, if_pos hb]
        refine List.Pairwise.cons ?_ h
        intro c hc
        rcases List.mem_cons.mp hc with rfl | hc
        · exact hb
        · exact le_trans (List.rel_of_pairwise_cons h hc) hb
      · rw [insertDesc, if_neg hb]
        rw [List.pairwise_cons] at h
        refine List.Pairwise.cons ?_ (ih h.2)
        intro c hc
        rcases mem_insertDesc.mp hc with rfl | hc
        · exact le_of_not_le hb
        · exact h.1 c hc

theorem pairwise_sortDesc {l : List Nat} :
    (sortDesc l).Pairwise (fun x y => y ≤ x) := by
  induction l with
  | nil => simp [sortDesc]
  | cons b l ih => exact pairwise_insertDesc ih

theorem perm_insertDesc {a : Nat} {l : List Nat} :
    (insertDesc a l).Perm (a :: l) := by
  induction l with
  | nil => simp [insertDesc]
  | cons b l ih =>
      by_cases h : b ≤ a
      · simp [insertDesc, h]
      · rw [insertDesc, if_neg h]
        exact (ih.cons b).trans (List.Perm.swap a b l)

theorem perm_sortDesc {l : List Nat} : (sortDesc l).Perm l := by
  induction l with
  | nil => simp [sortDesc]
  | cons b l ih =>
      exact (perm_insertDesc.trans (ih.cons b))

theorem nodup_sortDesc {l : List Nat} (h : l.Nodup) : (sortDesc l).Nodup :=
  perm_sortDesc.nodup_iff.mpr h

theorem sortDesc_strict {l : List Nat} (h : l.Nodup) :
    (sortDesc l).Pairwise (fun x y => y < x) := by
  have h1 := @pairwise_sortDesc l
  have h2 : (sortDesc l).Nodup := nodup_sortDesc h
  have := List.Pairwise.and h1 h2
  exact this.imp (fun hp => lt_of_le_of_ne hp.1 (Ne.symm hp.2))

/-! ## Lemmas: connected components -/

theorem expand_subset {e : Nat → Nat → Bool} {V S : List Nat} :
    expand e V S ⊆ V :=
  List.filter_subset' _

theorem subset_expand {e : Nat → Nat → Bool} {V S : List Nat} (h : S ⊆ V) :
    S ⊆ expand e V S := by
  intro y hy
  refine List.mem_filter.mpr ⟨h hy, ?_⟩
  have hc : S.contains y = true := List.elem_iff.mpr hy
  simp [hc]
  exact Or.inl hy

theorem expand_nodup {e : Nat → Nat → Bool} {V S : List Nat} (h : V.Nodup) :
    (expand e V S).Nodup :=
  h.filter _

theorem reach_iterate_spec {e : Nat → Nat → Bool} {V : List Nat} {v : Nat}
    (hv : v ∈ V) (n : Nat) :
    v ∈ (expand e V)^[n] [v] ∧ (expand e V)^[n] [v] ⊆ V := by
  induction n with
  | zero =>
      refine ⟨List.mem_singleton_self v, ?_⟩
      intro y hy
      rw [Function.iterate_zero_apply, List.mem_singleton] at hy
      exact hy ▸ hv
  | succ n ih =>
      rw [Function.iterate_succ_apply']
      exact ⟨subset_expand ih.2 ih.1, expand_subset⟩

theorem mem_reach_self {e : Nat → Nat → Bool} {V : List Nat} {v : Nat}
    (hv : v ∈ V) : v ∈ reach e V v :=
  (reach_iterate_spec hv V.length).1

theorem reach_subset {e : Nat → Nat → Bool} {V : List Nat} {v : Nat}
    (hv : v ∈ V) : reach e V v ⊆ V :=
  (reach_iterate_spec hv V.length).2

theorem reach_nodup {e : Nat → Nat → Bool} {V : List Nat} {v : Nat}
    (h : V.Nodup) : (reach e V v).Nodup := by
  rw [reach]
  cases hl : V.length with
  | zero => simp
  | succ n =>
      rw [Function.iterate_succ_apply']
      exact expand_nodup h

/-- Every component returned by `compsAux` is a non-empty subset of the
carrier, duplicate-free when the carrier is. -/
theorem compsAux_spec {e : Nat → Nat → Bool} :
    ∀ fuel (V : List Nat), V.length ≤ fuel →
      ∀ C ∈ compsAux e fuel V, C ⊆ V ∧ C ≠ [] ∧ (V.Nodup → C.Nodup) := by
  intro fuel
  induction fuel with
  | zero =>
      intro V _ C hC
      simp [compsAux] at hC
  | succ fuel ih =>
      intro V hlen C hC
      match V with
      | [] => simp [compsAux] at hC
      | v :: rest =>
          have hv : v ∈ v :: rest := List.mem_cons_self v rest
          rw [compsAux] at hC
          rcases List.mem_cons.mp hC with rfl | hC
          · exact ⟨reach_subset hv, List.ne_nil_of_mem (mem_reach_self hv),
              fun hn => reach_nodup hn⟩
          · have hdrop : ((v :: rest).filter
                (fun x => ¬ (reach e (v :: rest) v).contains x)).length
                < (v :: rest).length := by
              refine List.length_filter_lt_length_iff_exists.mpr ⟨v, hv, ?_⟩
              simp [List.elem_iff.mpr (mem_reach_self hv)]
              exact mem_reach_self hv
            have hle : ((v :: rest).filter
                (fun x => ¬ (reach e (v :: rest) v).contains x)).length ≤ fuel := by
              omega
            obtain ⟨h1, h2, h3⟩ := ih _ hle C hC
            exact ⟨h1.trans (List.filter_subset' _), h2,
              fun hn => h3 (hn.filter _)⟩

theorem comps_spec {e : Nat → Nat → Bool} {V : List Nat} {C : List Nat}
    (hC : C ∈ comps e V) : C ⊆ V ∧ C ≠ [] ∧ (V.Nodup → C.Nodup) :=
  compsAux_spec V.length V le_rfl C hC

theorem comps_ne_nil {e : Nat → Nat → Bool} {V : List Nat} (h : V ≠ []) :
    comps e V ≠ [] := by
  match V with
  | [] => exact absurd rfl h
  | v :: rest =>
      rw [comps, List.length_cons, compsAux]
      exact List.cons_ne_nil _ _

/-- A non-empty, not-connected subgraph has at least two components (the
split branch of the sweep always creates at least two children). -/
theorem comps_two_le {e : Nat → Nat → Bool} {V : List Nat} (hne : V ≠ [])
    (hnc : isConnectedB e V = false) : 2 ≤ (comps e V).length := by
  have h1 : comps e V ≠ [] := comps_ne_nil hne
  have h2 : (comps e V).length ≠ 1 := by
    intro h
    rw [isConnectedB] at hnc
    simp [h] at hnc
  have h3 : (comps e V).length ≠ 0 := fun h => h1 (List.length_eq_zero.mp h)
  omega

/-! ## Lemmas: id allocation and the split loop -/

theorem maxKey_eq_foldl {m : List (Nat × ConnectedComponent)} :
    maxKey m = (keysA m).foldl max 0 := by
  rw [maxKey, keysA, List.foldl_map]

theorem foldl_max_range : ∀ n : Nat, (List.range n).foldl max 0 = n - 1 := by
  intro n
  induction n with
  | zero => rfl
  | succ n ih =>
      rw [List.range_succ, List.foldl_append, ih]
      simp only [List.foldl_cons, List.foldl_nil]
      omega

theorem maxKey_range {m : List (Nat × ConnectedComponent)}
    (h : keysA m = List.range m.length) : maxKey m = m.length - 1 := by
  rw [maxKey_eq_foldl, h, foldl_max_range]

theorem lookupA_singleton {α : Type} {a j : Nat} {v : α} :
    lookupA [(a, v)] j = if a = j then some v else none := rfl

theorem length_pos_of_lookupA {m : List (Nat × ConnectedComponent)} {k : Nat}
    {v : ConnectedComponent} (h : lookupA m k = some v) : 0 < m.length := by
  cases m with
  | nil => simp at h
  | cons p m => simp

/-- Full characterisation of the split loop `addChildren`: it appends
consecutive fresh keys `m.length, m.length+1, …`, appends them to the
parent's `children` in order, creates one child node per component, and
registers the new subgraphs. -/
theorem addChildren_spec (k : Nat) (level mass : ℚ) :
    ∀ (ccs : List (List Nat)) (m : List (Nat × ConnectedComponent))
      (act : List (Nat × List Nat)) (nd : ConnectedComponent),
      keysA m = List.range m.length →
      lookupA m k = some nd →
      (addChildren k level mass ccs m act).1.length = m.length + ccs.length ∧
      keysA (addChildren k level mass ccs m act).1
        = List.range (m.length + ccs.length) ∧
      (addChildren k level mass ccs m act).2
        = act ++ ccs.enum.map (fun q => (m.length + q.1, q.2)) ∧
      lookupA (addChildren k level mass ccs m act).1 k
        = some { nd with children := nd.children ++ List.range' m.length ccs.length } ∧
      (∀ j, j ≠ k → j < m.length →
        lookupA (addChildren k level mass ccs m act).1 j = lookupA m j) ∧
      (∀ i c, ccs[i]? = some c →
        lookupA (addChildren k level mass ccs m act).1 (m.length + i)
          = some (childNode (m.length + i) k level mass c)) := by
  intro ccs
  induction ccs with
  | nil =>
      intro m act nd hkeys hnd
      refine ⟨by simp [addChildren], by simpa [addChildren] using hkeys,
        by simp [addChildren], ?_, by simp [addChildren], by simp⟩
      rw [addChildren]
      simpa using hnd
  | cons c cs ih =>
      intro m act nd hkeys hnd
      have hpos : 0 < m.length := length_pos_of_lookupA hnd
      have hnk : maxKey m + 1 = m.length := by
        rw [maxKey_range hkeys]
        omega
      have hklt : k < m.length := by
        have : k ∈ keysA m := lookupA_isSome_iff.mp (by rw [hnd]; rfl)
        rw [hkeys] at this
        exact List.mem_range.mp this
      -- the updated parent and the appended child
      set nd' : ConnectedComponent :=
        { nd with children := nd.children ++ [m.length] } with hnd'
      set m' := updateA m k
        (fun x => { x with children := x.children ++ [maxKey m + 1] }) with hm'
      set m'' := m' ++ [(maxKey m + 1, childNode (maxKey m + 1) k level mass c)]
        with hm''
      have hm'keys : keysA m' = List.range m.length := by
        rw [hm', keysA_updateA, hkeys]
      have hm'len : m'.length = m.length := by
        have := congrArg List.length hm'keys
        simpa [keysA] using this
      have hm''len : m''.length = m.length + 1 := by
        rw [hm'']
        simp [hm'len]
      have hm''keys : keysA m'' = List.range m''.length := by
        rw [hm'', keysA, List.map_append, ← keysA, hm'keys, hm''len, hnk]
        simp [List.range_succ, keysA]
      have hlk' : lookupA m' k = some nd' := by
        rw [hm', lookupA_updateA_self, hnd, hnk, hnd']
        rfl
      have hlk'' : lookupA m'' k = some nd' := lookupA_append_left hlk'
      have hstep : addChildren k level mass (c :: cs) m act
          = addChildren k level mass cs m'' (act ++ [(maxKey m + 1, c)]) := by
        rw [addChildren]
      obtain ⟨ih1, ih2, ih3, ih4, ih5, ih6⟩ :=
        ih m'' (act ++ [(maxKey m + 1, c)]) nd' hm''keys hlk''
      have hnewlookup : ∀ j, j ≠ k → j < m.length → lookupA m'' j = lookupA m j := by
        intro j hjk hjlt
        rw [hm'']
        have h1 : lookupA m' j = lookupA m j := by
          rw [hm', lookupA_updateA_ne (fun h => hjk h.symm)]
        cases h2 : lookupA m j with
        | some v => rw [lookupA_append_left (h1.trans h2)]
        | none =>
            rw [lookupA_append_right (h1.trans h2), lookupA_singleton,
              if_neg (by omega)]
      have hm''new : lookupA m'' m.length
          = some (childNode m.length k level mass c) := by
        rw [hm'']
        have h0 : lookupA m' m.length = none := by
          rw [lookupA_eq_none_iff, hm'keys]
          simp
        rw [lookupA_append_right h0, hnk, lookupA_singleton, if_pos rfl]
      refine ⟨?_, ?_, ?_, ?_, ?_, ?_⟩
      · rw [hstep, ih1, hm''len]
        have hc : (c :: cs).length = cs.length + 1 := rfl
        omega
      · rw [hstep, ih2, hm''len]
        have h6 : m.length + 1 + cs.length = m.length + (c :: cs).length := by
          have hc : (c :: cs).length = cs.length + 1 := rfl
          omega
        rw [h6]
      · rw [hstep, ih3, hm''len, hnk, List.append_assoc]
        congr 1
        rw [List.enum_cons']
        simp only [List.map_cons, List.map_map, List.singleton_append,
          Nat.add_zero]
        congr 1
        refine List.map_congr_left ?_
        intro q _
        cases q with
        | mk a b =>
            simp only [Function.comp_apply, Prod.map_apply, id_eq]
            have h7 : m.length + 1 + a = m.length + (a + 1) := by omega
            rw [h7]
      · rw [hstep, ih4, hnd']
        have h8 : (c :: cs).length = cs.length + 1 := rfl
        simp only [hm''len, h8, List.range'_succ]
        simp [List.append_assoc]
      · intro j hjk hjlt
        rw [hstep, ih5 j hjk (by omega), hnewlookup j hjk hjlt]
      · intro i cc hcc
        match i, hcc with
        | 0, hcc =>
            simp only [List.getElem?_cons_zero, Option.some_inj] at hcc
            subst hcc
            have h9 : m.length + 0 = m.length := rfl
            rw [hstep, h9, ih5 m.length (by omega) (by omega), hm''new]
        | i + 1, hcc =>
            simp only [List.getElem?_cons_succ] at hcc
            have := ih6 i cc hcc
            rw [hstep]
            have harith : m.length + (i + 1) = m''.length + i := by
              rw [hm''len]
              omega
            rw [harith, this, hm''len]

theorem lookupA_closeNode {m : List (Nat × ConnectedComponent)}
    {k : Nat} {level mass : ℚ} (j : Nat) :
    lookupA (closeNode m k level mass) j
      = if k = j then (lookupA m j).map
          (fun nd => { nd with end_level := some level, end_mass := some mass })
        else lookupA m j := by
  by_cases h : k = j
  · subst h
    rw [if_pos rfl, closeNode, lookupA_updateA_self]
  · rw [if_neg h, closeNode, lookupA_updateA_ne h]

theorem lookup_lt_len {m : List (Nat × ConnectedComponent)} {i : Nat}
    {nd : ConnectedComponent} (hk : keysA m = List.range m.length)
    (h : lookupA m i = some nd) : i < m.length := by
  have : i ∈ keysA m := lookupA_isSome_iff.mp (by rw [h]; rfl)
  rw [hk] at this
  exact List.mem_range.mp this

/-- Closing a live node (no children of its own recorded yet, nobody's
parent) preserves the table invariants. -/
theorem TableInv_closeNode {m : List (Nat × ConnectedComponent)} {k : Nat}
    {level mass : ℚ} {knd : ConnectedComponent}
    (hT : TableInv m) (hk : lookupA m k = some knd)
    (hnopar : ∀ j jd, lookupA m j = some jd → jd.parent ≠ some k) :
    TableInv (closeNode m k level mass) := by
  have hlook := fun j => @lookupA_closeNode m k level mass j
  constructor
  · rw [closeNode, keysA_updateA]
    have hlen : (updateA m k (fun nd =>
        { nd with end_level := some level, end_mass := some mass })).length
        = m.length := by
      rw [updateA, List.length_map]
    rw [hlen]
    exact hT.keys_range
  · intro i nd hnd
    rw [hlook i] at hnd
    by_cases hik : k = i
    · rw [if_pos hik] at hnd
      cases hmi : lookupA m i with
      | none => rw [hmi] at hnd; simp at hnd
      | some old =>
          rw [hmi] at hnd
          simp only [Option.map_some', Option.some_inj] at hnd
          subst hnd
          simp
    · rw [if_neg hik] at hnd
      exact hT.end_pair i nd hnd
  · intro i nd hnd p hp
    rw [hlook i] at hnd
    by_cases hik : k = i
    · rw [if_pos hik] at hnd
      subst hik
      rw [hk] at hnd
      simp only [Option.map_some', Option.some_inj] at hnd
      subst hnd
      simp only at hp
      obtain ⟨pnd, hpnd, he1, he2, hlt⟩ := hT.start_match k knd hk p hp
      have hpk : p ≠ k := fun h => hnopar k knd hk (h ▸ hp)
      refine ⟨pnd, ?_, he1, he2, hlt⟩
      rw [hlook p, if_neg (fun h => hpk h.symm)]
      exact hpnd
    · rw [if_neg hik] at hnd
      obtain ⟨pnd, hpnd, he1, he2, hlt⟩ := hT.start_match i nd hnd p hp
      have hpk : p ≠ k := fun h => hnopar i nd hnd (h ▸ hp)
      refine ⟨pnd, ?_, he1, he2, hlt⟩
      rw [hlook p, if_neg (fun h => hpk h.symm)]
      exact hpnd
  · intro i nd hnd
    rw [hlook i] at hnd
    have key : ∀ nd₀, lookupA m i = some nd₀ →
        nd₀.children.Nodup ∧ ∀ c ∈ nd₀.children,
          ∃ cnd, lookupA (closeNode m k level mass) c = some cnd ∧
            cnd.parent = some i ∧ i < c ∧ cnd.members ⊆ nd₀.members := by
      intro nd₀ hnd₀
      obtain ⟨hnodup, hch⟩ := hT.coherent i nd₀ hnd₀
      refine ⟨hnodup, ?_⟩
      intro c hc
      obtain ⟨cnd, hcnd, hcp, hci, hcm⟩ := hch c hc
      by_cases hck : k = c
      · subst hck
        refine ⟨{ cnd with end_level := some level, end_mass := some mass },
          ?_, hcp, hci, hcm⟩
        rw [hlook k, if_pos rfl, hcnd]
        rfl
      · exact ⟨cnd, by rw [hlook c, if_neg hck]; exact hcnd, hcp, hci, hcm⟩
    by_cases hik : k = i
    · rw [if_pos hik] at hnd
      cases hmi : lookupA m i with
      | none => rw [hmi] at hnd; simp at hnd
      | some old =>
          rw [hmi] at hnd
          simp only [Option.map_some', Option.some_inj] at hnd
          subst hnd
          simpa using key old hmi
    · rw [if_neg hik] at hnd
      exact key nd hnd
  · intro i nd hnd p hp
    rw [hlook i] at hnd
    have key : ∀ nd₀, lookupA m i = some nd₀ → nd₀.parent = some p →
        ∃ pnd, lookupA (closeNode m k level mass) p = some pnd ∧
          i ∈ pnd.children := by
      intro nd₀ hnd₀ hp₀
      obtain ⟨pnd, hpnd, hmem⟩ := hT.back_coherent i nd₀ hnd₀ p hp₀
      by_cases hpk : k = p
      · subst hpk
        refine ⟨{ pnd with end_level := some level, end_mass := some mass }, ?_, hmem⟩
        rw [hlook k, if_pos rfl, hpnd]
        rfl
      · exact ⟨pnd, by rw [hlook p, if_neg hpk]; exact hpnd, hmem⟩
    by_cases hik : k = i
    · rw [if_pos hik] at hnd
      cases hmi : lookupA m i with
      | none => rw [hmi] at hnd; simp at hnd
      | some old =>
          rw [hmi] at hnd
          simp only [Option.map_some', Option.some_inj] at hnd
          subst hnd
          exact key old hmi hp
    · rw [if_neg hik] at hnd
      exact key nd hnd hp
  · intro i nd hnd
    rw [hlook i] at hnd
    by_cases hik : k = i
    · rw [if_pos hik] at hnd
      cases hmi : lookupA m i with
      | none => rw [hmi] at hnd; simp at hnd
      | some old =>
          rw [hmi] at hnd
          simp only [Option.map_some', Option.some_inj] at hnd
          subst hnd
          simpa using hT.members_ok i old hmi
    · rw [if_neg hik] at hnd
      exact hT.members_ok i nd hnd
  · intro i nd hnd
    rw [hlook i] at hnd
    by_cases hik : k = i
    · rw [if_pos hik] at hnd
      cases hmi : lookupA m i with
      | none => rw [hmi] at hnd; simp at hnd
      | some old =>
          rw [hmi] at hnd
          simp only [Option.map_some', Option.some_inj] at hnd
          subst hnd
          simpa using hT.child_count i old hmi
    · rw [if_neg hik] at hnd
      exact hT.child_count i nd hnd

/-- A live node is nobody's parent (children are recorded only when a node
closes, and its end level is set at that moment). -/
theorem no_parent_of_live {m : List (Nat × ConnectedComponent)} {k : Nat}
    {knd : ConnectedComponent} (hT : TableInv m) (hk : lookupA m k = some knd)
    (hopen : knd.end_level = none) :
    ∀ j jd, lookupA m j = some jd → jd.parent ≠ some k := by
  intro j jd hj hp
  obtain ⟨pnd, hpnd, he1, _, _⟩ := hT.start_match j jd hj k hp
  rw [hk, Option.some_inj] at hpnd
  subst hpnd
  rw [hopen] at he1
  exact Option.noConfusion he1

theorem MidInv.head_live {m : List (Nat × ConnectedComponent)}
    {k : Nat} {H : List Nat} {rest kept act : List (Nat × List Nat)}
    (hInv : MidInv m ((k, H) :: rest) kept act) : LiveShape m (k, H) :=
  hInv.shape (k, H) (Or.inl (List.mem_cons_self _ _))

theorem MidInv.head_not_rest {m : List (Nat × ConnectedComponent)}
    {k : Nat} {H : List Nat} {rest kept act : List (Nat × List Nat)}
    (hInv : MidInv m ((k, H) :: rest) kept act) : k ∉ rest.map Prod.fst := by
  have := hInv.rem_nodup
  rw [List.map_cons, List.nodup_cons] at this
  exact this.1

theorem MidInv.head_not_out {m : List (Nat × ConnectedComponent)}
    {k : Nat} {H : List Nat} {rest kept act : List (Nat × List Nat)}
    (hInv : MidInv m ((k, H) :: rest) kept act) :
    k ∉ (kept ++ act).map Prod.fst :=
  hInv.disj k (by simp)

/-- The vanish branch: the head's subgraph became empty, the node is closed
and deactivated. -/
theorem midInv_vanish {m : List (Nat × ConnectedComponent)}
    {k : Nat} {H : List Nat} {rest kept act : List (Nat × List Nat)}
    (level mass : ℚ) (hInv : MidInv m ((k, H) :: rest) kept act) :
    MidInv (closeNode m k level mass) rest kept act := by
  obtain ⟨knd, hk, hopen, hopenm, hch, hsub, hHnd⟩ := hInv.head_live
  have hnopar := no_parent_of_live hInv.table hk hopen
  have hT' := @TableInv_closeNode m k level mass knd hInv.table hk hnopar
  have hlook := fun j => @lookupA_closeNode m k level mass j
  have hknr := hInv.head_not_rest
  have hkno := hInv.head_not_out
  refine ⟨hT', ?_, ?_, hInv.out_nodup, ?_, ?_⟩
  · intro p hp
    have hkp : p.1 ≠ k := by
      rcases hp with hp | hp | hp
      · exact fun h => hknr (h ▸ List.mem_map_of_mem Prod.fst hp)
      · exact fun h => hkno (h ▸ (by
          rw [List.map_append, List.mem_append]
          exact Or.inl (List.mem_map_of_mem Prod.fst hp)))
      · exact fun h => hkno (h ▸ (by
          rw [List.map_append, List.mem_append]
          exact Or.inr (List.mem_map_of_mem Prod.fst hp)))
    obtain ⟨nd, hnd, h₁, h₂, h₃, h₄, h₅⟩ := hInv.shape p
      (by rcases hp with hp | hp | hp
          · exact Or.inl (List.mem_cons_of_mem _ hp)
          · exact Or.inr (Or.inl hp)
          · exact Or.inr (Or.inr hp))
    exact ⟨nd, by rw [hlook p.1, if_neg (fun h => hkp h.symm)]; exact hnd,
      h₁, h₂, h₃, h₄, h₅⟩
  · have := hInv.rem_nodup
    rw [List.map_cons, List.nodup_cons] at this
    exact this.2
  · intro i hi
    exact hInv.disj i (by rw [List.map_cons]; exact List.mem_cons_of_mem _ hi)
  · intro i nd hnd
    rw [hlook i] at hnd
    by_cases hik : k = i
    · subst hik
      rw [if_pos rfl, hk] at hnd
      simp only [Option.map_some', Option.some_inj] at hnd
      subst hnd
      simp only
      constructor
      · intro h
        exact absurd h (by simp)
      · intro h
        rcases h with h | h
        · exact absurd h hknr
        · exact absurd h hkno
    · rw [if_neg hik] at hnd
      have := hInv.open_iff i nd hnd
      rw [List.map_cons] at this
      constructor
      · intro h
        rcases (this.mp h) with h' | h'
        · rcases List.mem_cons.mp h' with h'' | h''
          · exact absurd h''.symm hik
          · exact Or.inl h''
        · exact Or.inr h'
      · intro h
        exact this.mpr (by
          rcases h with h | h
          · exact Or.inl (List.mem_cons_of_mem _ h)
          · exact Or.inr h)

/-- The still-connected branch: the head survives with its shrunken vertex
set. -/
theorem midInv_keep {m : List (Nat × ConnectedComponent)}
    {k : Nat} {H H' : List Nat} {rest kept act : List (Nat × List Nat)}
    (hInv : MidInv m ((k, H) :: rest) kept act)
    (hsub' : H' ⊆ H) (hnd' : H'.Nodup) :
    MidInv m rest (kept ++ [(k, H')]) act := by
  obtain ⟨knd, hk, hopen, hopenm, hch, hsub, hHnd⟩ := hInv.head_live
  have hknr := hInv.head_not_rest
  have hkno := hInv.head_not_out
  have houtperm : ∀ i, i ∈ ((kept ++ [(k, H')]) ++ act).map Prod.fst ↔
      (i = k ∨ i ∈ (kept ++ act).map Prod.fst) := by
    intro i
    simp only [List.map_append, List.mem_append, List.map_cons, List.map_nil,
      List.mem_cons, List.mem_singleton]
    constructor
    · rintro ((h | h) | h)
      · exact Or.inr (Or.inl h)
      · rcases h with h | h
        · exact Or.inl h
        · simp at h
      · exact Or.inr (Or.inr h)
    · rintro (h | h | h)
      · exact Or.inl (Or.inr (Or.inl h))
      · exact Or.inl (Or.inl h)
      · exact Or.inr h
  refine ⟨hInv.table, ?_, ?_, ?_, ?_, ?_⟩
  · intro p hp
    rcases hp with hp | hp | hp
    · exact hInv.shape p (Or.inl (List.mem_cons_of_mem _ hp))
    · rcases List.mem_append.mp hp with hp | hp
      · exact hInv.shape p (Or.inr (Or.inl hp))
      · rw [List.mem_singleton] at hp
        subst hp
        exact ⟨knd, hk, hopen, hopenm, hch, hsub'.trans hsub, hnd'⟩
    · exact hInv.shape p (Or.inr (Or.inr hp))
  · have := hInv.rem_nodup
    rw [List.map_cons, List.nodup_cons] at this
    exact this.2
  · have : (kept ++ [(k, H')]) ++ act = kept ++ ((k, H') :: act) := by
      rw [List.append_assoc]
      rfl
    rw [this, List.map_append, List.map_cons]
    rw [List.nodup_middle]
    rw [← List.map_append]
    exact List.nodup_cons.mpr ⟨hkno, hInv.out_nodup⟩
  · intro i hi
    intro hmem
    rcases (houtperm i).mp hmem with h | h
    · subst h
      exact hknr hi
    · exact hInv.disj i (by rw [List.map_cons]; exact List.mem_cons_of_mem _ hi) h
  · intro i nd hnd
    have := hInv.open_iff i nd hnd
    rw [List.map_cons] at this
    rw [houtperm i]
    constructor
    · intro h
      rcases this.mp h with h' | h'
      · rcases List.mem_cons.mp h' with h'' | h''
        · exact Or.inr (Or.inl h'')
        · exact Or.inl h''
      · exact Or.inr (Or.inr h')
    · intro h
      refine this.mpr ?_
      rcases h with h | h | h
      · exact Or.inl (List.mem_cons_of_mem _ h)
      · exact Or.inl (h ▸ List.mem_cons_self _ _)
      · exact Or.inr h

/-- The split branch: the head's shrunken subgraph disconnects; the head is
closed and one child node per connected component is created and
activated. -/
theorem midInv_split {m : List (Nat × ConnectedComponent)}
    {k : Nat} {H H' : List Nat} {rest kept act : List (Nat × List Nat)}
    (e : Nat → Nat → Bool) (level mass : ℚ)
    (hInv : MidInv m ((k, H) :: rest) kept act)
    (hsub' : H' ⊆ H) (hne : H' ≠ []) (hnc : isConnectedB e H' = false)
    (hnd' : H'.Nodup) :
    MidInv (addChildren k level mass (comps e H') (closeNode m k level mass) act).1
      rest kept
      (addChildren k level mass (comps e H') (closeNode m k level mass) act).2 := by
  obtain ⟨knd, hk, hopen, hopenm, hch, hsub, hHnd⟩ := hInv.head_live
  simp only at hk hopen hopenm hch hsub hHnd
  have hknr := hInv.head_not_rest
  have hkno := hInv.head_not_out
  have hnopar := no_parent_of_live hInv.table hk hopen
  have hL2 : 2 ≤ (comps e H').length := comps_two_le hne hnc
  have hccsub : ∀ C ∈ comps e H', C ⊆ H' ∧ C ≠ [] ∧ C.Nodup := by
    intro C hC
    obtain ⟨a, b, c⟩ := comps_spec hC
    exact ⟨a, b, c hnd'⟩
  have hT₁ : TableInv (closeNode m k level mass) :=
    @TableInv_closeNode m k level mass knd hInv.table hk hnopar
  have hm₁len : (closeNode m k level mass).length = m.length := by
    rw [closeNode, updateA, List.length_map]
  have hlk₁ : lookupA (closeNode m k level mass) k
      = some { knd with end_level := some level, end_mass := some mass } := by
    rw [lookupA_closeNode, if_pos rfl, hk]
    rfl
  obtain ⟨s1, s2, s3, s4, s5, s6⟩ := addChildren_spec k level mass (comps e H')
    (closeNode m k level mass) act
    { knd with end_level := some level, end_mass := some mass }
    hT₁.keys_range hlk₁
  rw [hm₁len] at s1 s2 s3 s4 s5 s6
  set r := addChildren k level mass (comps e H') (closeNode m k level mass) act
    with hr
  set L := (comps e H').length with hL
  -- the closed parent as it appears in the result table
  set kn₂ : ConnectedComponent :=
    { knd with
        children := List.range' m.length L,
        end_level := some level,
        end_mass := some mass } with hkn₂
  have hs4 : lookupA r.1 k = some kn₂ := by
    rw [s4, hkn₂]
    congr 2
    simp [hch]
  have hkr : keysA r.1 = List.range r.1.length := by
    rw [s2, s1]
  have hklt : k < m.length := lookup_lt_len hInv.table.keys_range hk
  have hold : ∀ j, j ≠ k → j < m.length → lookupA r.1 j = lookupA m j := by
    intro j hjk hjlt
    rw [s5 j hjk (by omega), lookupA_closeNode, if_neg (fun h => hjk h.symm)]
  have holdlt : ∀ j nd, lookupA m j = some nd → j < m.length :=
    fun j nd h => lookup_lt_len hInv.table.keys_range h
  -- key classification in the result table
  have hclassify : ∀ i nd₂, lookupA r.1 i = some nd₂ →
      (k = i ∧ nd₂ = kn₂) ∨
      (i ≠ k ∧ i < m.length ∧ lookupA m i = some nd₂) ∨
      (∃ idx c, idx < L ∧ i = m.length + idx ∧ (comps e H')[idx]? = some c ∧
        nd₂ = childNode i k level mass c) := by
    intro i nd₂ hnd₂
    have hilt : i < m.length + L := by
      have := lookup_lt_len hkr hnd₂
      rw [s1] at this
      exact this
    by_cases hik : i = k
    · subst hik
      rw [hs4, Option.some_inj] at hnd₂
      exact Or.inl ⟨rfl, hnd₂.symm⟩
    · by_cases hiN : i < m.length
      · refine Or.inr (Or.inl ⟨hik, hiN, ?_⟩)
        rw [← hold i hik hiN]
        exact hnd₂
      · have hidx : i = m.length + (i - m.length) := by omega
        have hidxlt : i - m.length < L := by omega
        have hget : (comps e H')[i - m.length]? = some (comps e H')[i - m.length] :=
          List.getElem?_eq_getElem hidxlt
        have := s6 (i - m.length) _ hget
        rw [← hidx] at this
        rw [this, Option.some_inj] at hnd₂
        exact Or.inr (Or.inr ⟨i - m.length, _, hidxlt, hidx, hget, hnd₂.symm⟩)
  -- new child lookups, via membership in `range'`
  have hnewc : ∀ c, c ∈ List.range' m.length L →
      ∃ cc, (comps e H')[c - m.length]? = some cc ∧
        lookupA r.1 c = some (childNode c k level mass cc) ∧ cc ∈ comps e H' := by
    intro c hc
    rw [List.mem_range'_1] at hc
    have hidxlt : c - m.length < L := by omega
    have hget : (comps e H')[c - m.length]? = some (comps e H')[c - m.length] :=
      List.getElem?_eq_getElem hidxlt
    have heq : c = m.length + (c - m.length) := by omega
    have := s6 (c - m.length) _ hget
    rw [← heq] at this
    exact ⟨_, hget, this, List.getElem_mem _⟩
  have hactk : (((comps e H').enum.map
      (fun q => (m.length + q.1, q.2))).map Prod.fst)
      = List.range' m.length L := by
    rw [List.map_map]
    have h1 : (Prod.fst ∘ fun q : Nat × List Nat => (m.length + q.1, q.2))
        = ((fun x => m.length + x) ∘ Prod.fst) := rfl
    rw [h1, ← List.map_map, List.enum_map_fst, ← List.range'_eq_map_range, hL]
  have hact2 : ∀ j, j ∈ r.2.map Prod.fst ↔
      (j ∈ act.map Prod.fst ∨ j ∈ List.range' m.length L) := by
    intro j
    rw [s3, List.map_append, List.mem_append, hactk]
  have hout2 : ∀ j, j ∈ (kept ++ r.2).map Prod.fst ↔
      (j ∈ (kept ++ act).map Prod.fst ∨ j ∈ List.range' m.length L) := by
    intro j
    rw [List.map_append, List.mem_append, hact2 j, List.map_append,
      List.mem_append]
    tauto
  -- old out keys are below m.length
  have houtlt : ∀ i, i ∈ (kept ++ act).map Prod.fst → i < m.length := by
    intro i hi
    obtain ⟨p, hp, hpe⟩ := List.mem_map.mp hi
    obtain ⟨nd, hnd, _⟩ := hInv.shape p (by
      rcases List.mem_append.mp hp with h | h
      · exact Or.inr (Or.inl h)
      · exact Or.inr (Or.inr h))
    exact hpe ▸ holdlt p.1 nd hnd
  have hrestlt : ∀ i, i ∈ rest.map Prod.fst → i < m.length := by
    intro i hi
    obtain ⟨p, hp, hpe⟩ := List.mem_map.mp hi
    obtain ⟨nd, hnd, _⟩ := hInv.shape p (Or.inl (List.mem_cons_of_mem _ hp))
    exact hpe ▸ holdlt p.1 nd hnd
  -- memberships in the new activation list
  have hactmem : ∀ p, p ∈ r.2 ↔ (p ∈ act ∨
      ∃ q, q ∈ (comps e H').enum ∧ p = (m.length + q.1, q.2)) := by
    intro p
    rw [s3, List.mem_append]
    constructor
    · rintro (h | h)
      · exact Or.inl h
      · obtain ⟨q, hq, hqe⟩ := List.mem_map.mp h
        exact Or.inr ⟨q, hq, hqe.symm⟩
    · rintro (h | ⟨q, hq, hqe⟩)
      · exact Or.inl h
      · exact Or.inr (List.mem_map.mpr ⟨q, hq, hqe.symm⟩)
  constructor
  -- TableInv
  · constructor
    · exact hkr
    · intro i nd hnd
      rcases hclassify i nd hnd with ⟨_, rfl⟩ | ⟨_, _, hm⟩ | ⟨idx, c, _, _, _, rfl⟩
      · rw [hkn₂]
        simp
      · exact hInv.table.end_pair i nd hm
      · simp [childNode]
    · intro i nd hnd p hp
      rcases hclassify i nd hnd with ⟨rfl, rfl⟩ | ⟨hik, hilt, hm⟩ |
        ⟨idx, c, hidxlt, hieq, hget, rfl⟩
      · rw [hkn₂] at hp ⊢
        simp only at hp
        obtain ⟨pnd, hpnd, he1, he2, hlt⟩ := hInv.table.start_match k knd hk p hp
        have hpk : p ≠ k := by omega
        refine ⟨pnd, ?_, by simpa using he1, by simpa using he2, hlt⟩
        rw [hold p hpk (holdlt p pnd hpnd)]
        exact hpnd
      · obtain ⟨pnd, hpnd, he1, he2, hlt⟩ := hInv.table.start_match i nd hm p hp
        have hpk : p ≠ k := fun h => hnopar i nd hm (h ▸ hp)
        refine ⟨pnd, ?_, he1, he2, hlt⟩
        rw [hold p hpk (holdlt p pnd hpnd)]
        exact hpnd
      · rw [childNode] at hp
        simp only [Option.some_inj] at hp
        subst hp
        refine ⟨kn₂, hs4, ?_, ?_, by omega⟩
        · rw [hkn₂]
          rfl
        · rw [hkn₂]
          rfl
    · intro i nd hnd
      rcases hclassify i nd hnd with ⟨rfl, rfl⟩ | ⟨hik, hilt, hm⟩ |
        ⟨idx, c, hidxlt, hieq, hget, rfl⟩
      · constructor
        · rw [hkn₂]
          simpa using List.nodup_range' m.length L
        · intro c hc
          rw [hkn₂] at hc
          simp only at hc
          obtain ⟨cc, _, hlook, hccmem⟩ := hnewc c hc
          refine ⟨childNode c k level mass cc, hlook, rfl, ?_, ?_⟩
          · rw [List.mem_range'_1] at hc
            omega
          · rw [childNode, hkn₂]
            simp only
            exact ((hccsub cc hccmem).1.trans hsub').trans hsub
      · obtain ⟨hnodup, hco⟩ := hInv.table.coherent i nd hm
        refine ⟨hnodup, ?_⟩
        intro c hc
        obtain ⟨cnd, hcnd, hcp, hci, hcm⟩ := hco c hc
        by_cases hck : c = k
        · subst hck
          rw [hk, Option.some_inj] at hcnd
          refine ⟨kn₂, hs4, ?_, hci, ?_⟩
          · rw [hkn₂]
            simp only
            rw [hcnd]
            exact hcp
          · rw [hkn₂]
            simp only
            rw [hcnd]
            exact hcm
        · exact ⟨cnd, by rw [hold c hck (holdlt c cnd hcnd)]; exact hcnd,
            hcp, hci, hcm⟩
      · rw [childNode]
        exact ⟨List.nodup_nil, by intro c hc; simp at hc⟩
    · intro i nd hnd p hp
      rcases hclassify i nd hnd with ⟨rfl, rfl⟩ | ⟨hik, hilt, hm⟩ |
        ⟨idx, c, hidxlt, hieq, hget, rfl⟩
      · rw [hkn₂] at hp
        simp only at hp
        obtain ⟨pnd, hpnd, hmem⟩ := hInv.table.back_coherent k knd hk p hp
        obtain ⟨_, _, _, hplt⟩ := (hInv.table.start_match k knd hk p hp).choose_spec
        have hpk : p ≠ k := by
          intro h
          exact hnopar k knd hk (h ▸ hp)
        exact ⟨pnd, by rw [hold p hpk (holdlt p pnd hpnd)]; exact hpnd, hmem⟩
      · obtain ⟨pnd, hpnd, hmem⟩ := hInv.table.back_coherent i nd hm p hp
        have hpk : p ≠ k := fun h => hnopar i nd hm (h ▸ hp)
        exact ⟨pnd, by rw [hold p hpk (holdlt p pnd hpnd)]; exact hpnd, hmem⟩
      · rw [childNode] at hp
        simp only [Option.some_inj] at hp
        subst hp
        refine ⟨kn₂, hs4, ?_⟩
        rw [hkn₂]
        simp only
        rw [List.mem_range'_1]
        omega
    · intro i nd hnd
      rcases hclassify i nd hnd with ⟨rfl, rfl⟩ | ⟨hik, hilt, hm⟩ |
        ⟨idx, c, hidxlt, hieq, hget, rfl⟩
      · rw [hkn₂]
        simpa using hInv.table.members_ok k knd hk
      · exact hInv.table.members_ok i nd hm
      · rw [childNode]
        simp only
        have hcm : c ∈ comps e H' := List.getElem?_mem hget
        obtain ⟨_, hb, hc⟩ := hccsub c hcm
        exact ⟨hb, hc⟩
    · intro i nd hnd
      rcases hclassify i nd hnd with ⟨rfl, rfl⟩ | ⟨hik, hilt, hm⟩ |
        ⟨idx, c, hidxlt, hieq, hget, rfl⟩
      · rw [hkn₂]
        simp only
        rw [List.length_range']
        omega
      · exact hInv.table.child_count i nd hm
      · rw [childNode]
        simp
  -- shape
  · intro p hp
    rcases hp with hp | hp | hp
    · obtain ⟨nd, hnd, h₁, h₂, h₃, h₄, h₅⟩ :=
        hInv.shape p (Or.inl (List.mem_cons_of_mem _ hp))
      have hpk : p.1 ≠ k :=
        fun h => hknr (h ▸ List.mem_map_of_mem Prod.fst hp)
      exact ⟨nd, by rw [hold p.1 hpk (holdlt p.1 nd hnd)]; exact hnd,
        h₁, h₂, h₃, h₄, h₅⟩
    · obtain ⟨nd, hnd, h₁, h₂, h₃, h₄, h₅⟩ := hInv.shape p (Or.inr (Or.inl hp))
      have hpk : p.1 ≠ k := fun h => hkno (h ▸ (by
        rw [List.map_append, List.mem_append]
        exact Or.inl (List.mem_map_of_mem Prod.fst hp)))
      exact ⟨nd, by rw [hold p.1 hpk (holdlt p.1 nd hnd)]; exact hnd,
        h₁, h₂, h₃, h₄, h₅⟩
    · rcases (hactmem p).mp hp with hp | ⟨q, hq, rfl⟩
      · obtain ⟨nd, hnd, h₁, h₂, h₃, h₄, h₅⟩ := hInv.shape p (Or.inr (Or.inr hp))
        have hpk : p.1 ≠ k := fun h => hkno (h ▸ (by
          rw [List.map_append, List.mem_append]
          exact Or.inr (List.mem_map_of_mem Prod.fst hp)))
        exact ⟨nd, by rw [hold p.1 hpk (holdlt p.1 nd hnd)]; exact hnd,
          h₁, h₂, h₃, h₄, h₅⟩
      · have hget : (comps e H')[q.1]? = some q.2 :=
          List.mem_enum_iff_getElem?.mp hq
        have := s6 q.1 q.2 hget
        refine ⟨childNode (m.length + q.1) k level mass q.2, this, rfl, rfl, rfl,
          ?_, ?_⟩
        · rw [childNode]
          exact fun x hx => hx
        · have hqm : q.2 ∈ comps e H' := List.getElem?_mem hget
          exact (hccsub q.2 hqm).2.2
  -- rem_nodup
  · have := hInv.rem_nodup
    rw [List.map_cons, List.nodup_cons] at this
    exact this.2
  -- out_nodup
  · rw [s3, ← List.append_assoc, List.map_append, List.map_append]
    rw [List.nodup_append]
    refine ⟨?_, ?_, ?_⟩
    · rw [← List.map_append]
      exact hInv.out_nodup
    · rw [hactk]
      simpa using List.nodup_range' m.length L
    · intro i hi hi2
      rw [← List.map_append] at hi
      rw [hactk, List.mem_range'_1] at hi2
      exact absurd (houtlt i hi) (by omega)
  -- disj
  · intro i hi hmem
    rcases (hout2 i).mp hmem with hmem | hmem
    · exact hInv.disj i (by rw [List.map_cons]; exact List.mem_cons_of_mem _ hi) hmem
    · rw [List.mem_range'_1] at hmem
      exact absurd (hrestlt i hi) (by omega)
  -- open_iff
  · intro i nd hnd
    rcases hclassify i nd hnd with ⟨rfl, rfl⟩ | ⟨hik, hilt, hm⟩ |
      ⟨idx, c, hidxlt, hieq, hget, rfl⟩
    · rw [hkn₂]
      simp only
      constructor
      · intro h
        exact absurd h (by simp)
      · intro h
        rcases h with h | h
        · exact absurd h hknr
        · rcases (hout2 k).mp h with h | h
          · exact absurd h hkno
          · rw [List.mem_range'_1] at h
            omega
    · have := hInv.open_iff i nd hm
      rw [List.map_cons] at this
      rw [hout2 i]
      constructor
      · intro h
        rcases this.mp h with h' | h'
        · rcases List.mem_cons.mp h' with h'' | h''
          · exact absurd h'' hik
          · exact Or.inl h''
        · exact Or.inr (Or.inl h')
      · intro h
        refine this.mpr ?_
        rcases h with h | h | h
        · exact Or.inl (List.mem_cons_of_mem _ h)
        · exact Or.inr h
        · rw [List.mem_range'_1] at h
          omega
    · constructor
      · intro _
        refine Or.inr ((hout2 i).mpr (Or.inr ?_))
        rw [List.mem_range'_1]
        omega
      · intro _
        rfl

/-- The per-level loop preserves the invariant and consumes the remaining
list. -/
theorem levelNodePass_inv (e : Nat → Nat → Bool) (level mass : ℚ)
    (bg : List Nat) :
    ∀ (remaining : List (Nat × List Nat)) m kept act,
      MidInv m remaining kept act →
      MidInv (levelNodePass e level mass bg remaining m kept act).1
        []
        (levelNodePass e level mass bg remaining m kept act).2.1
        (levelNodePass e level mass bg remaining m kept act).2.2 := by
  intro remaining
  induction remaining with
  | nil =>
      intro m kept act h
      simpa [levelNodePass] using h
  | cons p rest ih =>
      intro m kept act h
      obtain ⟨k, H⟩ := p
      rw [levelNodePass]
      by_cases h1 : H.filter (fun v => ¬ bg.contains v) = []
      · rw [if_pos h1]
        exact ih _ _ _ (midInv_vanish level mass h)
      · rw [if_neg h1]
        obtain ⟨knd, hk, hopen, hopenm, hch, hsub, hHnd⟩ := h.head_live
        by_cases h2 : isConnectedB e (H.filter (fun v => ¬ bg.contains v)) = true
        · rw [if_pos h2]
          exact ih _ _ _ (midInv_keep h (List.filter_subset' _) (hHnd.filter _))
        · rw [if_neg h2]
          exact ih _ _ _ (midInv_split e level mass h (List.filter_subset' _) h1
            (Bool.not_eq_true _ ▸ h2) (hHnd.filter _))

/-- Restart the loop invariant for the next threshold: the survivors plus
the newly activated subgraphs become the remaining list. -/
theorem midInv_restart {m : List (Nat × ConnectedComponent)}
    {kept act : List (Nat × List Nat)} (h : MidInv m [] kept act) :
    MidInv m (kept ++ act) [] [] := by
  refine ⟨h.table, ?_, h.out_nodup, by simp, by simp, ?_⟩
  · intro p hp
    rcases hp with hp | hp | hp
    · rcases List.mem_append.mp hp with hp | hp
      · exact h.shape p (Or.inr (Or.inl hp))
      · exact h.shape p (Or.inr (Or.inr hp))
    · simp at hp
    · simp at hp
  · intro i nd hnd
    have := h.open_iff i nd hnd
    simpa using this

/-- One grid threshold preserves the between-levels invariant. -/
theorem StateInv_levelStep {adj : List (List Nat)} {density : List ℚ}
    {st : BuildState} (h : MidInv st.nodes st.subgraphs [] []) (level : ℚ) :
    MidInv (levelStep adj density st level).nodes
      (levelStep adj density st level).subgraphs [] [] := by
  rw [levelStep]
  exact midInv_restart (levelNodePass_inv (pyEdge adj) level
    (currentMass adj st (bgSet density st.prev level))
    (bgSet density st.prev level) st.subgraphs st.nodes [] [] h)

/-- The initial state satisfies the invariant. -/
theorem initState_inv (adj : List (List Nat)) :
    MidInv (initState adj).nodes (initState adj).subgraphs [] [] := by
  have hroots : ∀ C ∈ comps (pyEdge adj) (vertexList adj),
      C ≠ [] ∧ C.Nodup := by
    intro C hC
    obtain ⟨_, hb, hc⟩ := comps_spec hC
    exact ⟨hb, hc (List.nodup_dedup _)⟩
  have hkeys : keysA (initState adj).nodes
      = List.range (initState adj).nodes.length := by
    rw [initState]
    simp only [keysA, List.map_map, List.length_map]
    have h1 : (Prod.fst ∘ fun p : Nat × List Nat => (p.1, rootNode p.1 p.2))
        = Prod.fst := rfl
    rw [h1, List.enum_map_fst, List.enum_length]
  have hmem : ∀ i nd, lookupA (initState adj).nodes i = some nd →
      ∃ c, (i, c) ∈ (comps (pyEdge adj) (vertexList adj)).enum ∧
        nd = rootNode i c := by
    intro i nd hnd
    have := mem_of_lookupA hnd
    rw [initState] at this
    simp only [List.mem_map] at this
    obtain ⟨q, hq, hqe⟩ := this
    obtain ⟨a, c⟩ := q
    rw [Prod.mk.injEq] at hqe
    obtain ⟨h1, h2⟩ := hqe
    simp only at h1 h2
    subst h1
    exact ⟨c, hq, h2.symm⟩
  have hsubkeys : (initState adj).subgraphs.map Prod.fst
      = List.range (initState adj).nodes.length := by
    rw [initState]
    simp only [List.enum_map_fst, List.length_map, List.enum_length]
  refine ⟨⟨hkeys, ?_, ?_, ?_, ?_, ?_, ?_⟩, ?_, ?_, by simp, by simp, ?_⟩
  · intro i nd hnd
    obtain ⟨c, _, rfl⟩ := hmem i nd hnd
    simp [rootNode]
  · intro i nd hnd p hp
    obtain ⟨c, _, rfl⟩ := hmem i nd hnd
    rw [rootNode] at hp
    exact absurd hp (by simp)
  · intro i nd hnd
    obtain ⟨c, _, rfl⟩ := hmem i nd hnd
    rw [rootNode]
    exact ⟨List.nodup_nil, by intro x hx; simp at hx⟩
  · intro i nd hnd p hp
    obtain ⟨c, _, rfl⟩ := hmem i nd hnd
    rw [rootNode] at hp
    exact absurd hp (by simp)
  · intro i nd hnd
    obtain ⟨c, hc, rfl⟩ := hmem i nd hnd
    have : c ∈ comps (pyEdge adj) (vertexList adj) := by
      have := List.mem_enum_iff_getElem?.mp hc
      exact List.getElem?_mem this
    exact hroots c this
  · intro i nd hnd
    obtain ⟨c, _, rfl⟩ := hmem i nd hnd
    simp [rootNode]
  · intro p hp
    rcases hp with hp | hp | hp
    · obtain ⟨i, c⟩ := p
      have hin : (i, rootNode i c) ∈ (initState adj).nodes := by
        rw [initState]
        simp only [List.mem_map]
        exact ⟨(i, c), hp, rfl⟩
      have hnodup : (keysA (initState adj).nodes).Nodup := by
        rw [hkeys]
        exact List.nodup_range _
      refine ⟨rootNode i c, lookupA_of_mem_nodup hnodup hin, rfl, rfl, rfl, ?_, ?_⟩
      · rw [rootNode]
        exact fun x hx => hx
      · have : c ∈ comps (pyEdge adj) (vertexList adj) := by
          have := List.mem_enum_iff_getElem?.mp hp
          exact List.getElem?_mem this
        exact (hroots c this).2
    · simp at hp
    · simp at hp
  · rw [hsubkeys]
    exact List.nodup_range _
  · intro i nd hnd
    obtain ⟨c, hc, rfl⟩ := hmem i nd hnd
    constructor
    · intro _
      left
      rw [hsubkeys]
      rw [← hkeys]
      exact lookupA_isSome_iff.mp (by rw [hnd]; rfl)
    · intro _
      rfl

/-- The full sweep preserves the invariant. -/
theorem sweep_inv (adj : List (List Nat)) (density : List ℚ) :
    ∀ (levels : List ℚ) (st : BuildState),
      MidInv st.nodes st.subgraphs [] [] →
      MidInv (levels.foldl (levelStep adj density) st).nodes
        (levels.foldl (levelStep adj density) st).subgraphs [] [] := by
  intro levels
  induction levels with
  | nil => intro st h; simpa using h
  | cons l ls ih =>
      intro st h
      exact ih _ (StateInv_levelStep h l)

/-- The tree returned by the sweep satisfies all structural invariants. -/
theorem buildTree_inv (adj : List (List Nat)) (density : List ℚ)
    (levels : List ℚ) :
    MidInv (buildTree adj density levels).nodes
      (buildTree adj density levels).subgraphs [] [] := by
  rw [buildTree]
  exact sweep_inv adj density levels (initState adj) (initState_inv adj)

/-! ## Completion of the sweep (claim C2)

If every vertex of every live subgraph lies in the background set of a
threshold, every live node vanishes at that threshold: it is closed with
that level, and no subgraph survives. -/

theorem levelNodePass_vanish (e : Nat → Nat → Bool) (level mass : ℚ)
    (bg : List Nat) :
    ∀ (remaining : List (Nat × List Nat)) m kept act,
      (∀ p ∈ remaining, p.2.filter (fun v => ¬ bg.contains v) = []) →
      (remaining.map Prod.fst).Nodup →
      (levelNodePass e level mass bg remaining m kept act).2.1 = kept ∧
      (levelNodePass e level mass bg remaining m kept act).2.2 = act ∧
      (∀ j, j ∉ remaining.map Prod.fst →
        lookupA (levelNodePass e level mass bg remaining m kept act).1 j
          = lookupA m j) ∧
      (∀ k H nd, (k, H) ∈ remaining → lookupA m k = some nd →
        lookupA (levelNodePass e level mass bg remaining m kept act).1 k
          = some { nd with end_level := some level, end_mass := some mass }) := by
  intro remaining
  induction remaining with
  | nil =>
      intro m kept act _ _
      exact ⟨rfl, rfl, fun j _ => rfl, by simp⟩
  | cons p rest ih =>
      intro m kept act hall hnd
      obtain ⟨k, H⟩ := p
      have h1 : H.filter (fun v => ¬ bg.contains v) = [] :=
        hall (k, H) (List.mem_cons_self _ _)
      rw [levelNodePass, if_pos h1]
      rw [List.map_cons, List.nodup_cons] at hnd
      obtain ⟨e1, e2, e3, e4⟩ := ih (closeNode m k level mass) kept act
        (fun p hp => hall p (List.mem_cons_of_mem _ hp)) hnd.2
      refine ⟨e1, e2, ?_, ?_⟩
      · intro j hj
        rw [List.map_cons, List.mem_cons] at hj
        push_neg at hj
        rw [e3 j hj.2, lookupA_closeNode, if_neg (fun h => hj.1 h.symm)]
      · intro k' H' nd hmem hnd'
        rcases List.mem_cons.mp hmem with hh | hh
        · rw [Prod.mk.injEq] at hh
          obtain ⟨rfl, rfl⟩ := hh
          rw [e3 k' hnd.1, lookupA_closeNode, if_pos rfl, hnd']
          rfl
        · have hk'mem : k' ∈ rest.map Prod.fst :=
            List.mem_map.mpr ⟨(k', H'), hh, rfl⟩
          have hk'k : k' ≠ k := fun h => hnd.1 (h ▸ hk'mem)
          refine e4 k' H' nd hh ?_
          rw [lookupA_closeNode, if_neg (fun h => hk'k h.symm)]
          exact hnd'

theorem mem_bgSet {density : List ℚ} {prev level : ℚ} {v : Nat} :
    v ∈ bgSet density prev level ↔
      v < density.length ∧ prev < density.getD v 0 ∧ density.getD v 0 ≤ level := by
  rw [bgSet, List.mem_filter, List.mem_range]
  simp [and_assoc]

/-- Every subgraph registered by the split loop is either a previously
registered one or one of the freshly computed components. -/
theorem addChildren_act_mem (k : Nat) (level mass : ℚ) :
    ∀ (ccs : List (List Nat)) m act p,
      p ∈ (addChildren k level mass ccs m act).2 →
      p ∈ act ∨ p.2 ∈ ccs := by
  intro ccs
  induction ccs with
  | nil =>
      intro m act p hp
      rw [addChildren] at hp
      exact Or.inl hp
  | cons c cs ih =>
      intro m act p hp
      rw [addChildren] at hp
      rcases ih _ _ p hp with h | h
      · rcases List.mem_append.mp h with h | h
        · exact Or.inl h
        · rw [List.mem_singleton] at h
          subst h
          exact Or.inr (List.mem_cons_self _ _)
      · exact Or.inr (List.mem_cons_of_mem _ h)

theorem levelNodePass_dense {e : Nat → Nat → Bool} {level mass : ℚ}
    {density : List ℚ} {prev : ℚ} :
    ∀ (remaining : List (Nat × List Nat)) m kept act,
      (∀ p ∈ remaining, ∀ v ∈ p.2,
        v < density.length ∧ prev < density.getD v 0) →
      (∀ p ∈ kept ++ act, ∀ v ∈ p.2,
        v < density.length ∧ level < density.getD v 0) →
      ∀ p ∈ (levelNodePass e level mass (bgSet density prev level)
          remaining m kept act).2.1
        ++ (levelNodePass e level mass (bgSet density prev level)
          remaining m kept act).2.2,
        ∀ v ∈ p.2, v < density.length ∧ level < density.getD v 0 := by
  intro remaining
  induction remaining with
  | nil =>
      intro m kept act _ hout
      simpa [levelNodePass] using hout
  | cons q rest ih =>
      intro m kept act hrem hout
      obtain ⟨k, H⟩ := q
      have hH : ∀ v ∈ H, v < density.length ∧ prev < density.getD v 0 :=
        hrem (k, H) (List.mem_cons_self _ _)
      have hH' : ∀ v ∈ H.filter
          (fun v => ¬ (bgSet density prev level).contains v),
          v < density.length ∧ level < density.getD v 0 := by
        intro v hv
        rw [List.mem_filter] at hv
        obtain ⟨hv1, hv2⟩ := hv
        obtain ⟨ha, hb⟩ := hH v hv1
        refine ⟨ha, ?_⟩
        by_contra hle
        push_neg at hle
        have hmm : v ∈ bgSet density prev level := mem_bgSet.mpr ⟨ha, hb, hle⟩
        rw [decide_eq_true_eq] at hv2
        exact hv2 (List.elem_iff.mpr hmm)
      have hrest : ∀ p ∈ rest, ∀ v ∈ p.2,
          v < density.length ∧ prev < density.getD v 0 :=
        fun p hp => hrem p (List.mem_cons_of_mem _ hp)
      rw [levelNodePass]
      by_cases h1 : H.filter
          (fun v => ¬ (bgSet density prev level).contains v) = []
      · rw [if_pos h1]
        exact ih _ kept act hrest hout
      · rw [if_neg h1]
        by_cases h2 : isConnectedB e (H.filter
            (fun v => ¬ (bgSet density prev level).contains v)) = true
        · rw [if_pos h2]
          refine ih _ _ act hrest ?_
          intro p hp
          rw [List.append_assoc, List.mem_append] at hp
          rcases hp with hp | hp
          · exact hout p (List.mem_append.mpr (Or.inl hp))
          · rcases List.mem_append.mp hp with hp | hp
            · rw [List.mem_singleton] at hp
              subst hp
              exact hH'
            · exact hout p (List.mem_append.mpr (Or.inr hp))
        · rw [if_neg h2]
          refine ih _ kept _ hrest ?_
          intro p hp
          rcases List.mem_append.mp hp with hp | hp
          · exact hout p (List.mem_append.mpr (Or.inl hp))
          · rcases addChildren_act_mem k level mass _ _ _ p hp with hp' | hp'
            · exact hout p (List.mem_append.mpr (Or.inr hp'))
            · intro v hv
              have hsub : p.2 ⊆ H.filter
                  (fun v => ¬ (bgSet density prev level).contains v) :=
                (comps_spec hp').1
              exact hH' v (hsub hv)

theorem getD_mem_of_lt {l : List ℚ} {n : Nat} (h : n < l.length) :
    l.getD n 0 ∈ l := by
  rw [List.getD_eq_getElem l 0 h]
  exact List.getElem_mem h

theorem DenseInv_levelStep {adj : List (List Nat)} {density : List ℚ}
    {st : BuildState} (h : DenseInv density st) (level : ℚ) :
    DenseInv density (levelStep adj density st level) := by
  intro p hp v hv
  rw [levelStep] at hp
  have := levelNodePass_dense st.subgraphs st.nodes [] [] h (by simp) p hp v hv
  exact ⟨this.1, this.2⟩

theorem DenseInv_init {adj : List (List Nat)} {density : List ℚ}
    (hlen : density.length = adj.length)
    (hadj : ∀ a ∈ adj, ∀ j ∈ a, j < adj.length)
    (hpos : ∀ d ∈ density, 0 < d) :
    DenseInv density (initState adj) := by
  intro p hp v hv
  have hmem : p.2 ∈ comps (pyEdge adj) (vertexList adj) := by
    rw [initState] at hp
    exact List.getElem?_mem (List.mem_enum_iff_getElem?.mp hp)
  have hvV : v ∈ vertexList adj := (comps_spec hmem).1 hv
  have hvlt : v < adj.length := by
    rw [vertexList] at hvV
    have := List.mem_dedup.mp hvV
    rcases List.mem_append.mp this with h' | h'
    · exact List.mem_range.mp h'
    · obtain ⟨a, ha, hva⟩ := List.mem_flatten.mp h'
      exact hadj a ha v hva
  refine ⟨by omega, ?_⟩
  exact hpos _ (getD_mem_of_lt (by omega))

theorem sweep_dense {adj : List (List Nat)} {density : List ℚ} :
    ∀ (levels : List ℚ) (st : BuildState), DenseInv density st →
      DenseInv density (levels.foldl (levelStep adj density) st) := by
  intro levels
  induction levels with
  | nil => intro st h; simpa using h
  | cons l ls ih =>
      intro st h
      exact ih _ (DenseInv_levelStep h l)

/-! ## Pruning lemmas

The `_merge_by_size` loop leaves a settled table unchanged: every parent
either has no children or at least two big ones, so the per-parent pass
takes the no-change branch everywhere, and no root is small enough for the
small-root sweep. -/

theorem except_bind_ok {ε α β : Type} (a : α) (f : α → Except ε β) :
    (do let x ← Except.ok a; f x) = f a := rfl

theorem kidLookups_ok {m : List (Nat × ConnectedComponent)} :
    ∀ (cs : List Nat), (∀ c ∈ cs, ∃ v, lookupA m c = some v) →
      ∃ ks : List (Nat × ConnectedComponent),
        cs.mapM (fun c => do
          let cnd ← lookupE m c
          pure (c, cnd)) = Except.ok ks ∧
        ks.map Prod.fst = cs ∧ ∀ q ∈ ks, lookupA m q.1 = some q.2 := by
  intro cs
  induction cs with
  | nil => exact fun _ => ⟨[], List.mapM_nil _, rfl, by intro q hq; simp at hq⟩
  | cons c cs ih =>
      intro h
      obtain ⟨v, hv⟩ := h c (List.mem_cons_self c cs)
      obtain ⟨ks, hks, hmap, hlk⟩ := ih (fun x hx => h x (List.mem_cons_of_mem _ hx))
      refine ⟨(c, v) :: ks, ?_, by simp [hmap], ?_⟩
      · rw [List.mapM_cons]
        have hE : lookupE m c = Except.ok v := lookupE_ok hv
        simp only [hE, hks, except_bind_ok, pure_bind]
        rfl
      · intro q hq
        rcases List.mem_cons.mp hq with h1 | h1
        · subst h1; exact hv
        · exact hlk q h1

theorem kidFilter_count {m : List (Nat × ConnectedComponent)} (τ : ℤ) :
    ∀ (ks : List (Nat × ConnectedComponent)),
      (∀ q ∈ ks, lookupA m q.1 = some q.2) →
      (ks.filter (fun q => τ ≤ (q.2.members.length : ℤ))).length
        = ((ks.map Prod.fst).filter (bigIn m τ)).length := by
  intro ks
  induction ks with
  | nil => intro _; rfl
  | cons q ks ih =>
      intro h
      have hq := h q (List.mem_cons_self q ks)
      have hbig : bigIn m τ q.1 = decide (τ ≤ (q.2.members.length : ℤ)) := by
        rw [bigIn, hq]
      rw [List.map_cons, List.filter_cons, List.filter_cons, hbig]
      by_cases hc : τ ≤ (q.2.members.length : ℤ)
      · rw [if_pos (by simpa using hc), if_pos (by simpa using hc),
          List.length_cons, List.length_cons,
          ih (fun x hx => h x (List.mem_cons_of_mem _ hx))]
      · rw [if_neg (by simpa using hc), if_neg (by simpa using hc)]
        exact ih (fun x hx => h x (List.mem_cons_of_mem _ hx))

theorem processParents_noop {m : List (Nat × ConnectedComponent)} {τ : ℤ} :
    ∀ ps : List Nat,
      (∀ p ∈ ps, ∃ pnd, lookupA m p = some pnd ∧
        (∀ c ∈ pnd.children, ∃ v, lookupA m c = some v) ∧
        2 ≤ (pnd.children.filter (bigIn m τ)).length) →
      processParents τ ps m = .ok m := by
  intro ps
  induction ps with
  | nil => exact fun _ => rfl
  | cons p rest ih =>
      intro h
      obtain ⟨pnd, hp, hc, h2⟩ := h p (List.mem_cons_self p rest)
      obtain ⟨ks, hks, hmap, hlk⟩ := kidLookups_ok pnd.children hc
      rw [processParents, lookupE_ok hp, except_bind_ok, hks, except_bind_ok]
      have hcount := kidFilter_count τ ks hlk
      rw [hmap] at hcount
      rw [if_neg (by omega), if_neg (by omega)]
      exact ih (fun q hq => h q (List.mem_cons_of_mem _ hq))

theorem mergeBySize_settled {t : LevelSetTree} {τ : ℤ}
    (hnodup : (keysA t.nodes).Nodup)
    (hroots : RootsBig t.nodes τ)
    (hset : Settled t.nodes τ) :
    mergeBySize t τ = .ok t := by
  have hlook : ∀ q ∈ t.nodes, lookupA t.nodes q.1 = some q.2 := by
    intro q hq
    exact lookupA_of_mem_nodup hnodup hq
  have hsmall : t.nodes.filter
      (fun q => q.2.parent = none ∧ (q.2.members.length : ℤ) ≤ τ) = [] := by
    apply List.filter_eq_nil.mpr
    intro q hq
    simp only [decide_eq_true_eq, not_and]
    intro hpar
    have := hroots q.1 q.2 (hlook q hq) hpar
    omega
  rw [mergeBySize]
  rw [hsmall]
  simp only [List.map_nil]
  rw [show removeRoots t.nodes [] = Except.ok t.nodes from rfl, except_bind_ok]
  have hpp : processParents τ
      (sortDesc ((t.nodes.filter (fun q => 1 ≤ q.2.children.length)).map Prod.fst))
      t.nodes = .ok t.nodes := by
    apply processParents_noop
    intro p hpmem
    have hp1 : p ∈ (t.nodes.filter (fun q => 1 ≤ q.2.children.length)).map Prod.fst :=
      mem_sortDesc.mp hpmem
    obtain ⟨q, hqf, hqp⟩ := List.mem_map.mp hp1
    have hqmem := List.mem_of_mem_filter hqf
    have hql := hlook q hqmem
    have h1 : 1 ≤ q.2.children.length := by
      have := List.of_mem_filter hqf
      simpa using this
    subst hqp
    rcases hset q.1 q.2 hql with hleaf | ⟨hpres, hbig⟩
    · rw [hleaf] at h1; simp at h1
    · exact ⟨q.2, hql, hpres, hbig⟩
  rw [hpp, except_bind_ok]
  rfl

theorem tableInv_settled_zero {m : List (Nat × ConnectedComponent)}
    (h : TableInv m) : Settled m 0 := by
  intro i nd hnd
  obtain ⟨hnodup, hco⟩ := h.coherent i nd hnd
  by_cases hc : nd.children = []
  · exact Or.inl hc
  · refine Or.inr ⟨?_, ?_⟩
    · intro c hcm
      obtain ⟨cnd, hcnd, -⟩ := hco c hcm
      exact ⟨cnd, hcnd⟩
    · have hfilter : nd.children.filter (bigIn m 0) = nd.children := by
        apply List.filter_eq_self.mpr
        intro c hcm
        obtain ⟨cnd, hcnd, -⟩ := hco c hcm
        rw [bigIn, hcnd]
        simp
      rw [hfilter]
      have := h.child_count i nd hnd
      have hlen : 1 ≤ nd.children.length := List.length_pos.mpr hc
      omega

theorem tableInv_rootsBig_zero {m : List (Nat × ConnectedComponent)}
    (h : TableInv m) : RootsBig m 0 := by
  intro i nd hnd _
  have := (h.members_ok i nd hnd).1
  have : 1 ≤ nd.members.length := List.length_pos.mpr this
  omega

/-! ## Pruning preservation

`_merge_by_size` on a `MergeWF` table preserves well-formedness and leaves
every surviving node settled with big roots, so a second run with the same
threshold is a no-op.  Each stage (`removeRoots`, the three branches of the
per-parent loop) is characterised by an explicit per-key lookup function. -/

theorem except_bind_err {ε α β : Type} (e : ε) (f : α → Except ε β) :
    (do let x ← (Except.error e : Except ε α); f x) = Except.error e := rfl

theorem eraseE_cases {α : Type} {m m' : List (Nat × α)} {k : Nat}
    (h : eraseE m k = Except.ok m') : m' = eraseA m k := by
  rw [eraseE] at h
  by_cases hk : hasKey m k
  · rw [if_pos hk] at h
    exact ((Except.ok.injEq _ _).mp h).symm
  · rw [if_neg hk] at h
    exact absurd h (by simp)

theorem eraseMany_ok :
    ∀ (ks : List Nat) (m m' : List (Nat × ConnectedComponent)),
      eraseMany m ks = Except.ok m' →
      (∀ j, lookupA m' j = if j ∈ ks then none else lookupA m j) ∧
      ((keysA m).Nodup → (keysA m').Nodup) := by
  intro ks
  induction ks with
  | nil =>
      intro m m' h
      have : m' = m := by
        rw [eraseMany] at h
        exact ((Except.ok.injEq _ _).mp h).symm
      subst this
      exact ⟨fun j => by simp, id⟩
  | cons k ks ih =>
      intro m m' h
      rw [eraseMany] at h
      cases he : eraseE m k with
      | error e => rw [he, except_bind_err] at h; exact absurd h (by simp)
      | ok m₁ =>
          rw [he, except_bind_ok] at h
          have hm₁ : m₁ = eraseA m k := eraseE_cases he
          subst hm₁
          obtain ⟨hch, hnd⟩ := ih _ _ h
          refine ⟨?_, ?_⟩
          · intro j
            rw [hch j]
            by_cases hjk : j = k
            · subst hjk
              by_cases hjks : j ∈ ks
              · rw [if_pos hjks, if_pos (List.mem_cons_self _ _)]
              · rw [if_neg hjks, if_pos (List.mem_cons_self _ _),
                  lookupA_eraseA_self]
            · by_cases hjks : j ∈ ks
              · rw [if_pos hjks, if_pos (List.mem_cons.mpr (Or.inr hjks))]
              · rw [if_neg hjks, if_neg (by
                  intro hc
                  rcases List.mem_cons.mp hc with h1 | h1
                  · exact hjk h1
                  · exact hjks h1), lookupA_eraseA_ne hjk]
          · intro hmn
            exact hnd (nodup_keysA_eraseA hmn)

theorem setParents_ok :
    ∀ (cs : List Nat) (m : List (Nat × ConnectedComponent)) (p : Nat)
      (m' : List (Nat × ConnectedComponent)),
      setParents m p cs = Except.ok m' →
      (∀ j, lookupA m' j = if j ∈ cs then
          (lookupA m j).map (fun nd => { nd with parent := some p })
        else lookupA m j) ∧ keysA m' = keysA m := by
  intro cs
  induction cs with
  | nil =>
      intro m p m' h
      have : m' = m := by
        rw [setParents] at h
        exact ((Except.ok.injEq _ _).mp h).symm
      subst this
      exact ⟨fun j => by simp, rfl⟩
  | cons c cs ih =>
      intro m p m' h
      rw [setParents] at h
      cases hc : lookupE m c with
      | error e => rw [hc, except_bind_err] at h; exact absurd h (by simp)
      | ok v =>
          rw [hc, except_bind_ok] at h
          obtain ⟨hch, hkeys⟩ := ih _ _ _ h
          refine ⟨?_, by rw [hkeys, keysA_updateA]⟩
          intro j
          rw [hch j]
          have hff : (fun nd : ConnectedComponent => { nd with parent := some p })
              ∘ (fun nd : ConnectedComponent => { nd with parent := some p })
              = fun nd : ConnectedComponent => { nd with parent := some p } := rfl
          by_cases hjc : j = c
          · by_cases hjcs : j ∈ cs
            · rw [if_pos hjcs, if_pos (List.mem_cons.mpr (Or.inr hjcs)), hjc,
                lookupA_updateA_self, Option.map_map, hff]
            · rw [if_neg hjcs, if_pos (List.mem_cons.mpr (Or.inl hjc)), hjc,
                lookupA_updateA_self]
          · by_cases hjcs : j ∈ cs
            · rw [if_pos hjcs, if_pos (List.mem_cons.mpr (Or.inr hjcs)),
                lookupA_updateA_ne (Ne.symm hjc)]
            · rw [if_neg hjcs, if_neg (by
                intro hcc
                rcases List.mem_cons.mp hcc with h1 | h1
                · exact hjc h1
                · exact hjcs h1), lookupA_updateA_ne (Ne.symm hjc)]

theorem subtreeLoop_closure {m : List (Nat × ConnectedComponent)} :
    ∀ (fuel : Nat) (queue acc S : List Nat),
      subtreeLoop m fuel queue acc = Except.ok S →
      (∀ k ∈ queue, ∃ j, j ∈ acc ∧ ∃ jnd, lookupA m j = some jnd ∧
        k ∈ jnd.children) →
      (∀ a ∈ acc, a ∈ keysA m) →
      acc ⊆ S ∧
      (∀ s ∈ S, s ∈ keysA m ∧ (s ∈ acc ∨ ∃ j, j ∈ S ∧ ∃ jnd,
        lookupA m j = some jnd ∧ s ∈ jnd.children)) := by
  intro fuel
  induction fuel with
  | zero =>
      intro queue acc S h hq ha
      match queue with
      | [] =>
          rw [subtreeLoop] at h
          have hS : S = acc := ((Except.ok.injEq _ _).mp h).symm
          subst hS
          exact ⟨fun s hs => hs, fun s hs => ⟨ha s hs, Or.inl hs⟩⟩
      | _ :: _ =>
          rw [subtreeLoop] at h
          exact absurd h (by simp)
  | succ fuel ih =>
      intro queue acc S h hq ha
      rw [subtreeLoop] at h
      cases hlast : queue.getLast? with
      | none =>
          rw [hlast] at h
          have h' : Except.ok acc = Except.ok S := h
          have hS : S = acc := ((Except.ok.injEq _ _).mp h').symm
          subst hS
          exact ⟨fun s hs => hs, fun s hs => ⟨ha s hs, Or.inl hs⟩⟩
      | some bix =>
          rw [hlast] at h
          have h1 : (match lookupA m bix with
              | none => (Except.error "KeyError" : Except String (List Nat))
              | some nd => subtreeLoop m fuel (queue.dropLast ++ nd.children)
                  (acc ++ [bix])) = Except.ok S := h
          cases hnd : lookupA m bix with
          | none =>
              rw [hnd] at h1
              exact absurd h1 (by simp)
          | some nd =>
              rw [hnd] at h1
              have h' : subtreeLoop m fuel (queue.dropLast ++ nd.children)
                  (acc ++ [bix]) = Except.ok S := h1
              have hbq : bix ∈ queue := List.mem_of_mem_getLast? hlast
              obtain ⟨hacc', hS⟩ := ih _ _ _ h'
                (by
                  intro k hk
                  rcases List.mem_append.mp hk with h1 | h1
                  · obtain ⟨j, hj, w⟩ := hq k (List.dropLast_subset _ h1)
                    exact ⟨j, List.mem_append.mpr (Or.inl hj), w⟩
                  · exact ⟨bix, List.mem_append.mpr (Or.inr
                      (List.mem_singleton.mpr rfl)), nd, hnd, h1⟩)
                (by
                  intro a haq
                  rcases List.mem_append.mp haq with h1 | h1
                  · exact ha a h1
                  · rw [List.mem_singleton.mp h1]
                    exact lookupA_isSome_iff.mp (by rw [hnd]; rfl))
              have hsub : acc ⊆ S := fun x hx =>
                hacc' (List.mem_append.mpr (Or.inl hx))
              refine ⟨hsub, ?_⟩
              intro s hs
              obtain ⟨hkey, hor⟩ := hS s hs
              refine ⟨hkey, ?_⟩
              rcases hor with h1 | h1
              · rcases List.mem_append.mp h1 with h2 | h2
                · exact Or.inl h2
                · rw [List.mem_singleton.mp h2]
                  obtain ⟨j, hj, jnd, hjnd, hmem⟩ := hq bix hbq
                  exact Or.inr ⟨j, hsub hj, jnd, hjnd, hmem⟩
              · exact Or.inr h1

theorem subtreeKeys_closure {m : List (Nat × ConnectedComponent)} {ix : Nat}
    {S : List Nat} (h : subtreeKeys m ix = Except.ok S) :
    ix ∈ S ∧ (∀ s ∈ S, s ∈ keysA m ∧ (s = ix ∨ ∃ j, j ∈ S ∧ ∃ jnd,
      lookupA m j = some jnd ∧ s ∈ jnd.children)) := by
  rw [subtreeKeys] at h
  cases hr : lookupE m ix with
  | error e => rw [hr, except_bind_err] at h; exact absurd h (by simp)
  | ok rnd =>
      rw [hr, except_bind_ok] at h
      have hrl : lookupA m ix = some rnd := by
        rw [lookupE] at hr
        cases hx : lookupA m ix with
        | none => rw [hx] at hr; exact absurd hr (by simp)
        | some v =>
            rw [hx] at hr
            have hr' : Except.ok v = Except.ok rnd := hr
            have hvr : v = rnd := (Except.ok.injEq _ _).mp hr'
            exact congrArg some hvr
      obtain ⟨hsub, hS⟩ := subtreeLoop_closure _ _ _ _ h
        (fun k hk => ⟨ix, List.mem_singleton.mpr rfl, rnd, hrl, hk⟩)
        (by
          intro a haq
          rw [List.mem_singleton.mp haq]
          exact lookupA_isSome_iff.mp (by rw [hrl]; rfl))
      refine ⟨hsub (List.mem_singleton.mpr rfl), ?_⟩
      intro s hs
      obtain ⟨hkey, hor⟩ := hS s hs
      refine ⟨hkey, ?_⟩
      rcases hor with h1 | h1
      · exact Or.inl (List.mem_singleton.mp h1)
      · exact Or.inr h1

theorem bigIn_congr {m m' : List (Nat × ConnectedComponent)} {τ : ℤ} {c : Nat}
    (h : (lookupA m' c).map ConnectedComponent.members
       = (lookupA m c).map ConnectedComponent.members) :
    bigIn m' τ c = bigIn m τ c := by
  rw [bigIn, bigIn]
  cases h1 : lookupA m c with
  | none =>
      rw [h1] at h
      cases h2 : lookupA m' c with
      | none => rfl
      | some v => rw [h2] at h; exact absurd h (by simp)
  | some v =>
      rw [h1] at h
      cases h2 : lookupA m' c with
      | none => rw [h2] at h; exact absurd h (by simp)
      | some v' =>
          rw [h2] at h
          have hm : v'.members = v.members := by
            simpa using h
          show decide (τ ≤ (v'.members.length : ℤ))
              = decide (τ ≤ (v.members.length : ℤ))
          rw [hm]

theorem settledAt_congr {m m' : List (Nat × ConnectedComponent)} {τ : ℤ}
    {nd : ConnectedComponent}
    (h : ∀ c ∈ nd.children, (lookupA m' c).map ConnectedComponent.members
       = (lookupA m c).map ConnectedComponent.members) :
    SettledAt m τ nd → SettledAt m' τ nd := by
  intro hs
  rcases hs with h1 | ⟨hpres, hbig⟩
  · exact Or.inl h1
  · refine Or.inr ⟨?_, ?_⟩
    · intro c hc
      obtain ⟨v, hv⟩ := hpres c hc
      have := h c hc
      rw [hv] at this
      cases h2 : lookupA m' c with
      | none => rw [h2] at this; exact absurd this (by simp)
      | some v' => exact ⟨v', rfl⟩
    · rw [List.filter_congr (fun c hc => bigIn_congr (h c hc))]
      exact hbig

theorem lookupE_some {α : Type} {m : List (Nat × α)} {k : Nat} {v : α}
    (h : lookupE m k = Except.ok v) : lookupA m k = some v := by
  rw [lookupE] at h
  cases hx : lookupA m k with
  | none => rw [hx] at h; exact absurd h (by simp)
  | some w =>
      rw [hx] at h
      have h' : Except.ok w = Except.ok v := h
      exact congrArg some ((Except.ok.injEq _ _).mp h')

theorem foldl_eraseE_ok {α : Type} :
    ∀ (ks : List Nat) (m m' : List (Nat × α)),
      ks.foldlM (fun acc k => eraseE acc k) m = Except.ok m' →
      (∀ j, lookupA m' j = if j ∈ ks then none else lookupA m j) ∧
      ((keysA m).Nodup → (keysA m').Nodup) := by
  intro ks
  induction ks with
  | nil =>
      intro m m' h
      have h' : Except.ok m = Except.ok m' := h
      have hm : m' = m := ((Except.ok.injEq _ _).mp h').symm
      subst hm
      exact ⟨fun j => by simp, id⟩
  | cons k ks ih =>
      intro m m' h
      rw [List.foldlM_cons] at h
      cases he : eraseE m k with
      | error e => rw [he, except_bind_err] at h; exact absurd h (by simp)
      | ok m₁ =>
          rw [he, except_bind_ok] at h
          have hm₁ : m₁ = eraseA m k := eraseE_cases he
          subst hm₁
          obtain ⟨hch, hnd⟩ := ih _ _ h
          refine ⟨?_, ?_⟩
          · intro j
            rw [hch j]
            by_cases hjk : j = k
            · subst hjk
              by_cases hjks : j ∈ ks
              · rw [if_pos hjks, if_pos (List.mem_cons_self _ _)]
              · rw [if_neg hjks, if_pos (List.mem_cons_self _ _),
                  lookupA_eraseA_self]
            · by_cases hjks : j ∈ ks
              · rw [if_pos hjks, if_pos (List.mem_cons.mpr (Or.inr hjks))]
              · rw [if_neg hjks, if_neg (by
                  intro hc
                  rcases List.mem_cons.mp hc with h1 | h1
                  · exact hjk h1
                  · exact hjks h1), lookupA_eraseA_ne hjk]
          · intro hmn
            exact hnd (nodup_keysA_eraseA hmn)

theorem removeRoots_ok :
    ∀ (roots : List Nat) (m m₁ : List (Nat × ConnectedComponent)),
      MergeWF m →
      (∀ r ∈ roots, ∀ rnd, lookupA m r = some rnd → rnd.parent = none) →
      removeRoots m roots = Except.ok m₁ →
      MergeWF m₁ ∧
      (∀ j nd, lookupA m₁ j = some nd → lookupA m j = some nd) ∧
      (∀ r ∈ roots, lookupA m₁ r = none) := by
  intro roots
  induction roots with
  | nil =>
      intro m m₁ hW hr h
      have hm : m₁ = m := by
        rw [removeRoots] at h
        exact ((Except.ok.injEq _ _).mp h).symm
      subst hm
      exact ⟨hW, fun j nd hj => hj, by simp⟩
  | cons r rs ih =>
      intro m m₁ hW hr h
      rw [removeRoots] at h
      cases hS : subtreeKeys m r with
      | error e => rw [hS, except_bind_err] at h; exact absurd h (by simp)
      | ok S =>
          rw [hS, except_bind_ok] at h
          cases hF : S.dedup.foldlM (fun acc k => eraseE acc k) m with
          | error e => rw [hF, except_bind_err] at h; exact absurd h (by simp)
          | ok m' =>
              rw [hF, except_bind_ok] at h
              obtain ⟨hrS, hclo⟩ := subtreeKeys_closure hS
              obtain ⟨hch, hnd⟩ := foldl_eraseE_ok _ _ _ hF
              have hch' : ∀ j, lookupA m' j
                  = if j ∈ S then none else lookupA m j := by
                intro j
                rw [hch j]
                by_cases hj : j ∈ S
                · rw [if_pos (List.mem_dedup.mpr hj), if_pos hj]
                · rw [if_neg (fun hc => hj (List.mem_dedup.mp hc)), if_neg hj]
              have hres : ∀ j nd, lookupA m' j = some nd →
                  j ∉ S ∧ lookupA m j = some nd := by
                intro j nd hj
                rw [hch' j] at hj
                by_cases hjS : j ∈ S
                · rw [if_pos hjS] at hj; exact absurd hj (by simp)
                · rw [if_neg hjS] at hj; exact ⟨hjS, hj⟩
              have habsent : ∀ s ∈ S, lookupA m' s = none := by
                intro s hs
                rw [hch' s, if_pos hs]
              have hW' : MergeWF m' := by
                refine ⟨hnd hW.keys_nodup, ?_, ?_, ?_⟩
                · intro j nd hj
                  obtain ⟨hjS, hjm⟩ := hres j nd hj
                  obtain ⟨hcnodup, hco⟩ := hW.coherent j nd hjm
                  refine ⟨hcnodup, ?_⟩
                  intro c hc
                  obtain ⟨cnd, hcnd, hcp, hlt, hsub⟩ := hco c hc
                  have hcS : c ∉ S := by
                    intro hcS
                    rcases (hclo c hcS).2 with h1 | h1
                    · subst h1
                      have := hr c (List.mem_cons_self _ _) cnd hcnd
                      rw [hcp] at this
                      exact absurd this (by simp)
                    · obtain ⟨j', hj'S, jnd', hjnd', hcj'⟩ := h1
                      obtain ⟨-, hco'⟩ := hW.coherent j' jnd' hjnd'
                      obtain ⟨cnd₂, hcnd₂, hcp₂, -, -⟩ := hco' c hcj'
                      have hc2 : cnd₂ = cnd := by
                        rw [hcnd] at hcnd₂
                        exact ((Option.some.injEq _ _).mp hcnd₂).symm
                      subst hc2
                      rw [hcp] at hcp₂
                      have : j = j' := (Option.some.injEq _ _).mp hcp₂
                      subst this
                      exact hjS hj'S
                  refine ⟨cnd, ?_, hcp, hlt, hsub⟩
                  rw [hch' c, if_neg hcS]
                  exact hcnd
                · intro j nd hj p hp
                  obtain ⟨-, hjm⟩ := hres j nd hj
                  exact hW.parent_lt j nd hjm p hp
                · intro j nd hj
                  obtain ⟨-, hjm⟩ := hres j nd hj
                  exact hW.members_ok j nd hjm
              have hroots' : ∀ r' ∈ rs, ∀ rnd,
                  lookupA m' r' = some rnd → rnd.parent = none := by
                intro r' hr' rnd hrnd
                obtain ⟨-, hm⟩ := hres r' rnd hrnd
                exact hr r' (List.mem_cons_of_mem _ hr') rnd hm
              obtain ⟨hW₁, hres₁, hgone₁⟩ := ih _ _ hW' hroots' h
              refine ⟨hW₁, ?_, ?_⟩
              · intro j nd hj
                exact (hres j nd (hres₁ j nd hj)).2
              · intro r' hr'
                rcases List.mem_cons.mp hr' with h1 | h1
                · subst h1
                  cases hx : lookupA m₁ r' with
                  | none => rfl
                  | some nd =>
                      have := hres₁ r' nd hx
                      rw [habsent r' hrS] at this
                      exact absurd this (by simp)
                · exact hgone₁ r' h1

theorem processParents_cons_many {τ : ℤ} {ps : List Nat}
    {m : List (Nat × ConnectedComponent)} {p : Nat} {pnd : ConnectedComponent}
    {ks : List (Nat × ConnectedComponent)}
    (hp : lookupE m p = Except.ok pnd)
    (hks : pnd.children.mapM (fun c => do
      let cnd ← lookupE m c
      pure (c, cnd)) = Except.ok ks)
    (h0 : ¬ (ks.filter (fun q => τ ≤ (q.2.members.length : ℤ))).length = 0)
    (h1 : ¬ (ks.filter (fun q => τ ≤ (q.2.members.length : ℤ))).length = 1) :
    processParents τ (p :: ps) m = processParents τ ps m := by
  rw [processParents, hp, except_bind_ok, hks, except_bind_ok]
  rw [if_neg h0, if_neg h1]

theorem processParents_cons_zero {τ : ℤ} {ps : List Nat}
    {m m₂ : List (Nat × ConnectedComponent)} {p : Nat}
    {pnd : ConnectedComponent} {ks : List (Nat × ConnectedComponent)}
    (hp : lookupE m p = Except.ok pnd)
    (hks : pnd.children.mapM (fun c => do
      let cnd ← lookupE m c
      pure (c, cnd)) = Except.ok ks)
    (h0 : (ks.filter (fun q => τ ≤ (q.2.members.length : ℤ))).length = 0)
    (hE : eraseMany (updateA m p (fun nd => { nd with
        end_level := py2maxQ (ks.map (fun q => q.2.end_level)),
        end_mass := py2maxQ (ks.map (fun q => q.2.end_mass)) })) pnd.children
      = Except.ok m₂) :
    processParents τ (p :: ps) m
      = processParents τ ps
          (updateA m₂ p (fun nd => { nd with children := [] })) := by
  rw [processParents, hp, except_bind_ok, hks, except_bind_ok]
  rw [if_pos h0]
  simp only []
  rw [hE, except_bind_ok]

theorem processParents_cons_one {τ : ℤ} {ps : List Nat}
    {m m₂ m₃ m₄ : List (Nat × ConnectedComponent)} {p : Nat}
    {pnd : ConnectedComponent} {ks : List (Nat × ConnectedComponent)}
    {bq : Nat × ConnectedComponent}
    (hp : lookupE m p = Except.ok pnd)
    (hks : pnd.children.mapM (fun c => do
      let cnd ← lookupE m c
      pure (c, cnd)) = Except.ok ks)
    (h0 : ¬ (ks.filter (fun q => τ ≤ (q.2.members.length : ℤ))).length = 0)
    (h1 : (ks.filter (fun q => τ ≤ (q.2.members.length : ℤ))).length = 1)
    (hhead : (ks.filter (fun q => τ ≤ (q.2.members.length : ℤ))).head? = some bq)
    (hsp : setParents (updateA m p (fun nd => { nd with
        end_level := bq.2.end_level, end_mass := bq.2.end_mass })) p
        bq.2.children = Except.ok m₂)
    (hem : eraseMany m₂ (pnd.children.filter (fun k => k ≠ bq.1))
      = Except.ok m₃)
    (heb : eraseE (updateA m₃ p (fun nd => { nd with
        children := bq.2.children })) bq.1 = Except.ok m₄) :
    processParents τ (p :: ps) m = processParents τ ps m₄ := by
  rw [processParents, hp, except_bind_ok, hks, except_bind_ok]
  rw [if_neg h0, if_pos h1, hhead]
  simp only [pure_bind]
  rw [hsp, except_bind_ok, hem, except_bind_ok, heb, except_bind_ok]

theorem processParents_err_parent {τ : ℤ} {ps : List Nat}
    {m : List (Nat × ConnectedComponent)} {p : Nat} {e : String}
    (hp : lookupE m p = Except.error e) :
    processParents τ (p :: ps) m = Except.error e := by
  rw [processParents, hp, except_bind_err]

theorem processParents_err_kids {τ : ℤ} {ps : List Nat}
    {m : List (Nat × ConnectedComponent)} {p : Nat} {pnd : ConnectedComponent}
    {e : String}
    (hp : lookupE m p = Except.ok pnd)
    (hks : pnd.children.mapM (fun c => do
      let cnd ← lookupE m c
      pure (c, cnd)) = Except.error e) :
    processParents τ (p :: ps) m = Except.error e := by
  rw [processParents, hp, except_bind_ok, hks, except_bind_err]

theorem processParents_err_zero {τ : ℤ} {ps : List Nat}
    {m : List (Nat × ConnectedComponent)} {p : Nat}
    {pnd : ConnectedComponent} {ks : List (Nat × ConnectedComponent)}
    {e : String}
    (hp : lookupE m p = Except.ok pnd)
    (hks : pnd.children.mapM (fun c => do
      let cnd ← lookupE m c
      pure (c, cnd)) = Except.ok ks)
    (h0 : (ks.filter (fun q => τ ≤ (q.2.members.length : ℤ))).length = 0)
    (hE : eraseMany (updateA m p (fun nd => { nd with
        end_level := py2maxQ (ks.map (fun q => q.2.end_level)),
        end_mass := py2maxQ (ks.map (fun q => q.2.end_mass)) })) pnd.children
      = Except.error e) :
    processParents τ (p :: ps) m = Except.error e := by
  rw [processParents, hp, except_bind_ok, hks, except_bind_ok]
  rw [if_pos h0]
  simp only []
  rw [hE, except_bind_err]

theorem processParents_err_sp {τ : ℤ} {ps : List Nat}
    {m : List (Nat × ConnectedComponent)} {p : Nat}
    {pnd : ConnectedComponent} {ks : List (Nat × ConnectedComponent)}
    {bq : Nat × ConnectedComponent} {e : String}
    (hp : lookupE m p = Except.ok pnd)
    (hks : pnd.children.mapM (fun c => do
      let cnd ← lookupE m c
      pure (c, cnd)) = Except.ok ks)
    (h0 : ¬ (ks.filter (fun q => τ ≤ (q.2.members.length : ℤ))).length = 0)
    (h1 : (ks.filter (fun q => τ ≤ (q.2.members.length : ℤ))).length = 1)
    (hhead : (ks.filter (fun q => τ ≤ (q.2.members.length : ℤ))).head? = some bq)
    (hsp : setParents (updateA m p (fun nd => { nd with
        end_level := bq.2.end_level, end_mass := bq.2.end_mass })) p
        bq.2.children = Except.error e) :
    processParents τ (p :: ps) m = Except.error e := by
  rw [processParents, hp, except_bind_ok, hks, except_bind_ok]
  rw [if_neg h0, if_pos h1, hhead]
  simp only [pure_bind]
  rw [hsp, except_bind_err]

theorem processParents_err_em {τ : ℤ} {ps : List Nat}
    {m m₂ : List (Nat × ConnectedComponent)} {p : Nat}
    {pnd : ConnectedComponent} {ks : List (Nat × ConnectedComponent)}
    {bq : Nat × ConnectedComponent} {e : String}
    (hp : lookupE m p = Except.ok pnd)
    (hks : pnd.children.mapM (fun c => do
      let cnd ← lookupE m c
      pure (c, cnd)) = Except.ok ks)
    (h0 : ¬ (ks.filter (fun q => τ ≤ (q.2.members.length : ℤ))).length = 0)
    (h1 : (ks.filter (fun q => τ ≤ (q.2.members.length : ℤ))).length = 1)
    (hhead : (ks.filter (fun q => τ ≤ (q.2.members.length : ℤ))).head? = some bq)
    (hsp : setParents (updateA m p (fun nd => { nd with
        end_level := bq.2.end_level, end_mass := bq.2.end_mass })) p
        bq.2.children = Except.ok m₂)
    (hem : eraseMany m₂ (pnd.children.filter (fun k => k ≠ bq.1))
      = Except.error e) :
    processParents τ (p :: ps) m = Except.error e := by
  rw [processParents, hp, except_bind_ok, hks, except_bind_ok]
  rw [if_neg h0, if_pos h1, hhead]
  simp only [pure_bind]
  rw [hsp, except_bind_ok, hem, except_bind_err]

theorem processParents_err_eb {τ : ℤ} {ps : List Nat}
    {m m₂ m₃ : List (Nat × ConnectedComponent)} {p : Nat}
    {pnd : ConnectedComponent} {ks : List (Nat × ConnectedComponent)}
    {bq : Nat × ConnectedComponent} {e : String}
    (hp : lookupE m p = Except.ok pnd)
    (hks : pnd.children.mapM (fun c => do
      let cnd ← lookupE m c
      pure (c, cnd)) = Except.ok ks)
    (h0 : ¬ (ks.filter (fun q => τ ≤ (q.2.members.length : ℤ))).length = 0)
    (h1 : (ks.filter (fun q => τ ≤ (q.2.members.length : ℤ))).length = 1)
    (hhead : (ks.filter (fun q => τ ≤ (q.2.members.length : ℤ))).head? = some bq)
    (hsp : setParents (updateA m p (fun nd => { nd with
        end_level := bq.2.end_level, end_mass := bq.2.end_mass })) p
        bq.2.children = Except.ok m₂)
    (hem : eraseMany m₂ (pnd.children.filter (fun k => k ≠ bq.1))
      = Except.ok m₃)
    (heb : eraseE (updateA m₃ p (fun nd => { nd with
        children := bq.2.children })) bq.1 = Except.error e) :
    processParents τ (p :: ps) m = Except.error e := by
  rw [processParents, hp, except_bind_ok, hks, except_bind_ok]
  rw [if_neg h0, if_pos h1, hhead]
  simp only [pure_bind]
  rw [hsp, except_bind_ok, hem, except_bind_ok, heb, except_bind_err]

theorem lookupA_updateA_char {α : Type} {m : List (Nat × α)} {k : Nat} {v : α}
    (f : α → α) (hv : lookupA m k = some v) :
    ∀ j, lookupA (updateA m k f) j
      = if j = k then some (f v) else lookupA m j := by
  intro j
  by_cases hj : j = k
  · subst hj
    rw [if_pos rfl, lookupA_updateA_self, hv]
    rfl
  · rw [if_neg hj, lookupA_updateA_ne (Ne.symm hj)]

theorem child_parent_eq {m : List (Nat × ConnectedComponent)} (hW : MergeWF m)
    {i c j : Nat} {nd jnd : ConnectedComponent}
    (hnd : lookupA m i = some nd) (hc : c ∈ nd.children)
    (hjnd : lookupA m j = some jnd) (hcj : c ∈ jnd.children) : i = j := by
  obtain ⟨cnd, hcnd, hcp, -, -⟩ := (hW.coherent i nd hnd).2 c hc
  obtain ⟨cnd₂, hcnd₂, hcp₂, -, -⟩ := (hW.coherent j jnd hjnd).2 c hcj
  rw [hcnd] at hcnd₂
  have he : cnd₂ = cnd := ((Option.some.injEq _ _).mp hcnd₂).symm
  subst he
  rw [hcp] at hcp₂
  exact (Option.some.injEq _ _).mp hcp₂

theorem zeroBranch_pres {τ : ℤ} {m m₂ : List (Nat × ConnectedComponent)}
    {p : Nat} {pnd : ConnectedComponent} {eL eM : Option ℚ}
    (hW : MergeWF m) (hR : RootsBig m τ)
    (hpl : lookupA m p = some pnd)
    (hE : eraseMany (updateA m p (fun nd => { nd with
        end_level := eL, end_mass := eM })) pnd.children = Except.ok m₂) :
    (∀ j, lookupA (updateA m₂ p (fun nd => { nd with children := [] })) j
      = if j = p then some { pnd with end_level := eL, end_mass := eM, children := [] }
        else if j ∈ pnd.children then none
        else lookupA m j) ∧
    MergeWF (updateA m₂ p (fun nd => { nd with children := [] })) ∧
    RootsBig (updateA m₂ p (fun nd => { nd with children := [] })) τ := by
  have hkid_gt : ∀ c ∈ pnd.children, p < c := by
    intro c hc
    obtain ⟨-, -, hlt, -⟩ := ((hW.coherent p pnd hpl).2 c hc).choose_spec
    exact hlt
  have hp_not : p ∉ pnd.children := fun hc => absurd (hkid_gt p hc) (lt_irrefl p)
  have hm₁ := lookupA_updateA_char
    (fun nd => { nd with end_level := eL, end_mass := eM }) hpl
  obtain ⟨hm₂, hnd₂⟩ := eraseMany_ok _ _ _ hE
  have hm₂p : lookupA m₂ p
      = some { pnd with end_level := eL, end_mass := eM } := by
    rw [hm₂ p, if_neg hp_not, hm₁ p, if_pos rfl]
  have hm₃ := lookupA_updateA_char
    (fun nd => { nd with children := [] }) hm₂p
  have hchar : ∀ j, lookupA (updateA m₂ p
        (fun nd => { nd with children := [] })) j
      = if j = p then some { pnd with end_level := eL, end_mass := eM, children := [] }
        else if j ∈ pnd.children then none
        else lookupA m j := by
    intro j
    by_cases hjp : j = p
    · subst hjp
      rw [hm₃ j, if_pos rfl, if_pos rfl]
    · rw [hm₃ j, if_neg hjp, if_neg hjp, hm₂ j]
      by_cases hjk : j ∈ pnd.children
      · rw [if_pos hjk, if_pos hjk]
      · rw [if_neg hjk, if_neg hjk, hm₁ j, if_neg hjp]
  refine ⟨hchar, ?_, ?_⟩
  · -- MergeWF
    have hkeys : keysA (updateA m₂ p (fun nd => { nd with children := [] }))
        = keysA m₂ := keysA_updateA
    refine ⟨?_, ?_, ?_, ?_⟩
    · rw [hkeys]
      exact hnd₂ (by rw [keysA_updateA]; exact hW.keys_nodup)
    · -- coherent
      intro j nd hj
      rw [hchar j] at hj
      by_cases hjp : j = p
      · rw [if_pos hjp] at hj
        have hnd : nd = { pnd with end_level := eL, end_mass := eM, children := [] } := ((Option.some.injEq _ _).mp hj).symm
        subst hnd
        exact ⟨List.nodup_nil, by intro c hc; simp at hc⟩
      · rw [if_neg hjp] at hj
        by_cases hjk : j ∈ pnd.children
        · rw [if_pos hjk] at hj; exact absurd hj (by simp)
        · rw [if_neg hjk] at hj
          obtain ⟨hcnodup, hco⟩ := hW.coherent j nd hj
          refine ⟨hcnodup, ?_⟩
          intro c hc
          obtain ⟨cnd, hcnd, hcp, hclt, hcsub⟩ := hco c hc
          by_cases hcp' : c = p
          · subst hcp'
            have he : cnd = pnd := by
              rw [hpl] at hcnd
              exact ((Option.some.injEq _ _).mp hcnd).symm
            subst he
            refine ⟨{ cnd with end_level := eL, end_mass := eM, children := [] }, ?_, hcp, hclt, hcsub⟩
            rw [hchar c, if_pos rfl]
          · have hck : c ∉ pnd.children := by
              intro hck
              exact hjp (child_parent_eq hW hj hc hpl hck)
            refine ⟨cnd, ?_, hcp, hclt, hcsub⟩
            rw [hchar c, if_neg hcp', if_neg hck]
            exact hcnd
    · -- parent_lt
      intro j nd hj q hq
      rw [hchar j] at hj
      by_cases hjp : j = p
      · rw [if_pos hjp] at hj
        have hnd : nd = { pnd with end_level := eL, end_mass := eM, children := [] } := ((Option.some.injEq _ _).mp hj).symm
        subst hnd
        subst hjp
        exact hW.parent_lt j pnd hpl q hq
      · rw [if_neg hjp] at hj
        by_cases hjk : j ∈ pnd.children
        · rw [if_pos hjk] at hj; exact absurd hj (by simp)
        · rw [if_neg hjk] at hj
          exact hW.parent_lt j nd hj q hq
    · -- members_ok
      intro j nd hj
      rw [hchar j] at hj
      by_cases hjp : j = p
      · rw [if_pos hjp] at hj
        have hnd : nd = { pnd with end_level := eL, end_mass := eM, children := [] } := ((Option.some.injEq _ _).mp hj).symm
        subst hnd
        exact hW.members_ok p pnd hpl
      · rw [if_neg hjp] at hj
        by_cases hjk : j ∈ pnd.children
        · rw [if_pos hjk] at hj; exact absurd hj (by simp)
        · rw [if_neg hjk] at hj
          exact hW.members_ok j nd hj
  · -- RootsBig
    intro j nd hj hroot
    rw [hchar j] at hj
    by_cases hjp : j = p
    · rw [if_pos hjp] at hj
      have hnd : nd = { pnd with end_level := eL, end_mass := eM, children := [] } := ((Option.some.injEq _ _).mp hj).symm
      subst hnd
      exact hR p pnd hpl hroot
    · rw [if_neg hjp] at hj
      by_cases hjk : j ∈ pnd.children
      · rw [if_pos hjk] at hj; exact absurd hj (by simp)
      · rw [if_neg hjk] at hj
        exact hR j nd hj hroot

theorem oneBranch_pres {τ : ℤ} {m m₂ m₃ m₄ : List (Nat × ConnectedComponent)}
    {p b : Nat} {pnd bnd : ConnectedComponent}
    (hW : MergeWF m) (hR : RootsBig m τ)
    (hpl : lookupA m p = some pnd)
    (hb_in : b ∈ pnd.children)
    (hbl : lookupA m b = some bnd)
    (hsp : setParents (updateA m p (fun nd => { nd with
        end_level := bnd.end_level, end_mass := bnd.end_mass })) p
        bnd.children = Except.ok m₂)
    (hem : eraseMany m₂ (pnd.children.filter (fun k => k ≠ b))
      = Except.ok m₃)
    (heb : eraseE (updateA m₃ p (fun nd => { nd with
        children := bnd.children })) b = Except.ok m₄) :
    (∀ j, lookupA m₄ j
      = if j = b then none
        else if j = p then some { pnd with end_level := bnd.end_level, end_mass := bnd.end_mass, children := bnd.children }
        else if j ∈ bnd.children then
          (lookupA m j).map (fun nd => { nd with parent := some p })
        else if j ∈ pnd.children then none
        else lookupA m j) ∧
    MergeWF m₄ ∧ RootsBig m₄ τ := by
  obtain ⟨bnd₂, hbnd₂, hbp, hpb, hbsub⟩ := (hW.coherent p pnd hpl).2 b hb_in
  have hbe : bnd₂ = bnd := by
    rw [hbl] at hbnd₂
    exact ((Option.some.injEq _ _).mp hbnd₂).symm
  rw [hbe] at hbp hbsub
  have hkid_gt : ∀ c ∈ pnd.children, p < c := by
    intro c hc
    obtain ⟨-, -, hlt, -⟩ := ((hW.coherent p pnd hpl).2 c hc).choose_spec
    exact hlt
  have hG_gt : ∀ g ∈ bnd.children, b < g := by
    intro g hg
    obtain ⟨-, -, hlt, -⟩ := ((hW.coherent b bnd hbl).2 g hg).choose_spec
    exact hlt
  have hp_not_k : p ∉ pnd.children := fun hc =>
    absurd (hkid_gt p hc) (lt_irrefl p)
  have hp_not_G : p ∉ bnd.children := fun hc =>
    absurd (lt_trans hpb (hG_gt p hc)) (lt_irrefl p)
  have hb_not_G : b ∉ bnd.children := fun hc =>
    absurd (hG_gt b hc) (lt_irrefl b)
  have hpb_ne : p ≠ b := Nat.ne_of_lt hpb
  have hG_not_k : ∀ g ∈ bnd.children, g ∉ pnd.children := by
    intro g hg hgk
    exact hpb_ne (child_parent_eq hW hpl hgk hbl hg)
  have hmemfilter : ∀ j, j ∈ pnd.children.filter (fun k => k ≠ b)
      ↔ (j ∈ pnd.children ∧ j ≠ b) := by
    intro j
    rw [List.mem_filter]
    simp
  have hm₁ := lookupA_updateA_char
    (fun nd => { nd with end_level := bnd.end_level, end_mass := bnd.end_mass }) hpl
  obtain ⟨hsp_ch, hsp_keys⟩ := setParents_ok _ _ _ _ hsp
  obtain ⟨hem_ch, hem_nd⟩ := eraseMany_ok _ _ _ hem
  have hm₃p : lookupA m₃ p
      = some { pnd with end_level := bnd.end_level, end_mass := bnd.end_mass } := by
    rw [hem_ch p, if_neg (fun hc => hp_not_k ((hmemfilter p).mp hc).1),
      hsp_ch p, if_neg hp_not_G, hm₁ p, if_pos rfl]
  have hm₄' := lookupA_updateA_char
    (fun nd => { nd with children := bnd.children }) hm₃p
  have hm₄eq : m₄ = eraseA (updateA m₃ p (fun nd => { nd with
      children := bnd.children })) b := eraseE_cases heb
  have hchar : ∀ j, lookupA m₄ j
      = if j = b then none
        else if j = p then some { pnd with end_level := bnd.end_level, end_mass := bnd.end_mass, children := bnd.children }
        else if j ∈ bnd.children then
          (lookupA m j).map (fun nd => { nd with parent := some p })
        else if j ∈ pnd.children then none
        else lookupA m j := by
    intro j
    by_cases hjb : j = b
    · subst hjb
      rw [if_pos rfl, hm₄eq, lookupA_eraseA_self]
    · rw [if_neg hjb, hm₄eq, lookupA_eraseA_ne hjb, hm₄' j]
      by_cases hjp : j = p
      · rw [if_pos hjp, if_pos hjp]
      · rw [if_neg hjp, if_neg hjp, hem_ch j]
        by_cases hjG : j ∈ bnd.children
        · rw [if_pos hjG,
            if_neg (fun hc => hG_not_k j hjG ((hmemfilter j).mp hc).1),
            hsp_ch j, if_pos hjG, hm₁ j, if_neg hjp]
        · rw [if_neg hjG]
          by_cases hjk : j ∈ pnd.children
          · rw [if_pos hjk, if_pos ((hmemfilter j).mpr ⟨hjk, hjb⟩)]
          · rw [if_neg hjk, if_neg (fun hc => hjk ((hmemfilter j).mp hc).1),
              hsp_ch j, if_neg hjG, hm₁ j, if_neg hjp]
  refine ⟨hchar, ?_, ?_⟩
  · -- MergeWF m₄
    refine ⟨?_, ?_, ?_, ?_⟩
    · -- keys nodup
      rw [hm₄eq]
      apply nodup_keysA_eraseA
      rw [keysA_updateA]
      apply hem_nd
      rw [hsp_keys, keysA_updateA]
      exact hW.keys_nodup
    · -- coherent
      intro j nd₄ hj
      rw [hchar j] at hj
      by_cases hjb : j = b
      · rw [if_pos hjb] at hj; exact absurd hj (by simp)
      rw [if_neg hjb] at hj
      by_cases hjp : j = p
      · rw [if_pos hjp] at hj
        have hnd : nd₄ = { pnd with end_level := bnd.end_level, end_mass := bnd.end_mass, children := bnd.children } :=
          ((Option.some.injEq _ _).mp hj).symm
        subst hnd
        refine ⟨(hW.coherent b bnd hbl).1, ?_⟩
        intro g hg
        obtain ⟨gnd, hgnd, hgp, hblt, hgsub⟩ := (hW.coherent b bnd hbl).2 g hg
        refine ⟨{ gnd with parent := some p }, ?_, by rw [hjp],
          by rw [hjp]; exact lt_trans hpb (hG_gt g hg),
          List.Subset.trans hgsub hbsub⟩
        have hgb : g ≠ b := fun hc => hb_not_G (hc ▸ hg)
        have hgp' : g ≠ p := fun hc => hp_not_G (hc ▸ hg)
        rw [hchar g, if_neg hgb, if_neg hgp', if_pos hg, hgnd]
        rfl
      rw [if_neg hjp] at hj
      by_cases hjG : j ∈ bnd.children
      · rw [if_pos hjG] at hj
        cases hgl : lookupA m j with
        | none => rw [hgl] at hj; exact absurd hj (by simp)
        | some gnd =>
            rw [hgl] at hj
            have hnd : nd₄ = { gnd with parent := some p } :=
              ((Option.some.injEq _ _).mp hj).symm
            subst hnd
            obtain ⟨hnodup, hco⟩ := hW.coherent j gnd hgl
            refine ⟨hnodup, ?_⟩
            intro c hc
            obtain ⟨cnd, hcnd, hcp, hjlt, hcsub⟩ := hco c hc
            have hcb : c ≠ b := by
              intro hcb
              subst hcb
              rw [hbl] at hcnd
              have he : cnd = bnd := ((Option.some.injEq _ _).mp hcnd).symm
              subst he
              rw [hbp] at hcp
              have : p = j := (Option.some.injEq _ _).mp hcp
              exact hp_not_G (this ▸ hjG)
            have hcpn : c ≠ p := by
              intro hcp'
              subst hcp'
              rw [hpl] at hcnd
              have he : cnd = pnd := ((Option.some.injEq _ _).mp hcnd).symm
              subst he
              have hjlt' := hW.parent_lt c cnd hpl j hcp
              have := lt_trans hpb (hG_gt j hjG)
              omega
            have hcG : c ∉ bnd.children := by
              intro hcG
              have := child_parent_eq hW hgl hc hbl hcG
              exact hb_not_G (this ▸ hjG)
            have hck : c ∉ pnd.children := by
              intro hck
              have := child_parent_eq hW hgl hc hpl hck
              exact hp_not_G (this ▸ hjG)
            refine ⟨cnd, ?_, hcp, hjlt, hcsub⟩
            rw [hchar c, if_neg hcb, if_neg hcpn, if_neg hcG, if_neg hck]
            exact hcnd
      rw [if_neg hjG] at hj
      by_cases hjk : j ∈ pnd.children
      · rw [if_pos hjk] at hj; exact absurd hj (by simp)
      rw [if_neg hjk] at hj
      obtain ⟨hnodup, hco⟩ := hW.coherent j nd₄ hj
      refine ⟨hnodup, ?_⟩
      intro c hc
      obtain ⟨cnd, hcnd, hcp, hjlt, hcsub⟩ := hco c hc
      have hcb : c ≠ b := by
        intro hcb
        subst hcb
        rw [hbl] at hcnd
        have he : cnd = bnd := ((Option.some.injEq _ _).mp hcnd).symm
        subst he
        rw [hbp] at hcp
        exact hjp ((Option.some.injEq _ _).mp hcp).symm
      have hcG : c ∉ bnd.children := by
        intro hcG
        exact hjb (child_parent_eq hW hj hc hbl hcG)
      have hck : c ∉ pnd.children := by
        intro hck
        exact hjp (child_parent_eq hW hj hc hpl hck)
      by_cases hcpn : c = p
      · subst hcpn
        rw [hpl] at hcnd
        have he : cnd = pnd := ((Option.some.injEq _ _).mp hcnd).symm
        subst he
        refine ⟨{ cnd with end_level := bnd.end_level, end_mass := bnd.end_mass, children := bnd.children }, ?_, hcp, hjlt, hcsub⟩
        rw [hchar c, if_neg hcb, if_pos rfl]
      · refine ⟨cnd, ?_, hcp, hjlt, hcsub⟩
        rw [hchar c, if_neg hcb, if_neg hcpn, if_neg hcG, if_neg hck]
        exact hcnd
    · -- parent_lt
      intro j nd₄ hj q hq
      rw [hchar j] at hj
      by_cases hjb : j = b
      · rw [if_pos hjb] at hj; exact absurd hj (by simp)
      rw [if_neg hjb] at hj
      by_cases hjp : j = p
      · rw [if_pos hjp] at hj
        have hnd : nd₄ = { pnd with end_level := bnd.end_level, end_mass := bnd.end_mass, children := bnd.children } :=
          ((Option.some.injEq _ _).mp hj).symm
        subst hnd
        subst hjp
        exact hW.parent_lt j pnd hpl q hq
      rw [if_neg hjp] at hj
      by_cases hjG : j ∈ bnd.children
      · rw [if_pos hjG] at hj
        cases hgl : lookupA m j with
        | none => rw [hgl] at hj; exact absurd hj (by simp)
        | some gnd =>
            rw [hgl] at hj
            have hnd : nd₄ = { gnd with parent := some p } :=
              ((Option.some.injEq _ _).mp hj).symm
            subst hnd
            have hqp : q = p := by
              have : some p = some q := hq ▸ rfl
              exact ((Option.some.injEq _ _).mp this).symm
            subst hqp
            exact lt_trans hpb (hG_gt j hjG)
      rw [if_neg hjG] at hj
      by_cases hjk : j ∈ pnd.children
      · rw [if_pos hjk] at hj; exact absurd hj (by simp)
      rw [if_neg hjk] at hj
      exact hW.parent_lt j nd₄ hj q hq
    · -- members_ok
      intro j nd₄ hj
      rw [hchar j] at hj
      by_cases hjb : j = b
      · rw [if_pos hjb] at hj; exact absurd hj (by simp)
      rw [if_neg hjb] at hj
      by_cases hjp : j = p
      · rw [if_pos hjp] at hj
        have hnd : nd₄ = { pnd with end_level := bnd.end_level, end_mass := bnd.end_mass, children := bnd.children } :=
          ((Option.some.injEq _ _).mp hj).symm
        subst hnd
        exact hW.members_ok p pnd hpl
      rw [if_neg hjp] at hj
      by_cases hjG : j ∈ bnd.children
      · rw [if_pos hjG] at hj
        cases hgl : lookupA m j with
        | none => rw [hgl] at hj; exact absurd hj (by simp)
        | some gnd =>
            rw [hgl] at hj
            have hnd : nd₄ = { gnd with parent := some p } :=
              ((Option.some.injEq _ _).mp hj).symm
            subst hnd
            exact hW.members_ok j gnd hgl
      rw [if_neg hjG] at hj
      by_cases hjk : j ∈ pnd.children
      · rw [if_pos hjk] at hj; exact absurd hj (by simp)
      rw [if_neg hjk] at hj
      exact hW.members_ok j nd₄ hj
  · -- RootsBig
    intro j nd₄ hj hroot
    rw [hchar j] at hj
    by_cases hjb : j = b
    · rw [if_pos hjb] at hj; exact absurd hj (by simp)
    rw [if_neg hjb] at hj
    by_cases hjp : j = p
    · rw [if_pos hjp] at hj
      have hnd : nd₄ = { pnd with end_level := bnd.end_level, end_mass := bnd.end_mass, children := bnd.children } :=
        ((Option.some.injEq _ _).mp hj).symm
      subst hnd
      exact hR p pnd hpl hroot
    rw [if_neg hjp] at hj
    by_cases hjG : j ∈ bnd.children
    · rw [if_pos hjG] at hj
      cases hgl : lookupA m j with
      | none => rw [hgl] at hj; exact absurd hj (by simp)
      | some gnd =>
          rw [hgl] at hj
          have hnd : nd₄ = { gnd with parent := some p } :=
            ((Option.some.injEq _ _).mp hj).symm
          subst hnd
          exact absurd hroot (by simp)
    rw [if_neg hjG] at hj
    by_cases hjk : j ∈ pnd.children
    · rw [if_pos hjk] at hj; exact absurd hj (by simp)
    rw [if_neg hjk] at hj
    exact hR j nd₄ hj hroot

theorem processParents_pres {τ : ℤ} :
    ∀ (ps : List Nat) (m m' : List (Nat × ConnectedComponent)),
      MergeWF m → RootsBig m τ →
      List.Pairwise (fun a b => b < a) ps →
      (∀ i nd, lookupA m i = some nd → i ∉ ps → SettledAt m τ nd) →
      processParents τ ps m = Except.ok m' →
      MergeWF m' ∧ RootsBig m' τ ∧ Settled m' τ := by
  intro ps
  induction ps with
  | nil =>
      intro m m' hW hR hpair hset h
      have h' : Except.ok m = Except.ok m' := h
      have hm : m' = m := ((Except.ok.injEq _ _).mp h').symm
      subst hm
      exact ⟨hW, hR, fun i nd hnd => hset i nd hnd (by simp)⟩
  | cons p rest ih =>
      intro m m' hW hR hpair hset h
      cases hp : lookupE m p with
      | error e =>
          rw [processParents_err_parent hp] at h
          exact absurd h (by simp)
      | ok pnd =>
      have hpl : lookupA m p = some pnd := lookupE_some hp
      have hpres : ∀ c ∈ pnd.children, ∃ v, lookupA m c = some v := by
        intro c hc
        obtain ⟨cnd, hcnd, -, -, -⟩ := (hW.coherent p pnd hpl).2 c hc
        exact ⟨cnd, hcnd⟩
      obtain ⟨ks, hksEq, hmap, hlk⟩ := kidLookups_ok pnd.children hpres
      have hcount := kidFilter_count τ ks hlk
      rw [hmap] at hcount
      have hrest_lt : ∀ q ∈ rest, q < p := (List.pairwise_cons.mp hpair).1
      have hpair' := (List.pairwise_cons.mp hpair).2
      have hkid_gt : ∀ c ∈ pnd.children, p < c := by
        intro c hc
        obtain ⟨-, -, hlt, -⟩ := ((hW.coherent p pnd hpl).2 c hc).choose_spec
        exact hlt
      have hkid_not : ∀ c ∈ pnd.children, c ∉ (p :: rest) := by
        intro c hc hcc
        rcases List.mem_cons.mp hcc with h1 | h1
        · exact absurd (h1 ▸ hkid_gt c hc) (lt_irrefl _)
        · have h2 := hrest_lt c h1
          have h3 := hkid_gt c hc
          omega
      by_cases h0 : (ks.filter (fun q => τ ≤ ((q.2.members.length : ℤ)))).length = 0
      · -- no big kid: absorb all children
        have hEOk : ∃ m₂, eraseMany (updateA m p (fun nd => { nd with
            end_level := py2maxQ (ks.map (fun q => q.2.end_level)),
            end_mass := py2maxQ (ks.map (fun q => q.2.end_mass)) }))
            pnd.children = Except.ok m₂ := by
          cases hE : eraseMany (updateA m p (fun nd => { nd with
              end_level := py2maxQ (ks.map (fun q => q.2.end_level)),
              end_mass := py2maxQ (ks.map (fun q => q.2.end_mass)) }))
              pnd.children with
          | error e =>
              rw [processParents_err_zero hp hksEq h0 hE] at h
              exact absurd h (by simp)
          | ok m₂ => exact ⟨m₂, rfl⟩
        obtain ⟨m₂, hE⟩ := hEOk
        rw [processParents_cons_zero hp hksEq h0 hE] at h
        obtain ⟨hchar, hW₃, hR₃⟩ := zeroBranch_pres hW hR hpl hE
        have hmm : ∀ c, c ∉ pnd.children →
            (lookupA (updateA m₂ p (fun nd => { nd with children := [] })) c).map
                ConnectedComponent.members
              = (lookupA m c).map ConnectedComponent.members := by
          intro c hck
          rw [hchar c]
          by_cases hcp : c = p
          · rw [if_pos hcp, hcp, hpl]
            rfl
          · rw [if_neg hcp, if_neg hck]
        have hset₃ : ∀ i nd₃,
            lookupA (updateA m₂ p (fun nd => { nd with children := [] })) i
              = some nd₃ → i ∉ rest →
            SettledAt (updateA m₂ p (fun nd => { nd with children := [] }))
              τ nd₃ := by
          intro i nd₃ hi hnot
          have hi' := hi
          rw [hchar i] at hi'
          by_cases hip : i = p
          · rw [if_pos hip] at hi'
            have hnd : nd₃.children = [] := by
              have : nd₃ = { pnd with
                  end_level := py2maxQ (ks.map (fun q => q.2.end_level)),
                  end_mass := py2maxQ (ks.map (fun q => q.2.end_mass)),
                  children := [] } := ((Option.some.injEq _ _).mp hi').symm
              rw [this]
            exact Or.inl hnd
          · rw [if_neg hip] at hi'
            by_cases hik : i ∈ pnd.children
            · rw [if_pos hik] at hi'
              exact absurd hi' (by simp)
            · rw [if_neg hik] at hi'
              have hold := hset i nd₃ hi' (by
                intro hcc
                rcases List.mem_cons.mp hcc with h1 | h1
                · exact hip h1
                · exact hnot h1)
              apply settledAt_congr _ hold
              intro c hc
              apply hmm c
              intro hck
              exact hip (child_parent_eq hW hi' hc hpl hck)
        exact ih _ _ hW₃ hR₃ hpair' hset₃ h
      by_cases h1 : (ks.filter (fun q => τ ≤ ((q.2.members.length : ℤ)))).length = 1
      · -- exactly one big kid: splice it out
        obtain ⟨bq, hfq⟩ := List.length_eq_one.mp h1
        have hhead : (ks.filter
            (fun q => τ ≤ ((q.2.members.length : ℤ)))).head? = some bq := by
          rw [hfq]
          rfl
        have hbq_ks : bq ∈ ks := by
          have : bq ∈ ks.filter (fun q => τ ≤ ((q.2.members.length : ℤ))) := by
            rw [hfq]
            exact List.mem_singleton.mpr rfl
          exact List.mem_of_mem_filter this
        have hb_in : bq.1 ∈ pnd.children := by
          rw [← hmap]
          exact List.mem_map.mpr ⟨bq, hbq_ks, rfl⟩
        have hbl : lookupA m bq.1 = some bq.2 := hlk bq hbq_ks
        have hpb : p < bq.1 := hkid_gt bq.1 hb_in
        have hG_gt : ∀ g ∈ bq.2.children, bq.1 < g := by
          intro g hg
          obtain ⟨-, -, hlt, -⟩ :=
            ((hW.coherent bq.1 bq.2 hbl).2 g hg).choose_spec
          exact hlt
        have hspOk : ∃ m₂, setParents (updateA m p (fun nd => { nd with
            end_level := bq.2.end_level, end_mass := bq.2.end_mass })) p
            bq.2.children = Except.ok m₂ := by
          cases hsp : setParents (updateA m p (fun nd => { nd with
              end_level := bq.2.end_level, end_mass := bq.2.end_mass })) p
              bq.2.children with
          | error e =>
              rw [processParents_err_sp hp hksEq h0 h1 hhead hsp] at h
              exact absurd h (by simp)
          | ok m₂ => exact ⟨m₂, rfl⟩
        obtain ⟨m₂, hsp⟩ := hspOk
        have hemOk : ∃ m₃, eraseMany m₂
            (pnd.children.filter (fun k => k ≠ bq.1)) = Except.ok m₃ := by
          cases hem : eraseMany m₂
              (pnd.children.filter (fun k => k ≠ bq.1)) with
          | error e =>
              rw [processParents_err_em hp hksEq h0 h1 hhead hsp hem] at h
              exact absurd h (by simp)
          | ok m₃ => exact ⟨m₃, rfl⟩
        obtain ⟨m₃, hem⟩ := hemOk
        have hebOk : ∃ m₄, eraseE (updateA m₃ p (fun nd => { nd with
            children := bq.2.children })) bq.1 = Except.ok m₄ := by
          cases heb : eraseE (updateA m₃ p (fun nd => { nd with
              children := bq.2.children })) bq.1 with
          | error e =>
              rw [processParents_err_eb hp hksEq h0 h1 hhead hsp hem heb] at h
              exact absurd h (by simp)
          | ok m₄ => exact ⟨m₄, rfl⟩
        obtain ⟨m₄, heb⟩ := hebOk
        rw [processParents_cons_one hp hksEq h0 h1 hhead hsp hem heb] at h
        obtain ⟨hchar, hW₄, hR₄⟩ := oneBranch_pres hW hR hpl hb_in hbl hsp hem heb
        have hmm : ∀ c, c ∉ pnd.children →
            (lookupA m₄ c).map ConnectedComponent.members
              = (lookupA m c).map ConnectedComponent.members := by
          intro c hck
          have hcb : c ≠ bq.1 := fun hc => hck (hc ▸ hb_in)
          rw [hchar c, if_neg hcb]
          by_cases hcp : c = p
          · rw [if_pos hcp, hcp, hpl]
            rfl
          · rw [if_neg hcp]
            by_cases hcG : c ∈ bq.2.children
            · rw [if_pos hcG, Option.map_map]
              rfl
            · rw [if_neg hcG, if_neg hck]
        have hset₄ : ∀ i nd₄, lookupA m₄ i = some nd₄ → i ∉ rest →
            SettledAt m₄ τ nd₄ := by
          intro i nd₄ hi hnot
          have hi' := hi
          rw [hchar i] at hi'
          by_cases hib : i = bq.1
          · rw [if_pos hib] at hi'
            exact absurd hi' (by simp)
          rw [if_neg hib] at hi'
          by_cases hip : i = p
          · rw [if_pos hip] at hi'
            have hnd : nd₄ = { pnd with end_level := bq.2.end_level, end_mass := bq.2.end_mass, children := bq.2.children } :=
              ((Option.some.injEq _ _).mp hi').symm
            have hbset : SettledAt m τ bq.2 :=
              hset bq.1 bq.2 hbl (hkid_not bq.1 hb_in)
            have hbset₄ : SettledAt m₄ τ bq.2 := by
              apply settledAt_congr _ hbset
              intro c hc
              apply hmm c
              intro hck
              exact absurd (child_parent_eq hW hbl hc hpl hck)
                (Nat.ne_of_gt hpb)
            rcases hbset₄ with hbc | hbc
            · exact Or.inl (by rw [hnd]; exact hbc)
            · refine Or.inr ?_
              rw [hnd]
              exact hbc
          rw [if_neg hip] at hi'
          by_cases hiG : i ∈ bq.2.children
          · rw [if_pos hiG] at hi'
            cases hgl : lookupA m i with
            | none => rw [hgl] at hi'; exact absurd hi' (by simp)
            | some gnd =>
                rw [hgl] at hi'
                have hnd : nd₄ = { gnd with parent := some p } :=
                  ((Option.some.injEq _ _).mp hi').symm
                have hpi : p < i := lt_trans hpb (hG_gt i hiG)
                have hold := hset i gnd hgl (by
                  intro hcc
                  rcases List.mem_cons.mp hcc with hh | hh
                  · exact hip hh
                  · have := hrest_lt i hh
                    omega)
                have hold₄ : SettledAt m₄ τ gnd := by
                  apply settledAt_congr _ hold
                  intro c hc
                  apply hmm c
                  intro hck
                  have := child_parent_eq hW hgl hc hpl hck
                  exact hip this
                rcases hold₄ with hbc | hbc
                · exact Or.inl (by rw [hnd]; exact hbc)
                · refine Or.inr ?_
                  rw [hnd]
                  exact hbc
          rw [if_neg hiG] at hi'
          by_cases hik : i ∈ pnd.children
          · rw [if_pos hik] at hi'
            exact absurd hi' (by simp)
          rw [if_neg hik] at hi'
          have hold := hset i nd₄ hi' (by
            intro hcc
            rcases List.mem_cons.mp hcc with hh | hh
            · exact hip hh
            · exact hnot hh)
          apply settledAt_congr _ hold
          intro c hc
          apply hmm c
          intro hck
          exact hip (child_parent_eq hW hi' hc hpl hck)
        exact ih _ _ hW₄ hR₄ hpair' hset₄ h
      · -- at least two big kids: nothing to do
        rw [processParents_cons_many hp hksEq h0 h1] at h
        have hsetr : ∀ i nd, lookupA m i = some nd → i ∉ rest →
            SettledAt m τ nd := by
          intro i nd hi hnot
          by_cases hip : i = p
          · subst hip
            have he : nd = pnd := by
              rw [hpl] at hi
              exact ((Option.some.injEq _ _).mp hi).symm
            subst he
            refine Or.inr ⟨hpres, ?_⟩
            omega
          · exact hset i nd hi (by
              intro hcc
              rcases List.mem_cons.mp hcc with hh | hh
              · exact hip hh
              · exact hnot hh)
        exact ih _ _ hW hR hpair' hsetr h

theorem tableInv_mergeWF {m : List (Nat × ConnectedComponent)}
    (h : TableInv m) : MergeWF m := by
  refine ⟨by rw [h.keys_range]; exact List.nodup_range _, h.coherent, ?_,
    h.members_ok⟩
  intro i nd hnd p hp
  obtain ⟨-, -, -, hlt⟩ := (h.start_match i nd hnd p hp).choose_spec
  exact hlt

theorem mergeBySize_pres {t t' : LevelSetTree} {τ : ℤ}
    (hW : MergeWF t.nodes)
    (h : mergeBySize t τ = Except.ok t') :
    MergeWF t'.nodes ∧ RootsBig t'.nodes τ ∧ Settled t'.nodes τ := by
  rw [mergeBySize] at h
  have hroots_hyp : ∀ r ∈ ((t.nodes.filter (fun q =>
      q.2.parent = none ∧ (q.2.members.length : ℤ) ≤ τ)).map Prod.fst),
      ∀ rnd, lookupA t.nodes r = some rnd → rnd.parent = none := by
    intro r hr rnd hrnd
    obtain ⟨q, hqf, hqr⟩ := List.mem_map.mp hr
    have hqmem := List.mem_of_mem_filter hqf
    have hql : lookupA t.nodes q.1 = some q.2 :=
      lookupA_of_mem_nodup hW.keys_nodup hqmem
    have hpred := List.of_mem_filter hqf
    simp only [decide_eq_true_eq] at hpred
    subst hqr
    rw [hql] at hrnd
    have he : rnd = q.2 := ((Option.some.injEq _ _).mp hrnd).symm
    subst he
    exact hpred.1
  cases hrr : removeRoots t.nodes ((t.nodes.filter (fun q =>
      q.2.parent = none ∧ (q.2.members.length : ℤ) ≤ τ)).map Prod.fst) with
  | error e =>
      rw [hrr, except_bind_err] at h
      exact absurd h (by simp)
  | ok m₁ =>
      rw [hrr, except_bind_ok] at h
      simp only [] at h
      obtain ⟨hW₁, hres₁, hgone₁⟩ := removeRoots_ok _ _ _ hW hroots_hyp hrr
      have hR₁ : RootsBig m₁ τ := by
        intro j nd hj hroot
        have hjm := hres₁ j nd hj
        by_contra hsmall
        have hjmem : (j, nd) ∈ t.nodes := mem_of_lookupA hjm
        have hjf : (j, nd) ∈ t.nodes.filter (fun q =>
            q.2.parent = none ∧ (q.2.members.length : ℤ) ≤ τ) := by
          apply List.mem_filter.mpr
          refine ⟨hjmem, ?_⟩
          simp only [decide_eq_true_eq]
          exact ⟨hroot, by omega⟩
        have hjsr : j ∈ (t.nodes.filter (fun q =>
            q.2.parent = none ∧ (q.2.members.length : ℤ) ≤ τ)).map Prod.fst :=
          List.mem_map.mpr ⟨(j, nd), hjf, rfl⟩
        have := hgone₁ j hjsr
        rw [hj] at this
        exact absurd this (by simp)
      have hpair : List.Pairwise (fun a b => b < a)
          (sortDesc ((m₁.filter
            (fun q => 1 ≤ q.2.children.length)).map Prod.fst)) := by
        apply sortDesc_strict
        have hsub : ((m₁.filter (fun q => 1 ≤ q.2.children.length)).map
            Prod.fst).Sublist (keysA m₁) :=
          (List.filter_sublist m₁).map Prod.fst
        exact hsub.nodup hW₁.keys_nodup
      have hset₁ : ∀ i nd, lookupA m₁ i = some nd →
          i ∉ (sortDesc ((m₁.filter
            (fun q => 1 ≤ q.2.children.length)).map Prod.fst)) →
          SettledAt m₁ τ nd := by
        intro i nd hi hnot
        by_cases hc : nd.children = []
        · exact Or.inl hc
        · exfalso
          apply hnot
          apply mem_sortDesc.mpr
          apply List.mem_map.mpr
          refine ⟨(i, nd), ?_, rfl⟩
          apply List.mem_filter.mpr
          refine ⟨mem_of_lookupA hi, ?_⟩
          simp only [decide_eq_true_eq]
          have := List.length_pos.mpr hc
          omega
      cases hpp : processParents τ (sortDesc ((m₁.filter
          (fun q => 1 ≤ q.2.children.length)).map Prod.fst)) m₁ with
      | error e =>
          rw [hpp, except_bind_err] at h
          exact absurd h (by simp)
      | ok m₂ =>
          rw [hpp, except_bind_ok] at h
          obtain ⟨hW₂, hR₂, hS₂⟩ :=
            processParents_pres _ _ _ hW₁ hR₁ hpair hset₁ hpp
          have ht' : t' = { t with nodes := m₂ } := by
            have h' : Except.ok { t with nodes := m₂ } = Except.ok t' := h
            exact ((Except.ok.injEq _ _).mp h').symm
          subst ht'
          exact ⟨hW₂, hR₂, hS₂⟩

theorem mergeBySize_idem {t t' : LevelSetTree} {τ : ℤ}
    (hW : MergeWF t.nodes) (h : mergeBySize t τ = Except.ok t') :
    mergeBySize t' τ = Except.ok t' := by
  obtain ⟨hW', hR', hS'⟩ := mergeBySize_pres hW h
  exact mergeBySize_settled hW'.keys_nodup hR' hS'

/-! ## Iteration order and k-cut search lemmas -/

theorem idxOf_lt_of_pairwise_gt : ∀ {l : List Nat} {a d : Nat},
    List.Pairwise (fun x y => y < x) l → a ∈ l → d ∈ l → a < d →
    l.indexOf d < l.indexOf a := by
  intro l
  induction l with
  | nil => intro a d _ ha; simp at ha
  | cons x xs ih =>
      intro a d hp ha hd had
      have hhead := (List.pairwise_cons.mp hp).1
      have htail := (List.pairwise_cons.mp hp).2
      rcases List.mem_cons.mp ha with h1 | h1
      · exfalso
        rcases List.mem_cons.mp hd with h2 | h2
        · omega
        · have := hhead d h2
          omega
      · have hax : x ≠ a := by
          have := hhead a h1
          omega
        rcases List.mem_cons.mp hd with h2 | h2
        · subst h2
          rw [List.indexOf_cons_self, List.indexOf_cons_ne _ hax]
          exact Nat.succ_pos _
        · have hdx : x ≠ d := by
            have := hhead d h2
            omega
          rw [List.indexOf_cons_ne _ hax, List.indexOf_cons_ne _ hdx]
          exact Nat.succ_lt_succ (ih htail h1 h2 had)

theorem foldl_min_mem {α : Type} [LinearOrder α] :
    ∀ (xs : List α) (x : α), xs.foldl min x ∈ x :: xs := by
  intro xs
  induction xs with
  | nil => intro x; exact List.mem_singleton.mpr rfl
  | cons y ys ih =>
      intro x
      rw [List.foldl_cons]
      rcases List.mem_cons.mp (ih (min x y)) with h1 | h1
      · rw [h1]
        rcases min_choice x y with h2 | h2 <;> rw [h2]
        · exact List.mem_cons_self _ _
        · exact List.mem_cons_of_mem _ (List.mem_cons_self _ _)
      · exact List.mem_cons_of_mem _ (List.mem_cons_of_mem _ h1)

theorem foldl_min_le {α : Type} [LinearOrder α] :
    ∀ (xs : List α) (x : α) (y : α), y ∈ x :: xs → xs.foldl min x ≤ y := by
  intro xs
  induction xs with
  | nil =>
      intro x y hy
      rw [List.mem_singleton.mp hy]
      exact le_refl _
  | cons z zs ih =>
      intro x y hy
      rw [List.foldl_cons]
      rcases List.mem_cons.mp hy with h1 | h1
      · subst h1
        exact le_trans (ih _ _ (List.mem_cons_self _ _)) (min_le_left _ _)
      · rcases List.mem_cons.mp h1 with h2 | h2
        · subst h2
          exact le_trans (ih _ _ (List.mem_cons_self _ _)) (min_le_right _ _)
        · exact ih (min x z) y (List.mem_cons_of_mem _ h2)

theorem foldl_max_mem {α : Type} [LinearOrder α] :
    ∀ (xs : List α) (x : α), xs.foldl max x ∈ x :: xs := by
  intro xs
  induction xs with
  | nil => intro x; exact List.mem_singleton.mpr rfl
  | cons y ys ih =>
      intro x
      rw [List.foldl_cons]
      rcases List.mem_cons.mp (ih (max x y)) with h1 | h1
      · rw [h1]
        rcases max_choice x y with h2 | h2 <;> rw [h2]
        · exact List.mem_cons_self _ _
        · exact List.mem_cons_of_mem _ (List.mem_cons_self _ _)
      · exact List.mem_cons_of_mem _ (List.mem_cons_of_mem _ h1)

theorem le_foldl_max {α : Type} [LinearOrder α] :
    ∀ (xs : List α) (x : α) (y : α), y ∈ x :: xs → y ≤ xs.foldl max x := by
  intro xs
  induction xs with
  | nil =>
      intro x y hy
      rw [List.mem_singleton.mp hy]
      exact le_refl _
  | cons z zs ih =>
      intro x y hy
      rw [List.foldl_cons]
      rcases List.mem_cons.mp hy with h1 | h1
      · subst h1
        exact le_trans (le_max_left _ _) (ih _ _ (List.mem_cons_self _ _))
      · rcases List.mem_cons.mp h1 with h2 | h2
        · subst h2
          exact le_trans (le_max_right _ _) (ih _ _ (List.mem_cons_self _ _))
        · exact ih (max x z) y (List.mem_cons_of_mem _ h2)

theorem npMinQ_spec {l : List ℚ} (h : l ≠ []) :
    ∃ c, npMinQ l = Except.ok c ∧ c ∈ l ∧ ∀ x ∈ l, c ≤ x := by
  match l, h with
  | x :: xs, _ =>
      exact ⟨xs.foldl min x, rfl, foldl_min_mem xs x,
        fun y hy => foldl_min_le xs x y hy⟩

theorem npMinZ_spec {l : List ℤ} (h : l ≠ []) :
    ∃ c, npMinZ l = Except.ok c ∧ c ∈ l ∧ ∀ x ∈ l, c ≤ x := by
  match l, h with
  | x :: xs, _ =>
      exact ⟨xs.foldl min x, rfl, foldl_min_mem xs x,
        fun y hy => foldl_min_le xs x y hy⟩

theorem npMaxZ_spec {l : List ℤ} (h : l ≠ []) :
    ∃ c, npMaxZ l = Except.ok c ∧ c ∈ l ∧ ∀ x ∈ l, x ≤ c := by
  match l, h with
  | x :: xs, _ =>
      exact ⟨xs.foldl max x, rfl, foldl_max_mem xs x,
        fun y hy => le_foldl_max xs x y hy⟩

theorem critList_ne_nil {t : LevelSetTree} (h : t.nodes ≠ []) :
    critList t ≠ [] := by
  rw [critList]
  intro hc
  rw [List.dedup_eq_nil] at hc
  have := List.append_eq_nil.mp hc
  exact h (List.map_eq_nil.mp this.1)


/-! ## Kernel evaluation of the concrete artefacts

The rational operations of the standard library are `@[irreducible]`; for
kernel evaluation of the concrete examples they are made semireducible in
the remainder of this development. -/

attribute [local semireducible] Rat.mul Rat.inv Rat.add Rat.sub Rat.ofScientific

/-! ## Claim theorems -/

/-- Claim C1 — confirmed.  For every tree produced by the
`construct_tree_from_graph` sweep and every non-root node in it, the node's
`start_level` equals its parent's `end_level`, and its `start_mass` equals
its parent's `end_mass`. -/
theorem C1_start_matches_parent_end (adj : List (List Nat)) (density : List ℚ)
    (levels : List ℚ) (i : Nat) (nd : ConnectedComponent) (p : Nat)
    (hnd : lookupA (buildTree adj density levels).nodes i = some nd)
    (hp : nd.parent = some p) :
    ∃ pnd, lookupA (buildTree adj density levels).nodes p = some pnd ∧
      pnd.end_level = some nd.start_level ∧
      pnd.end_mass = some nd.start_mass := by
  obtain ⟨pnd, h1, h2, h3, _⟩ :=
    (buildTree_inv adj density levels).table.start_match i nd hnd p hp
  exact ⟨pnd, h1, h2, h3⟩

/-- Witness for C1 at the concrete chain input: node 1 is a child of node 0
and its start level/mass are 1 and 1/3, its parent's end values. -/
theorem C1_witness :
    ∃ pnd, lookupA (buildTree [[1], [0, 2], [1]] [2, 1, 2] [1, 2]).nodes 0
        = some pnd ∧
      pnd.end_level = some chainChild1.start_level ∧
      pnd.end_mass = some chainChild1.start_mass :=
  C1_start_matches_parent_end [[1], [0, 2], [1]] [2, 1, 2] [1, 2] 1 chainChild1 0
    (by decide) (by decide)

/-- Claim C2 — confirmed (level grid modelled from the spec: the grid
generator `_utl.define_density_grid` is not in the repository, so the grid
is an explicit argument constrained by the spec's LevelGridGenerator
contract).  Under that contract — positive densities, in-range neighbor
indices, a non-empty grid whose final threshold bounds every density —
after the sweep every node of the returned tree has a defined (non-null)
`end_level` and `end_mass`, no subgraph stays live, and every node still
live when the final threshold is processed is closed with exactly the final
threshold as its `end_level`. -/
theorem C2_sweep_closes_all_nodes (adj : List (List Nat)) (density : List ℚ)
    (levels : List ℚ)
    (hlen : density.length = adj.length)
    (hadj : ∀ a ∈ adj, ∀ j ∈ a, j < adj.length)
    (hpos : ∀ d ∈ density, 0 < d)
    (hne : levels ≠ [])
    (hlast : ∀ d ∈ density, d ≤ levels.getLast hne) :
    (∀ i nd, lookupA (buildTree adj density levels).nodes i = some nd →
      nd.end_level.isSome = true ∧ nd.end_mass.isSome = true) ∧
    (buildTree adj density levels).subgraphs = [] ∧
    (∀ k, k ∈ (List.foldl (levelStep adj density) (initState adj)
        levels.dropLast).subgraphs.map Prod.fst →
      ∃ nd, lookupA (buildTree adj density levels).nodes k = some nd ∧
        nd.end_level = some (levels.getLast hne)) := by
  have hsplit : levels.dropLast ++ [levels.getLast hne] = levels :=
    List.dropLast_append_getLast hne
  have hfold : List.foldl (levelStep adj density) (initState adj) levels
      = levelStep adj density
          (List.foldl (levelStep adj density) (initState adj) levels.dropLast)
          (levels.getLast hne) := by
    conv_lhs => rw [← hsplit]
    rw [List.foldl_append]
    rfl
  have hmidInv : MidInv
      (List.foldl (levelStep adj density) (initState adj) levels.dropLast).nodes
      (List.foldl (levelStep adj density) (initState adj) levels.dropLast).subgraphs
      [] [] :=
    sweep_inv adj density levels.dropLast _ (initState_inv adj)
  have hmidDense : DenseInv density
      (List.foldl (levelStep adj density) (initState adj) levels.dropLast) :=
    sweep_dense levels.dropLast _ (DenseInv_init hlen hadj hpos)
  have hwipe : ∀ p ∈ (List.foldl (levelStep adj density) (initState adj)
        levels.dropLast).subgraphs,
      p.2.filter (fun v => ¬ (bgSet density
        (List.foldl (levelStep adj density) (initState adj)
          levels.dropLast).prev (levels.getLast hne)).contains v) = [] := by
    intro p hp
    rw [List.filter_eq_nil]
    intro v hv
    obtain ⟨h1, h2⟩ := hmidDense p hp v hv
    have hin : v ∈ bgSet density
        (List.foldl (levelStep adj density) (initState adj)
          levels.dropLast).prev (levels.getLast hne) :=
      mem_bgSet.mpr ⟨h1, h2, hlast _ (getD_mem_of_lt h1)⟩
    simp [List.elem_iff.mpr hin]
    exact hin
  obtain ⟨e1, e2, e3, e4⟩ := levelNodePass_vanish (pyEdge adj)
    (levels.getLast hne)
    (currentMass adj
      (List.foldl (levelStep adj density) (initState adj) levels.dropLast)
      (bgSet density
        (List.foldl (levelStep adj density) (initState adj)
          levels.dropLast).prev (levels.getLast hne)))
    (bgSet density
      (List.foldl (levelStep adj density) (initState adj)
        levels.dropLast).prev (levels.getLast hne))
    (List.foldl (levelStep adj density) (initState adj) levels.dropLast).subgraphs
    (List.foldl (levelStep adj density) (initState adj) levels.dropLast).nodes
    [] [] hwipe hmidInv.rem_nodup
  have hsub0 : (buildTree adj density levels).subgraphs = [] := by
    show (List.foldl (levelStep adj density) (initState adj) levels).subgraphs = []
    rw [hfold, levelStep]
    show _ ++ _ = ([] : List (Nat × List Nat))
    rw [e1, e2]
    rfl
  have hbn : (buildTree adj density levels).nodes
      = (levelNodePass (pyEdge adj) (levels.getLast hne)
          (currentMass adj
            (List.foldl (levelStep adj density) (initState adj) levels.dropLast)
            (bgSet density
              (List.foldl (levelStep adj density) (initState adj)
                levels.dropLast).prev (levels.getLast hne)))
          (bgSet density
            (List.foldl (levelStep adj density) (initState adj)
              levels.dropLast).prev (levels.getLast hne))
          (List.foldl (levelStep adj density) (initState adj)
            levels.dropLast).subgraphs
          (List.foldl (levelStep adj density) (initState adj)
            levels.dropLast).nodes [] []).1 := by
    show (List.foldl (levelStep adj density) (initState adj) levels).nodes = _
    rw [hfold, levelStep]
  refine ⟨?_, hsub0, ?_⟩
  · intro i nd hnd
    have hfinInv := sweep_inv adj density levels _ (initState_inv adj)
    have hopen := hfinInv.open_iff i nd hnd
    have hnotnone : nd.end_level ≠ none := by
      intro h
      rcases hopen.mp h with h' | h'
      · rw [show (List.foldl (levelStep adj density) (initState adj)
            levels).subgraphs = [] from hsub0] at h'
        simp at h'
      · simp at h'
    have hmass := hfinInv.table.end_pair i nd hnd
    constructor
    · cases he : nd.end_level with
      | none => exact absurd he hnotnone
      | some _ => rfl
    · cases hm : nd.end_mass with
      | some _ => rfl
      | none => exact absurd (hmass.mpr hm) hnotnone
  · intro k hk
    obtain ⟨pH, hpH, hpk⟩ := List.mem_map.mp hk
    obtain ⟨kk, HH⟩ := pH
    simp only at hpk
    subst hpk
    obtain ⟨nd, hnd, _⟩ := hmidInv.shape (kk, HH) (Or.inl hpH)
    have hfin := e4 kk HH nd hpH hnd
    refine ⟨{ nd with
        end_level := some (levels.getLast hne),
        end_mass := some (currentMass adj
          (List.foldl (levelStep adj density) (initState adj) levels.dropLast)
          (bgSet density
            (List.foldl (levelStep adj density) (initState adj)
              levels.dropLast).prev (levels.getLast hne))) }, ?_, rfl⟩
    rw [hbn]
    exact hfin

/-- Witness for C2 at the concrete chain input: the hypotheses of the grid
contract hold and the sweep closes every node, leaving no live subgraph. -/
theorem C2_witness :
    (∀ i nd, lookupA (buildTree [[1], [0, 2], [1]] [2, 1, 2] [1, 2]).nodes i
        = some nd → nd.end_level.isSome = true ∧ nd.end_mass.isSome = true) ∧
    (buildTree [[1], [0, 2], [1]] [2, 1, 2] [1, 2]).subgraphs = [] ∧
    (∀ k, k ∈ (List.foldl (levelStep [[1], [0, 2], [1]] [2, 1, 2])
        (initState [[1], [0, 2], [1]]) [1, 2].dropLast).subgraphs.map Prod.fst →
      ∃ nd, lookupA (buildTree [[1], [0, 2], [1]] [2, 1, 2] [1, 2]).nodes k
          = some nd ∧
        nd.end_level = some ([1, 2].getLast (by decide))) :=
  C2_sweep_closes_all_nodes [[1], [0, 2], [1]] [2, 1, 2] [1, 2]
    (by decide) (by decide) (by decide) (by decide) (by decide)

/-- Claim C4 — code bug.  `make_subtree` only deep-copies the root
(`copy.deepcopy(self.nodes[ix])`); every descendant is assigned by
reference (`T.nodes[branch_ix] = self.nodes[branch_ix]`), so the returned
tree aliases the original's nodes.  At the concrete two-node tree: the
subtree maps node 1 to the *same address* 1 as the original, and
overwriting node 1 through that shared address changes what the original
tree reads back, while the root got the fresh address 2. -/
theorem C4_make_subtree_aliases :
    makeSubtree exHeap exTreeRef 0 = .ok (exHeapAfter, ⟨[(0, 2), (1, 1)]⟩) ∧
    lookupA exTreeRef.nodeAddr 1 = some 1 ∧
    readNode (exHeapAfter.write 1 exNode1Mut) exTreeRef 1 = some exNode1Mut ∧
    readNode exHeapAfter exTreeRef 1 = some exNode1 ∧
    exNode1Mut ≠ exNode1 := by decide

/-- Claim C6 — code bug.  Upper-set extraction reads `self.bg_sets`, an
attribute that `LevelSetTree.__init__` and `construct_tree_from_graph`
never assign, so instead of the specified cluster computation it raises
`AttributeError`: always on the mass scale, and on the density scale
whenever some grid level exceeds the threshold.  Evaluated on a concrete
constructed tree with a mid-grid threshold. -/
theorem C6_upper_set_crashes :
    upperSetCluster chainTree (3/2) "lambda" = .error "AttributeError: bg_sets" ∧
    upperSetCluster chainTree (3/2) "alpha" = .error "AttributeError: bg_sets" ∧
    (∀ t th, upperSetCluster t th "alpha" = .error "AttributeError: bg_sets") := by
  refine ⟨by decide, by decide, ?_⟩
  intro t th
  rfl

/-- Claim C7 — code bug.  On a zero-node tree, `leaf` and `first-k` return
the defined empty result, but `k-level` raises `AttributeError` (the code
calls `self.findKCut` while the method is named `find_K_cut`), and
`upper-set` on the mass scale raises `AttributeError: bg_sets`; so two of
the four extraction methods crash instead of returning the defined empty
result. -/
theorem C7_empty_tree_extraction :
    getClusterLabels emptyTree "leaf" none none none = .ok ([], []) ∧
    getClusterLabels emptyTree "first-k" (some 3) none none = .ok ([], []) ∧
    getClusterLabels emptyTree "k-level" (some 3) none none
      = .error "AttributeError: findKCut" ∧
    getClusterLabels emptyTree "upper-set" none (some (1/2)) (some "alpha")
      = .error "AttributeError: bg_sets" := by decide

/-- Claim C8 — counterexample.  Construction raises no validation error: it
returns a tree for an asymmetric adjacency list, for a density sequence
whose length differs from the adjacency list's, and for a non-ascending
level sequence. -/
theorem C8_counterexample :
    (constructTreeFromGraph [[1], []] [1, 2] [1, 2] none).isOk = true ∧
    (constructTreeFromGraph [[1], [0]] [1] [1, 2] none).isOk = true ∧
    (constructTreeFromGraph [[1], [0]] [1, 2] [2, 1] none).isOk = true := by
  decide

/-- Claim C8 — amended: `construct_tree_from_graph` performs no validation
of its collaborator inputs at entry.  Unpruned construction returns
normally on every adjacency list, density sequence and level grid, and the
graph it builds is always undirected — an asymmetric adjacency list is
silently symmetrised rather than rejected. -/
theorem C8_no_validation :
    (∀ adj density levels,
      constructTreeFromGraph adj density levels none
        = .ok (buildTree adj density levels)) ∧
    (∀ adj i j, pyEdge adj i j = pyEdge adj j i) := by
  constructor
  · intro adj density levels
    rfl
  · intro adj i j
    rw [pyEdge, pyEdge, Bool.or_comm]

/-- Claim C3 — counterexample.  Pruning is not idempotent on arbitrary
trees: on a tree whose node 10 keeps a stale reference to node 7 (a child
of node 5), `_merge_by_size(2)` succeeds once — deleting 7 while 10 still
lists it — and raises `KeyError` when run again on its own output. -/
theorem C3_counterexample :
    mergeBySize c3tree 2 = Except.ok c3tree1 ∧
    mergeBySize c3tree1 2 = Except.error "KeyError" := by
  constructor
  · decide
  · decide

/-- Claim C3 — amended: pruning is idempotent on the trees the library
itself produces.  If `_merge_by_size τ` on a tree built by the
`construct_tree_from_graph` sweep returns a tree, running `_merge_by_size`
with the same `τ` on that result returns it unchanged (same node map,
fields and parent/child relationships). -/
theorem C3_prune_idempotent (adj : List (List Nat))
    (density levels : List ℚ) (τ : ℤ) (t' : LevelSetTree)
    (h : mergeBySize (buildTree adj density levels) τ = Except.ok t') :
    mergeBySize t' τ = Except.ok t' :=
  mergeBySize_idem
    (tableInv_mergeWF (buildTree_inv adj density levels).table) h

/-- Witness for C3: pruning the 3-point chain tree at threshold 0 once
returns it unchanged, and the theorem applies to that run. -/
theorem C3_witness : mergeBySize chainTree 0 = Except.ok chainTree :=
  C3_prune_idempotent [[1], [0, 2], [1]] [2, 1, 2] [1, 2] 0 chainTree
    (by decide)

/-- Claim C9 — confirmed.  For every tree produced by the
`construct_tree_from_graph` sweep, `_merge_by_size` with threshold `τ = 0`
is a no-op: it returns the input tree unchanged (same node map, fields and
parent/child relationships).  Every member list is non-empty, so no root is
small, and every parent of the sweep has at least two children, all of them
big at threshold 0. -/
theorem C9_prune_zero_noop (adj : List (List Nat)) (density : List ℚ)
    (levels : List ℚ) :
    mergeBySize (buildTree adj density levels) 0
      = Except.ok (buildTree adj density levels) := by
  have h := (buildTree_inv adj density levels).table
  exact mergeBySize_settled
    (by rw [h.keys_range]; exact List.nodup_range _)
    (tableInv_rootsBig_zero h) (tableInv_settled_zero h)

/-- Claim C5 — confirmed.  For every non-empty tree, `find_K_cut` returns a
critical value `c`: the smallest critical value whose active-node count
equals `k` when one exists; otherwise, when every count is below `k`, the
smallest critical value achieving the maximal count; otherwise the smallest
critical value achieving the smallest count strictly above `k`. -/
theorem C5_find_K_cut_three_cases (t : LevelSetTree) (k : ℤ) (hne : t.nodes ≠ []) :
    ∃ c, find_K_cut t k = Except.ok c ∧ c ∈ critList t ∧
      ((∃ c₀ ∈ critList t, activeCount t c₀ = k) →
        activeCount t c = k ∧
        ∀ cc ∈ critList t, activeCount t cc = k → c ≤ cc) ∧
      ((¬ ∃ c₀ ∈ critList t, activeCount t c₀ = k) →
        (∀ c₀ ∈ critList t, activeCount t c₀ < k) →
        (∀ cc ∈ critList t, activeCount t cc ≤ activeCount t c) ∧
        ∀ cc ∈ critList t, activeCount t cc = activeCount t c → c ≤ cc) ∧
      ((¬ ∃ c₀ ∈ critList t, activeCount t c₀ = k) →
        (¬ ∀ c₀ ∈ critList t, activeCount t c₀ < k) →
        k < activeCount t c ∧
        (∀ cc ∈ critList t, k < activeCount t cc →
          activeCount t c ≤ activeCount t cc) ∧
        ∀ cc ∈ critList t, activeCount t cc = activeCount t c → c ≤ cc) := by
  have hcrit := critList_ne_nil hne
  have hvals_ne : (critList t).map (activeCount t) ≠ [] := by
    intro hv
    exact hcrit (List.map_eq_nil.mp hv)
  obtain ⟨width, hwEq, hw_mem, hw_ub⟩ := npMaxZ_spec hvals_ne
  have hexists_iff : (k ∈ (critList t).map (activeCount t))
      ↔ ∃ c₀ ∈ critList t, activeCount t c₀ = k := by
    rw [List.mem_map]
  rw [find_K_cut]
  rw [hwEq, except_bind_ok]
  by_cases hk : k ∈ (critList t).map (activeCount t)
  · rw [if_pos hk]
    obtain ⟨c₀, hc₀, he₀⟩ := hexists_iff.mp hk
    have hfne : (critList t).filter (fun c => activeCount t c = k) ≠ [] := by
      apply List.ne_nil_of_mem
      show c₀ ∈ _
      apply List.mem_filter.mpr
      exact ⟨hc₀, by simp [he₀]⟩
    obtain ⟨c, hcEq, hc_mem, hc_min⟩ := npMinQ_spec hfne
    have hc_crit : c ∈ critList t := List.mem_of_mem_filter hc_mem
    have hc_act : activeCount t c = k := by
      have := List.of_mem_filter hc_mem
      simpa using this
    refine ⟨c, hcEq, hc_crit, ?_, ?_, ?_⟩
    · intro _
      refine ⟨hc_act, ?_⟩
      intro cc hcc hacc
      exact hc_min cc (List.mem_filter.mpr ⟨hcc, by simp [hacc]⟩)
    · intro hno _
      exact absurd ⟨c₀, hc₀, he₀⟩ hno
    · intro hno _
      exact absurd ⟨c₀, hc₀, he₀⟩ hno
  · rw [if_neg hk]
    have hub : ∀ cc ∈ critList t, activeCount t cc ≤ width := by
      intro cc hcc
      exact hw_ub _ (List.mem_map.mpr ⟨cc, hcc, rfl⟩)
    have hnok : ∀ c₀ ∈ critList t, activeCount t c₀ ≠ k := by
      intro c₀ hc₀ he
      exact hk (List.mem_map.mpr ⟨c₀, hc₀, he⟩)
    by_cases hwk : width < k
    · rw [if_pos hwk]
      obtain ⟨cw, hcw, hew⟩ := List.mem_map.mp hw_mem
      have hfne : (critList t).filter
          (fun c => activeCount t c = width) ≠ [] := by
        apply List.ne_nil_of_mem
        show cw ∈ _
        apply List.mem_filter.mpr
        exact ⟨hcw, by simp [hew]⟩
      obtain ⟨c, hcEq, hc_mem, hc_min⟩ := npMinQ_spec hfne
      have hc_crit : c ∈ critList t := List.mem_of_mem_filter hc_mem
      have hc_act : activeCount t c = width := by
        have := List.of_mem_filter hc_mem
        simpa using this
      refine ⟨c, hcEq, hc_crit, ?_, ?_, ?_⟩
      · intro hex
        obtain ⟨c₀, hc₀, he₀⟩ := hex
        exact absurd he₀ (hnok c₀ hc₀)
      · intro _ _
        refine ⟨?_, ?_⟩
        · intro cc hcc
          rw [hc_act]
          exact hub cc hcc
        · intro cc hcc hacc
          apply hc_min cc
          apply List.mem_filter.mpr
          refine ⟨hcc, ?_⟩
          rw [hacc, hc_act]
          simp
      · intro _ hnall
        exfalso
        apply hnall
        intro c₀ hc₀
        exact lt_of_le_of_lt (hub c₀ hc₀) hwk
    · rw [if_neg hwk]
      have hkw : k < width := by
        rcases lt_or_eq_of_le (not_lt.mp hwk) with h1 | h1
        · exact h1
        · exfalso
          obtain ⟨cw, hcw, hew⟩ := List.mem_map.mp hw_mem
          exact hnok cw hcw (by rw [hew, ← h1])
      have hvfne : ((critList t).map (activeCount t)).filter
          (fun v => k < v) ≠ [] := by
        apply List.ne_nil_of_mem
        show width ∈ _
        apply List.mem_filter.mpr
        exact ⟨hw_mem, by simp [hkw]⟩
      obtain ⟨ktemp, hktEq, hkt_mem, hkt_lb⟩ := npMinZ_spec hvfne
      rw [hktEq, except_bind_ok]
      have hkt_vals : ktemp ∈ (critList t).map (activeCount t) :=
        List.mem_of_mem_filter hkt_mem
      have hkt_gt : k < ktemp := by
        have := List.of_mem_filter hkt_mem
        simpa using this
      obtain ⟨ckt, hckt, hekt⟩ := List.mem_map.mp hkt_vals
      have hfne : (critList t).filter
          (fun c => activeCount t c = ktemp) ≠ [] := by
        apply List.ne_nil_of_mem
        show ckt ∈ _
        apply List.mem_filter.mpr
        exact ⟨hckt, by simp [hekt]⟩
      obtain ⟨c, hcEq, hc_mem, hc_min⟩ := npMinQ_spec hfne
      have hc_crit : c ∈ critList t := List.mem_of_mem_filter hc_mem
      have hc_act : activeCount t c = ktemp := by
        have := List.of_mem_filter hc_mem
        simpa using this
      refine ⟨c, hcEq, hc_crit, ?_, ?_, ?_⟩
      · intro hex
        obtain ⟨c₀, hc₀, he₀⟩ := hex
        exact absurd he₀ (hnok c₀ hc₀)
      · intro _ hall
        exfalso
        have := hall c hc_crit
        rw [hc_act] at this
        omega
      · intro _ _
        refine ⟨by rw [hc_act]; exact hkt_gt, ?_, ?_⟩
        · intro cc hcc hkcc
          rw [hc_act]
          apply hkt_lb
          apply List.mem_filter.mpr
          refine ⟨List.mem_map.mpr ⟨cc, hcc, rfl⟩, by simp [hkcc]⟩
        · intro cc hcc hacc
          apply hc_min cc
          apply List.mem_filter.mpr
          refine ⟨hcc, ?_⟩
          rw [hacc, hc_act]
          simp

/-- Witness for C5 at the 3-point chain tree with k = 2. -/
theorem C5_witness :
    ∃ c, find_K_cut chainTree 2 = Except.ok c ∧ c ∈ critList chainTree ∧
      ((∃ c₀ ∈ critList chainTree, activeCount chainTree c₀ = 2) →
        activeCount chainTree c = 2 ∧
        ∀ cc ∈ critList chainTree, activeCount chainTree cc = 2 → c ≤ cc) ∧
      ((¬ ∃ c₀ ∈ critList chainTree, activeCount chainTree c₀ = 2) →
        (∀ c₀ ∈ critList chainTree, activeCount chainTree c₀ < 2) →
        (∀ cc ∈ critList chainTree,
          activeCount chainTree cc ≤ activeCount chainTree c) ∧
        ∀ cc ∈ critList chainTree,
          activeCount chainTree cc = activeCount chainTree c → c ≤ cc) ∧
      ((¬ ∃ c₀ ∈ critList chainTree, activeCount chainTree c₀ = 2) →
        (¬ ∀ c₀ ∈ critList chainTree, activeCount chainTree c₀ < 2) →
        2 < activeCount chainTree c ∧
        (∀ cc ∈ critList chainTree, 2 < activeCount chainTree cc →
          activeCount chainTree c ≤ activeCount chainTree cc) ∧
        ∀ cc ∈ critList chainTree,
          activeCount chainTree cc = activeCount chainTree c → c ≤ cc) :=
  C5_find_K_cut_three_cases chainTree 2 (by decide)

/-- Claim C10 — confirmed.  In every constructed tree each non-root node's
id strictly exceeds its parent's id; pruning preserves this; the descendant
relation therefore only increases ids, so in the descending-id snapshot of
internal nodes every descendant is visited before its ancestor. -/
theorem C10_child_ids_exceed_parents (adj : List (List Nat))
    (density levels : List ℚ) (τ : ℤ) (t' : LevelSetTree)
    (h : mergeBySize (buildTree adj density levels) τ = Except.ok t') :
    (∀ i nd p, lookupA (buildTree adj density levels).nodes i = some nd →
      nd.parent = some p → p < i) ∧
    (∀ i nd p, lookupA t'.nodes i = some nd → nd.parent = some p → p < i) ∧
    (∀ a d, Relation.TransGen
        (fun x y => ∃ ynd, lookupA t'.nodes y = some ynd ∧
          ynd.parent = some x) a d → a < d) ∧
    (∀ a d, Relation.TransGen
        (fun x y => ∃ ynd, lookupA t'.nodes y = some ynd ∧
          ynd.parent = some x) a d →
      a ∈ sortDesc ((t'.nodes.filter
          (fun q => 1 ≤ q.2.children.length)).map Prod.fst) →
      d ∈ sortDesc ((t'.nodes.filter
          (fun q => 1 ≤ q.2.children.length)).map Prod.fst) →
      (sortDesc ((t'.nodes.filter
          (fun q => 1 ≤ q.2.children.length)).map Prod.fst)).indexOf d
        < (sortDesc ((t'.nodes.filter
          (fun q => 1 ≤ q.2.children.length)).map Prod.fst)).indexOf a) := by
  have hW := tableInv_mergeWF (buildTree_inv adj density levels).table
  obtain ⟨hW', -, -⟩ := mergeBySize_pres hW h
  have hdesc : ∀ a d, Relation.TransGen
      (fun x y => ∃ ynd, lookupA t'.nodes y = some ynd ∧
        ynd.parent = some x) a d → a < d := by
    intro a d hTG
    induction hTG with
    | single hs =>
        obtain ⟨ynd, hy, hp⟩ := hs
        exact hW'.parent_lt _ _ hy _ hp
    | tail hTG hs ih =>
        obtain ⟨ynd, hy, hp⟩ := hs
        exact lt_trans ih (hW'.parent_lt _ _ hy _ hp)
  refine ⟨fun i nd p hnd hp => hW.parent_lt i nd hnd p hp,
    fun i nd p hnd hp => hW'.parent_lt i nd hnd p hp, hdesc, ?_⟩
  intro a d hTG ha hd
  have hpair : List.Pairwise (fun x y => y < x)
      (sortDesc ((t'.nodes.filter
        (fun q => 1 ≤ q.2.children.length)).map Prod.fst)) := by
    apply sortDesc_strict
    have hsub : ((t'.nodes.filter
        (fun q => 1 ≤ q.2.children.length)).map Prod.fst).Sublist
        (keysA t'.nodes) :=
      (List.filter_sublist t'.nodes).map Prod.fst
    exact hsub.nodup hW'.keys_nodup
  exact idxOf_lt_of_pairwise_gt hpair ha hd (hdesc a d hTG)

/-- Witness for C10: pruning the 3-point chain tree at threshold 0. -/
theorem C10_witness :
    (∀ i nd p,
      lookupA (buildTree [[1], [0, 2], [1]] [2, 1, 2] [1, 2]).nodes i
        = some nd → nd.parent = some p → p < i) ∧
    (∀ i nd p, lookupA chainTree.nodes i = some nd →
      nd.parent = some p → p < i) ∧
    (∀ a d, Relation.TransGen
        (fun x y => ∃ ynd, lookupA chainTree.nodes y = some ynd ∧
          ynd.parent = some x) a d → a < d) ∧
    (∀ a d, Relation.TransGen
        (fun x y => ∃ ynd, lookupA chainTree.nodes y = some ynd ∧
          ynd.parent = some x) a d →
      a ∈ sortDesc ((chainTree.nodes.filter
          (fun q => 1 ≤ q.2.children.length)).map Prod.fst) →
      d ∈ sortDesc ((chainTree.nodes.filter
          (fun q => 1 ≤ q.2.children.length)).map Prod.fst) →
      (sortDesc ((chainTree.nodes.filter
          (fun q => 1 ≤ q.2.children.length)).map Prod.fst)).indexOf d
        < (sortDesc ((chainTree.nodes.filter
          (fun q => 1 ≤ q.2.children.length)).map Prod.fst)).indexOf a) :=
  C10_child_ids_exceed_parents [[1], [0, 2], [1]] [2, 1, 2] [1, 2] 0
    chainTree (by decide)

end DeBaCl
